import Mathlib

/-!
# Verification of the gpui2 line painter

Shallow embedding of `paint_line` from `crates/gpui2/src/text_system/line.rs`
and of the data it consumes.  Pixel quantities (`f32` in the source) are
embedded as rationals; character offsets and identifiers as naturals.  The
paint sink (the `WindowContext` methods `paint_glyph`, `paint_emoji`,
`paint_underline`, `content_mask`, and the text system's `bounding_box`) is
embedded as a record of result functions, and the painter is written as a
trace-producing, early-exit computation, so that the exact sequence of sink
calls made by a paint pass is available for specification.
-/

namespace Zed

/-- 2D point, embedding `Point<Pixels>` (coordinates are `f32` pixels in the
source, embedded as rationals). -/
structure Point where
  x : ℚ
  y : ℚ
deriving DecidableEq, Repr

instance : Add Point := ⟨fun a b => ⟨a.x + b.x, a.y + b.y⟩⟩

theorem Point.add_def (a b : Point) : a + b = ⟨a.x + b.x, a.y + b.y⟩ := rfl

/-- 2D size, embedding `Size<Pixels>`. -/
structure Size where
  width : ℚ
  height : ℚ
deriving DecidableEq, Repr

/-- Rectangle, embedding `Bounds<Pixels>`. -/
structure Bounds where
  origin : Point
  size : Size
deriving DecidableEq, Repr

/-- Modelled from the spec: the rectangle-overlap test used for clipping
("emit a paint primitive only if this box intersects the sink's current clip
bounds").  The geometry module defining `Bounds::intersects` is not under
`src/`; this is the standard strict overlap test of the origin/size
rectangle representation. -/
def Bounds.intersects (a b : Bounds) : Bool :=
  decide (a.origin.x < b.origin.x + b.size.width) &&
    decide (b.origin.x < a.origin.x + a.size.width) &&
    decide (a.origin.y < b.origin.y + b.size.height) &&
    decide (b.origin.y < a.origin.y + a.size.height)

/-- Color, embedding `Hsla` (four `f32` components). -/
structure Hsla where
  h : ℚ
  s : ℚ
  l : ℚ
  a : ℚ
deriving DecidableEq, Repr

/-- `black()`: hue, saturation and lightness zero, alpha one. -/
def black : Hsla := ⟨0, 0, 0, 1⟩

/-- Embedding of `UnderlineStyle`: optional color, thickness in pixels,
and the wavy flag. -/
structure UnderlineStyle where
  color : Option Hsla
  thickness : ℚ
  wavy : Bool
deriving DecidableEq, Repr

/-- Embedding of `DecorationRun` from `line.rs`: a run-length (`len : u32`),
a text color, and an optional underline style. -/
structure DecorationRun where
  len : Nat
  color : Hsla
  underline : Option UnderlineStyle
deriving DecidableEq, Repr

/-- A shaped glyph as consumed by `paint_line`: glyph id, position within
the (unwrapped) line, character index into the original text, and the emoji
flag. -/
structure Glyph where
  id : Nat
  position : Point
  index : Nat
  is_emoji : Bool
deriving DecidableEq, Repr

/-- A shaped run: a font and its ordered glyphs. -/
structure Run where
  font_id : Nat
  glyphs : List Glyph
deriving DecidableEq, Repr

/-- Embedding of `LineLayout` as consumed by `paint_line`: font size, total
width, ascent, descent, the shaped runs, and the character length `len`. -/
structure LineLayout where
  font_size : ℚ
  width : ℚ
  ascent : ℚ
  descent : ℚ
  runs : List Run
  len : Nat
deriving DecidableEq, Repr

/-- Embedding of `WrapBoundary`: the run index and glyph index of the first
glyph of a new visual row. -/
structure WrapBoundary where
  run_ix : Nat
  glyph_ix : Nat
deriving DecidableEq, Repr

/-- `Pixels::MAX` (`f32::MAX`), used by `paint_line` when no wrap width is
supplied. -/
def Pixels.MAX : ℚ := 340282346638528859811704183484516925440

/-- Errors surfaced by the paint sink (`anyhow::Error` in the source, whose
identity the painter only propagates). -/
abbrev PaintError := Nat

/-- One call made to the paint sink during a paint pass: the font-metrics
lookup `bounding_box`, or one of the paint primitives `paint_glyph`,
`paint_emoji`, `paint_underline`. -/
inductive SinkCall : Type where
  | boundingBox : Nat → ℚ → SinkCall
  | glyph : Point → Nat → Nat → ℚ → Hsla → SinkCall
  | emoji : Point → Nat → Nat → ℚ → SinkCall
  | underline : Point → ℚ → UnderlineStyle → SinkCall
deriving DecidableEq, Repr

/-- The paint sink: the behaviour of the window context observed by
`paint_line`.  `boundingBoxResult` is the text system's `bounding_box`
lookup (which may fail), `contentMask` the clip rectangle returned by
`content_mask()`, and `primResult` decides whether a primitive call
succeeds (`none`) or fails with an error. -/
structure PaintSink where
  boundingBoxResult : Nat → ℚ → Except PaintError Bounds
  contentMask : Bounds
  primResult : SinkCall → Option PaintError

/-- Result of a trace-producing, early-exit computation: the list of sink
calls made (in order), and either a value or the first error. -/
inductive StepRes (κ : Type) (α : Type) : Type where
  | ok : List κ → α → StepRes κ α
  | err : List κ → PaintError → StepRes κ α
deriving DecidableEq, Repr

namespace StepRes

/-- Sequencing: run the continuation only in the success case, accumulating
the call trace. -/
def bind {κ α β : Type} : StepRes κ α → (α → StepRes κ β) → StepRes κ β
  | .ok t a, f =>
    match f a with
    | .ok t2 b => .ok (t ++ t2) b
    | .err t2 e => .err (t ++ t2) e
  | .err t e, _ => .err t e

/-- The calls made, in both the success and the failure case. -/
def trace {κ α : Type} : StepRes κ α → List κ
  | .ok t _ => t
  | .err t _ => t

/-- Rename the calls of a trace (used to erase ghost annotations). -/
def mapTrace {κ κ' α : Type} (f : κ → κ') : StepRes κ α → StepRes κ' α
  | .ok t a => .ok (t.map f) a
  | .err t e => .err (t.map f) e

/-- Transform the result value. -/
def mapVal {κ α β : Type} (f : α → β) : StepRes κ α → StepRes κ β
  | .ok t a => .ok t (f a)
  | .err t e => .err t e

@[simp] theorem bind_ok {κ α β : Type} (t : List κ) (a : α) (f : α → StepRes κ β) :
    bind (.ok t a) f =
      match f a with
      | .ok t2 b => .ok (t ++ t2) b
      | .err t2 e => .err (t ++ t2) e := rfl

@[simp] theorem bind_err {κ α β : Type} (t : List κ) (e : PaintError) (f : α → StepRes κ β) :
    bind (.err t e) f = .err t e := rfl

@[simp] theorem trace_ok {κ α : Type} (t : List κ) (a : α) :
    trace (.ok t a : StepRes κ α) = t := rfl

@[simp] theorem trace_err {κ α : Type} (t : List κ) (e : PaintError) :
    trace (.err t e : StepRes κ α) = t := rfl

theorem trace_bind_okL {κ α β : Type} (t : List κ) (a : α) (f : α → StepRes κ β) :
    trace (bind (.ok t a) f) = t ++ trace (f a) := by
  simp only [bind]
  cases f a <;> simp

theorem trace_bind {κ α β : Type} (r : StepRes κ α) (f : α → StepRes κ β) :
    trace (bind r f) =
      match r with
      | .ok t a => t ++ trace (f a)
      | .err t _ => t := by
  cases r with
  | ok t a =>
    simp only [bind]
    cases f a <;> simp
  | err t e => rfl

end StepRes

/-- The mutable loop state of `paint_line`: the decoration-run iterator, the
wrap-boundary iterator, the decoration cursor `run_end`, the active `color`,
the open underline (origin and style), the paint cursor `glyph_origin`, and
`prev_glyph_position`. -/
structure LoopSt where
  druns : List DecorationRun
  wraps : List WrapBoundary
  run_end : Nat
  color : Hsla
  current_underline : Option (Point × UnderlineStyle)
  glyph_origin : Point
  prev_glyph_position : Point
deriving DecidableEq, Repr

/-- Record one primitive call; fail if the sink rejects it. -/
def emitPrim (sink : PaintSink) (c : SinkCall) : StepRes SinkCall Unit :=
  match sink.primResult c with
  | none => .ok [c] ()
  | some e => .err [c] e

/-- `text_system.bounding_box(font_id, font_size)?`: record the lookup and
fail if the text system does. -/
def getBoundingBox (sink : PaintSink) (font_id : Nat) (font_size : ℚ) :
    StepRes SinkCall Bounds :=
  match sink.boundingBoxResult font_id font_size with
  | .ok b => .ok [.boundingBox font_id font_size] b
  | .error e => .err [.boundingBox font_id font_size] e

/-- Line 109: `glyph_origin.x += glyph.position.x - prev_glyph_position.x`. -/
def advanceX (glyph : Glyph) (st : LoopSt) : LoopSt :=
  { st with
    glyph_origin :=
      ⟨st.glyph_origin.x + glyph.position.x - st.prev_glyph_position.x,
        st.glyph_origin.y⟩ }

/-- Lines 111–123: if the glyph coincides with the next pending wrap
boundary, consume it, close (emit) any open underline up to the current x,
then reset `glyph_origin.x` to `origin.x` and advance `glyph_origin.y` by
the line height. -/
def wrapStep (sink : PaintSink) (origin : Point) (line_height : ℚ)
    (run_ix glyph_ix : Nat) (st : LoopSt) : StepRes SinkCall LoopSt :=
  if st.wraps.head? = some ⟨run_ix, glyph_ix⟩ then
    let st1 := { st with wraps := st.wraps.tail }
    match st1.current_underline with
    | some (uo, us) =>
      StepRes.bind (emitPrim sink (.underline uo (st1.glyph_origin.x - uo.x) us))
        fun _ =>
          .ok [] { st1 with
            current_underline := none,
            glyph_origin := ⟨origin.x, st1.glyph_origin.y + line_height⟩ }
    | none =>
      .ok [] { st1 with glyph_origin := ⟨origin.x, st1.glyph_origin.y + line_height⟩ }
  else .ok [] st

/-- Lines 140–144: the style stored when an underline is opened — the run's
underline spec with its color defaulted to the run's text color. -/
def resolveUnderline (style_run : DecorationRun) (ru : UnderlineStyle) : UnderlineStyle :=
  ⟨some (ru.color.getD style_run.color), ru.thickness, ru.wavy⟩

/-- Lines 126–154: the decoration-run transition.  When the glyph's
character index has reached `run_end`, consume the next decoration run (or,
if the runs are exhausted, set `run_end` to the line length and close any
open underline).  Returns the finished underline to be emitted (if any)
together with the updated state. -/
def decorationStep (origin : Point) (baseline_offset_y descent : ℚ)
    (layout_len : Nat) (glyph : Glyph) (st : LoopSt) :
    Option (Point × UnderlineStyle) × LoopSt :=
  if st.run_end ≤ glyph.index then
    match st.druns with
    | style_run :: rest =>
      let fc :
          Option (Point × UnderlineStyle) × Option (Point × UnderlineStyle) :=
        match st.current_underline with
        | some (uo, us) =>
          if style_run.underline ≠ some us then (some (uo, us), none)
          else (none, some (uo, us))
        | none => (none, none)
      let cu : Option (Point × UnderlineStyle) :=
        match style_run.underline with
        | some ru =>
          some (fc.2.getD
            (⟨st.glyph_origin.x,
                origin.y + baseline_offset_y + descent * (618 / 1000)⟩,
              resolveUnderline style_run ru))
        | none => fc.2
      (fc.1,
        { st with
          druns := rest,
          current_underline := cu,
          run_end := st.run_end + style_run.len,
          color := style_run.color })
    | [] =>
      (st.current_underline,
        { st with run_end := layout_len, current_underline := none })
  else (none, st)

/-- Lines 156–162: emit a finished underline (width measured from its origin
to the current x). -/
def emitFinished (sink : PaintSink) (x : ℚ) :
    Option (Point × UnderlineStyle) → StepRes SinkCall Unit
  | some (uo, us) => emitPrim sink (.underline uo (x - uo.x) us)
  | none => .ok [] ()

/-- Lines 164–187: compute the glyph's maximal bounding box at the current
cursor, and, when it intersects the content mask, emit exactly one
`paint_emoji` (if `is_emoji`) or `paint_glyph` (with the active color). -/
def glyphPaintStep (sink : PaintSink) (baseline_offset : Point) (font_id : Nat)
    (font_size : ℚ) (max_glyph_size : Size) (glyph : Glyph) (st : LoopSt) :
    StepRes SinkCall LoopSt :=
  let max_glyph_bounds : Bounds := ⟨st.glyph_origin, max_glyph_size⟩
  if max_glyph_bounds.intersects sink.contentMask then
    if glyph.is_emoji then
      StepRes.bind
        (emitPrim sink (.emoji (st.glyph_origin + baseline_offset) font_id glyph.id font_size))
        fun _ => .ok [] st
    else
      StepRes.bind
        (emitPrim sink
          (.glyph (st.glyph_origin + baseline_offset) font_id glyph.id font_size st.color))
        fun _ => .ok [] st
  else .ok [] st

/-- Lines 124–187: the part of the glyph loop body after the wrap check —
record `prev_glyph_position`, perform the decoration-run transition, emit
any finished underline, then paint the glyph. -/
def glyphTail (sink : PaintSink) (origin : Point) (baseline_offset : Point)
    (descent : ℚ) (layout_len : Nat) (font_id : Nat) (font_size : ℚ)
    (max_glyph_size : Size) (glyph : Glyph) (st : LoopSt) : StepRes SinkCall LoopSt :=
  let st := { st with prev_glyph_position := glyph.position }
  let fs := decorationStep origin baseline_offset.y descent layout_len glyph st
  StepRes.bind (emitFinished sink fs.2.glyph_origin.x fs.1) fun _ =>
    glyphPaintStep sink baseline_offset font_id font_size max_glyph_size glyph fs.2

/-- Lines 108–188: the whole glyph loop body for one glyph — advance the
cursor, handle a pending wrap boundary, then the tail. -/
def processGlyph (sink : PaintSink) (origin : Point) (line_height : ℚ)
    (baseline_offset : Point) (descent : ℚ) (layout_len : Nat) (font_id : Nat)
    (font_size : ℚ) (max_glyph_size : Size) (run_ix glyph_ix : Nat)
    (glyph : Glyph) (st : LoopSt) : StepRes SinkCall LoopSt :=
  StepRes.bind (wrapStep sink origin line_height run_ix glyph_ix (advanceX glyph st))
    (glyphTail sink origin baseline_offset descent layout_len font_id font_size
      max_glyph_size glyph)

/-- The inner `for (glyph_ix, glyph)` loop over one run's glyphs. -/
def processGlyphs (sink : PaintSink) (origin : Point) (line_height : ℚ)
    (baseline_offset : Point) (descent : ℚ) (layout_len : Nat) (font_id : Nat)
    (font_size : ℚ) (max_glyph_size : Size) (run_ix : Nat) :
    Nat → List Glyph → LoopSt → StepRes SinkCall LoopSt
  | _, [], st => .ok [] st
  | glyph_ix, g :: gs, st =>
    StepRes.bind
      (processGlyph sink origin line_height baseline_offset descent layout_len
        font_id font_size max_glyph_size run_ix glyph_ix g st)
      (processGlyphs sink origin line_height baseline_offset descent layout_len
        font_id font_size max_glyph_size run_ix (glyph_ix + 1) gs)

/-- The outer `for (run_ix, run)` loop: look up the run's maximal glyph
bounding box, then process its glyphs. -/
def processRuns (sink : PaintSink) (origin : Point) (line_height : ℚ)
    (baseline_offset : Point) (descent : ℚ) (layout_len : Nat) (font_size : ℚ) :
    Nat → List Run → LoopSt → StepRes SinkCall LoopSt
  | _, [], st => .ok [] st
  | run_ix, r :: rs, st =>
    StepRes.bind (getBoundingBox sink r.font_id font_size) fun bb =>
      StepRes.bind
        (processGlyphs sink origin line_height baseline_offset descent layout_len
          r.font_id font_size bb.size run_ix 0 r.glyphs st)
        (processRuns sink origin line_height baseline_offset descent layout_len
          font_size (run_ix + 1) rs)

/-- The initial loop state of `paint_line` (lines 95–102). -/
def initialSt (decoration_runs : List DecorationRun)
    (wrap_boundaries : List WrapBoundary) (origin : Point) : LoopSt :=
  ⟨decoration_runs, wrap_boundaries, 0, black, none, origin, ⟨0, 0⟩⟩

/-- Lines 191–198: after the loop, close a still-open underline against the
line's effective end x. -/
def finalUnderline (sink : PaintSink) (origin : Point) (layout_width : ℚ)
    (wrap_width : Option ℚ) (st : LoopSt) : StepRes SinkCall Unit :=
  match st.current_underline with
  | some (uo, us) =>
    let line_end_x := origin.x + min (wrap_width.getD Pixels.MAX) layout_width
    emitPrim sink (.underline uo (line_end_x - uo.x) us)
  | none => .ok [] ()

/-- Embedding of `paint_line` (lines 84–201): one forward pass over the
shaped runs, producing the trace of sink calls and propagating the first
sink failure. -/
def paint_line (sink : PaintSink) (origin : Point) (layout : LineLayout)
    (line_height : ℚ) (decoration_runs : List DecorationRun)
    (wrap_width : Option ℚ) (wrap_boundaries : List WrapBoundary) :
    StepRes SinkCall Unit :=
  let padding_top := (line_height - layout.ascent - layout.descent) / 2
  let baseline_offset : Point := ⟨0, padding_top + layout.ascent⟩
  StepRes.bind
    (processRuns sink origin line_height baseline_offset layout.descent layout.len
      layout.font_size 0 layout.runs (initialSt decoration_runs wrap_boundaries origin))
    (finalUnderline sink origin layout.width wrap_width)

/-- Embedding of `ShapedLine`: layout, text elided, decoration runs. -/
structure ShapedLine where
  layout : LineLayout
  decoration_runs : List DecorationRun
deriving Repr

/-- `ShapedLine::paint`: forwards to `paint_line` with no wrap data. -/
def ShapedLine.paint (l : ShapedLine) (origin : Point) (line_height : ℚ)
    (sink : PaintSink) : StepRes SinkCall Unit :=
  paint_line sink origin l.layout line_height l.decoration_runs none []

/-- Embedding of `WrappedLineLayout` as consumed by `WrappedLine::paint`:
the unwrapped layout, the wrap boundaries, and the wrap width. -/
structure WrappedLineLayout where
  unwrapped_layout : LineLayout
  wrap_boundaries : List WrapBoundary
  wrap_width : Option ℚ
deriving Repr

/-- Embedding of `WrappedLine`. -/
structure WrappedLine where
  layout : WrappedLineLayout
  decoration_runs : List DecorationRun
deriving Repr

/-- `WrappedLine::paint`: forwards to `paint_line` with the wrap width and
wrap boundaries of the wrapped layout. -/
def WrappedLine.paint (l : WrappedLine) (origin : Point) (line_height : ℚ)
    (sink : PaintSink) : StepRes SinkCall Unit :=
  paint_line sink origin l.layout.unwrapped_layout line_height l.decoration_runs
    l.layout.wrap_width l.layout.wrap_boundaries

/-- Is this sink call an underline primitive? -/
def SinkCall.isUnderline : SinkCall → Bool
  | .underline _ _ _ => true
  | _ => false

/-- Is this sink call a glyph or emoji paint primitive? -/
def SinkCall.isGlyphPaint : SinkCall → Bool
  | .glyph _ _ _ _ _ => true
  | .emoji _ _ _ _ => true
  | _ => false

/-- The underline primitives of a trace, in emission order. -/
def underlineCalls (t : List SinkCall) : List SinkCall :=
  t.filter SinkCall.isUnderline

/-- The glyph/emoji primitives of a trace, in emission order. -/
def glyphPaintCalls (t : List SinkCall) : List SinkCall :=
  t.filter SinkCall.isGlyphPaint

end Zed

namespace Zed

/-! ## Error propagation (soundness of the call trace) -/

/-- Whether the sink makes a given call fail: metrics lookups fail when
`boundingBoxResult` does, paint primitives when `primResult` says so. -/
def callFails (sink : PaintSink) : SinkCall → Option PaintError
  | .boundingBox f s =>
    match sink.boundingBoxResult f s with
    | .ok _ => none
    | .error e => some e
  | c => sink.primResult c

/-- Every call of the trace succeeds. -/
def traceOk (sink : PaintSink) (t : List SinkCall) : Prop :=
  ∀ c ∈ t, callFails sink c = none

/-- Trace discipline of an early-exit computation: on success every call
made succeeded; on failure the trace is a successful prefix followed by
exactly one failing call, whose error is the one returned.  In particular
no call is made after the failing one, and the successfully submitted
prefix is retained (not rolled back). -/
def StepRes.sound {α : Type} (sink : PaintSink) : StepRes SinkCall α → Prop
  | .ok t _ => traceOk sink t
  | .err t e => ∃ t0 c, t = t0 ++ [c] ∧ traceOk sink t0 ∧ callFails sink c = some e

theorem traceOk_nil (sink : PaintSink) : traceOk sink [] := by
  intro c hc; cases hc

theorem traceOk_append {sink : PaintSink} {t1 t2 : List SinkCall}
    (h1 : traceOk sink t1) (h2 : traceOk sink t2) : traceOk sink (t1 ++ t2) := by
  intro c hc
  rcases List.mem_append.mp hc with h | h
  · exact h1 c h
  · exact h2 c h

theorem sound_pure {α : Type} (sink : PaintSink) (a : α) :
    (StepRes.ok [] a).sound sink := traceOk_nil sink

theorem sound_bind {α β : Type} {sink : PaintSink} {r : StepRes SinkCall α}
    {f : α → StepRes SinkCall β} (hr : r.sound sink)
    (hf : ∀ a, (f a).sound sink) : (r.bind f).sound sink := by
  cases r with
  | ok t a =>
    have ht : traceOk sink t := hr
    have := hf a
    cases hfa : f a with
    | ok t2 b =>
      simp only [StepRes.bind, hfa, StepRes.sound]
      rw [hfa] at this
      exact traceOk_append ht this
    | err t2 e =>
      simp only [StepRes.bind, hfa, StepRes.sound]
      rw [hfa] at this
      rcases this with ⟨t0, c, rfl, ht0, hc⟩
      exact ⟨t ++ t0, c, by simp, traceOk_append ht ht0, hc⟩
  | err t e => exact hr

theorem sound_emitPrim {sink : PaintSink} {c : SinkCall}
    (hc : callFails sink c = sink.primResult c) : (emitPrim sink c).sound sink := by
  unfold emitPrim
  cases h : sink.primResult c with
  | none =>
    simp only [StepRes.sound]
    intro d hd
    rcases List.mem_singleton.mp hd with rfl
    rw [hc, h]
  | some e =>
    exact ⟨[], c, rfl, traceOk_nil sink, by rw [hc, h]⟩

theorem callFails_glyph (sink : PaintSink) (o : Point) (f i : Nat) (s : ℚ) (col : Hsla) :
    callFails sink (.glyph o f i s col) = sink.primResult (.glyph o f i s col) := rfl

theorem callFails_emoji (sink : PaintSink) (o : Point) (f i : Nat) (s : ℚ) :
    callFails sink (.emoji o f i s) = sink.primResult (.emoji o f i s) := rfl

theorem callFails_underline (sink : PaintSink) (o : Point) (w : ℚ) (us : UnderlineStyle) :
    callFails sink (.underline o w us) = sink.primResult (.underline o w us) := rfl

theorem sound_getBoundingBox (sink : PaintSink) (f : Nat) (s : ℚ) :
    (getBoundingBox sink f s).sound sink := by
  unfold getBoundingBox
  cases h : sink.boundingBoxResult f s with
  | ok b =>
    simp only [StepRes.sound]
    intro d hd
    rcases List.mem_singleton.mp hd with rfl
    simp [callFails, h]
  | error e =>
    exact ⟨[], .boundingBox f s, rfl, traceOk_nil sink, by simp [callFails, h]⟩

theorem sound_wrapStep (sink : PaintSink) (origin : Point) (line_height : ℚ)
    (run_ix glyph_ix : Nat) (st : LoopSt) :
    (wrapStep sink origin line_height run_ix glyph_ix st).sound sink := by
  unfold wrapStep
  dsimp only
  split
  · cases st.current_underline with
    | some p =>
      obtain ⟨uo, us⟩ := p
      exact sound_bind (sound_emitPrim (by simp [callFails])) fun _ => sound_pure _ _
    | none => exact sound_pure _ _
  · exact sound_pure _ _

theorem sound_emitFinished (sink : PaintSink) (x : ℚ)
    (fu : Option (Point × UnderlineStyle)) : (emitFinished sink x fu).sound sink := by
  cases fu with
  | some p =>
    obtain ⟨uo, us⟩ := p
    exact sound_emitPrim (by simp [callFails])
  | none => exact sound_pure _ _

theorem sound_glyphPaintStep (sink : PaintSink) (baseline_offset : Point)
    (font_id : Nat) (font_size : ℚ) (max_glyph_size : Size) (glyph : Glyph)
    (st : LoopSt) :
    (glyphPaintStep sink baseline_offset font_id font_size max_glyph_size glyph st).sound
      sink := by
  unfold glyphPaintStep
  dsimp only
  split
  · cases glyph.is_emoji
    · exact sound_bind (sound_emitPrim (by simp [callFails])) fun _ => sound_pure _ _
    · exact sound_bind (sound_emitPrim (by simp [callFails])) fun _ => sound_pure _ _
  · exact sound_pure _ _

theorem sound_glyphTail (sink : PaintSink) (origin : Point) (baseline_offset : Point)
    (descent : ℚ) (layout_len : Nat) (font_id : Nat) (font_size : ℚ)
    (max_glyph_size : Size) (glyph : Glyph) (st : LoopSt) :
    (glyphTail sink origin baseline_offset descent layout_len font_id font_size
      max_glyph_size glyph st).sound sink := by
  unfold glyphTail
  exact sound_bind (sound_emitFinished _ _ _) fun _ => sound_glyphPaintStep _ _ _ _ _ _ _

theorem sound_processGlyph (sink : PaintSink) (origin : Point) (line_height : ℚ)
    (baseline_offset : Point) (descent : ℚ) (layout_len : Nat) (font_id : Nat)
    (font_size : ℚ) (max_glyph_size : Size) (run_ix glyph_ix : Nat) (glyph : Glyph)
    (st : LoopSt) :
    (processGlyph sink origin line_height baseline_offset descent layout_len font_id
      font_size max_glyph_size run_ix glyph_ix glyph st).sound sink := by
  unfold processGlyph
  exact sound_bind (sound_wrapStep _ _ _ _ _ _) fun a =>
    sound_glyphTail _ _ _ _ _ _ _ _ _ _

theorem sound_processGlyphs (sink : PaintSink) (origin : Point) (line_height : ℚ)
    (baseline_offset : Point) (descent : ℚ) (layout_len : Nat) (font_id : Nat)
    (font_size : ℚ) (max_glyph_size : Size) (run_ix : Nat) (glyph_ix : Nat)
    (gs : List Glyph) (st : LoopSt) :
    (processGlyphs sink origin line_height baseline_offset descent layout_len font_id
      font_size max_glyph_size run_ix glyph_ix gs st).sound sink := by
  induction gs generalizing glyph_ix st with
  | nil => exact sound_pure _ _
  | cons g gs ih =>
    exact sound_bind (sound_processGlyph _ _ _ _ _ _ _ _ _ _ _ _ _) fun a => ih _ _

theorem sound_processRuns (sink : PaintSink) (origin : Point) (line_height : ℚ)
    (baseline_offset : Point) (descent : ℚ) (layout_len : Nat) (font_size : ℚ)
    (run_ix : Nat) (rs : List Run) (st : LoopSt) :
    (processRuns sink origin line_height baseline_offset descent layout_len font_size
      run_ix rs st).sound sink := by
  induction rs generalizing run_ix st with
  | nil => exact sound_pure _ _
  | cons r rs ih =>
    exact sound_bind (sound_getBoundingBox _ _ _) fun bb =>
      sound_bind (sound_processGlyphs _ _ _ _ _ _ _ _ _ _ _ _ _) fun a => ih _ _

theorem sound_finalUnderline (sink : PaintSink) (origin : Point) (layout_width : ℚ)
    (wrap_width : Option ℚ) (st : LoopSt) :
    (finalUnderline sink origin layout_width wrap_width st).sound sink := by
  unfold finalUnderline
  split
  · exact sound_emitPrim (by simp [callFails])
  · exact sound_pure _ _

/-- Claim C4: if any sink primitive call (`paint_glyph`, `paint_emoji`,
`paint_underline`) or `bounding_box` metrics lookup fails, `paint_line`
returns that same error as its single failure result: the call trace it made
is a successful prefix followed by exactly one failing call — no sink call
is made after the failing one, there is no retry or fallback, and the
primitives already submitted before the failure are retained (not rolled
back); on success, every call made succeeded. -/
theorem claim_C4 (sink : PaintSink) (origin : Point) (layout : LineLayout)
    (line_height : ℚ) (decoration_runs : List DecorationRun)
    (wrap_width : Option ℚ) (wrap_boundaries : List WrapBoundary) :
    (paint_line sink origin layout line_height decoration_runs wrap_width
      wrap_boundaries).sound sink := by
  unfold paint_line
  exact sound_bind (sound_processRuns _ _ _ _ _ _ _ _ _ _) fun st =>
    sound_finalUnderline _ _ _ _ _

end Zed

namespace Zed

/-! ## Glyph dispatch and clipping -/

theorem trace_emitPrim (sink : PaintSink) (c : SinkCall) :
    (emitPrim sink c).trace = [c] := by
  unfold emitPrim
  cases sink.primResult c <;> rfl

theorem trace_bind_emitPrim_pure {α : Type} (sink : PaintSink) (c : SinkCall) (x : α) :
    (StepRes.bind (emitPrim sink c) fun _ => StepRes.ok [] x).trace = [c] := by
  unfold emitPrim
  cases sink.primResult c <;> rfl

theorem glyphPaintCalls_append (t1 t2 : List SinkCall) :
    glyphPaintCalls (t1 ++ t2) = glyphPaintCalls t1 ++ glyphPaintCalls t2 :=
  List.filter_append _ _

theorem underlineCalls_append (t1 t2 : List SinkCall) :
    underlineCalls (t1 ++ t2) = underlineCalls t1 ++ underlineCalls t2 :=
  List.filter_append _ _

theorem glyphPaintCalls_of_underline_only {t : List SinkCall}
    (h : ∀ c ∈ t, c.isUnderline = true) : glyphPaintCalls t = [] := by
  unfold glyphPaintCalls
  rw [List.filter_eq_nil_iff]
  intro c hc
  have := h c hc
  cases c <;> simp_all [SinkCall.isUnderline, SinkCall.isGlyphPaint]

theorem mem_trace_wrapStep_underline (sink : PaintSink) (origin : Point)
    (line_height : ℚ) (run_ix glyph_ix : Nat) (st : LoopSt) :
    ∀ c ∈ (wrapStep sink origin line_height run_ix glyph_ix st).trace,
      c.isUnderline = true := by
  unfold wrapStep
  dsimp only
  split
  · cases st.current_underline with
    | some p =>
      obtain ⟨uo, us⟩ := p
      intro c hc
      rw [trace_bind_emitPrim_pure] at hc
      rcases List.mem_singleton.mp hc with rfl
      rfl
    | none => intro c hc; cases hc
  · intro c hc; cases hc

theorem mem_trace_emitFinished_underline (sink : PaintSink) (x : ℚ)
    (fu : Option (Point × UnderlineStyle)) :
    ∀ c ∈ (emitFinished sink x fu).trace, c.isUnderline = true := by
  cases fu with
  | some p =>
    obtain ⟨uo, us⟩ := p
    intro c hc
    rw [show emitFinished sink x (some (uo, us)) =
      emitPrim sink (.underline uo (x - uo.x) us) from rfl, trace_emitPrim] at hc
    rcases List.mem_singleton.mp hc with rfl
    rfl
  | none => intro c hc; cases hc

theorem glyphPaintStep_calls (sink : PaintSink) (b : Point) (fid : Nat) (fs : ℚ)
    (mgs : Size) (glyph : Glyph) (st : LoopSt) :
    glyphPaintCalls (glyphPaintStep sink b fid fs mgs glyph st).trace =
      (if (Bounds.intersects ⟨st.glyph_origin, mgs⟩ sink.contentMask) = true then
        [if glyph.is_emoji then SinkCall.emoji (st.glyph_origin + b) fid glyph.id fs
          else SinkCall.glyph (st.glyph_origin + b) fid glyph.id fs st.color]
      else []) := by
  unfold glyphPaintStep
  dsimp only
  split
  · cases hem : glyph.is_emoji
    · simp [hem, trace_bind_emitPrim_pure, glyphPaintCalls, SinkCall.isGlyphPaint]
    · simp [hem, trace_bind_emitPrim_pure, glyphPaintCalls, SinkCall.isGlyphPaint]
  · simp [glyphPaintCalls]

/-- Claim C5: a glyph primitive is emitted for a glyph exactly when the
bounding box with origin `glyph_origin` (the paint cursor at dispatch time)
and the font's maximal glyph size intersects the sink's content-mask bounds;
when emitted it is exactly one `paint_emoji` call if `is_emoji` (the active
color does not appear in the call) and exactly one `paint_glyph` call with
the active color otherwise.  Stated both for the dispatch step itself and
for the whole per-glyph loop body (whose wrap and underline phases
contribute no glyph primitives), given that the phases before the dispatch
succeeded. -/
theorem claim_C5 :
    (∀ (sink : PaintSink) (b : Point) (fid : Nat) (fs : ℚ) (mgs : Size)
      (glyph : Glyph) (st : LoopSt),
      glyphPaintCalls (glyphPaintStep sink b fid fs mgs glyph st).trace =
        (if (Bounds.intersects ⟨st.glyph_origin, mgs⟩ sink.contentMask) = true then
          [if glyph.is_emoji then SinkCall.emoji (st.glyph_origin + b) fid glyph.id fs
            else SinkCall.glyph (st.glyph_origin + b) fid glyph.id fs st.color]
        else [])) ∧
    (∀ (sink : PaintSink) (origin : Point) (line_height : ℚ) (b : Point)
      (descent : ℚ) (ll fid : Nat) (fs : ℚ) (mgs : Size) (rix gix : Nat)
      (glyph : Glyph) (st : LoopSt) (tw tf : List SinkCall) (stW : LoopSt)
      (fu : Option (Point × UnderlineStyle)) (st2 : LoopSt) (u : Unit),
      wrapStep sink origin line_height rix gix (advanceX glyph st) = .ok tw stW →
      decorationStep origin b.y descent ll glyph
        { stW with prev_glyph_position := glyph.position } = (fu, st2) →
      emitFinished sink st2.glyph_origin.x fu = .ok tf u →
      glyphPaintCalls (processGlyph sink origin line_height b descent ll fid fs
        mgs rix gix glyph st).trace =
        (if (Bounds.intersects ⟨st2.glyph_origin, mgs⟩ sink.contentMask) = true then
          [if glyph.is_emoji then SinkCall.emoji (st2.glyph_origin + b) fid glyph.id fs
            else SinkCall.glyph (st2.glyph_origin + b) fid glyph.id fs st2.color]
        else [])) := by
  constructor
  · exact glyphPaintStep_calls
  · intro sink origin line_height b descent ll fid fs mgs rix gix glyph st tw tf stW
      fu st2 u hw hd he
    have htw : ∀ c ∈ tw, c.isUnderline = true := by
      have := mem_trace_wrapStep_underline sink origin line_height rix gix
        (advanceX glyph st)
      rw [hw] at this
      exact this
    have htf : ∀ c ∈ tf, c.isUnderline = true := by
      have := mem_trace_emitFinished_underline sink st2.glyph_origin.x fu
      rw [he] at this
      exact this
    unfold processGlyph
    rw [hw, StepRes.trace_bind_okL, glyphPaintCalls_append,
      glyphPaintCalls_of_underline_only htw]
    unfold glyphTail
    dsimp only
    rw [hd]
    dsimp only
    rw [he, StepRes.trace_bind_okL, glyphPaintCalls_append,
      glyphPaintCalls_of_underline_only htf, glyphPaintStep_calls]
    simp

end Zed

namespace Zed

/-! ## Bind laws and concrete fixtures -/

theorem StepRes.bind_pure {κ α β : Type} (a : α) (f : α → StepRes κ β) :
    StepRes.bind (.ok [] a) f = f a := by
  simp only [StepRes.bind]
  cases f a <;> simp

theorem StepRes.bind_assoc {κ α β γ : Type} (r : StepRes κ α)
    (f : α → StepRes κ β) (g : β → StepRes κ γ) :
    StepRes.bind (StepRes.bind r f) g = StepRes.bind r fun a => StepRes.bind (f a) g := by
  cases r with
  | err t e => rfl
  | ok t a =>
    cases hf : f a with
    | ok t2 b => cases hg : g b <;> simp [StepRes.bind, hf, hg, List.append_assoc]
    | err t2 e => simp [StepRes.bind, hf]

/-- A sink that accepts every call, with a large content mask. -/
def sinkTotal : PaintSink :=
  ⟨fun _ _ => .ok ⟨⟨0, 0⟩, ⟨5, 5⟩⟩, ⟨⟨-100, -100⟩, ⟨200, 200⟩⟩, fun _ => none⟩

/-- Claim C5 witness: at a concrete glyph and state (no pending wrap, runs
exhausted, underline closed) the per-glyph body emits exactly one
`paint_glyph` with the active color. -/
theorem claim_C5_witness :
    glyphPaintCalls (processGlyph sinkTotal ⟨0, 0⟩ 2 ⟨0, 1⟩ 1 3 7 12 ⟨5, 5⟩ 0 0
      ⟨100, ⟨0, 0⟩, 0, false⟩ ⟨[], [], 0, black, none, ⟨0, 0⟩, ⟨0, 0⟩⟩).trace =
      [SinkCall.glyph ⟨0, 1⟩ 7 100 12 black] := by
  have h := claim_C5.2 sinkTotal ⟨0, 0⟩ 2 ⟨0, 1⟩ 1 3 7 12 ⟨5, 5⟩ 0 0
    ⟨100, ⟨0, 0⟩, 0, false⟩ ⟨[], [], 0, black, none, ⟨0, 0⟩, ⟨0, 0⟩⟩
    [] [] (advanceX ⟨100, ⟨0, 0⟩, 0, false⟩ ⟨[], [], 0, black, none, ⟨0, 0⟩, ⟨0, 0⟩⟩)
    none
    (decorationStep ⟨0, 0⟩ 1 1 3 ⟨100, ⟨0, 0⟩, 0, false⟩
      { advanceX ⟨100, ⟨0, 0⟩, 0, false⟩ ⟨[], [], 0, black, none, ⟨0, 0⟩, ⟨0, 0⟩⟩ with
        prev_glyph_position := Point.mk 0 0 }).2
    () rfl rfl rfl
  rw [h]
  norm_num [decorationStep, advanceX, Bounds.intersects, sinkTotal, black, Point.add_def]

/-! ## Wrap handling (claim C2) -/

/-- Claim C2: when a glyph coincides with the next pending wrap boundary and
an underline is open, the per-glyph body first emits that underline closed
at the advanced cursor x (width = advanced x minus the underline origin x),
and only afterwards — on the state whose wrap was consumed, whose underline
is closed, and whose cursor was reset to `origin.x` and moved down one line
height — performs the decoration-run transition and the glyph painting
(`glyphTail`). -/
theorem claim_C2 (sink : PaintSink) (origin : Point) (line_height : ℚ)
    (baseline_offset : Point) (descent : ℚ) (ll fid : Nat) (fs : ℚ) (mgs : Size)
    (rix gix : Nat) (glyph : Glyph) (st : LoopSt) (uo : Point) (us : UnderlineStyle)
    (hw : st.wraps.head? = some ⟨rix, gix⟩)
    (hcu : st.current_underline = some (uo, us)) :
    processGlyph sink origin line_height baseline_offset descent ll fid fs mgs
      rix gix glyph st =
      StepRes.bind
        (emitPrim sink
          (.underline uo ((advanceX glyph st).glyph_origin.x - uo.x) us))
        (fun _ => glyphTail sink origin baseline_offset descent ll fid fs mgs glyph
          { st with
            wraps := st.wraps.tail,
            current_underline := none,
            glyph_origin := ⟨origin.x, st.glyph_origin.y + line_height⟩ }) := by
  unfold processGlyph wrapStep
  dsimp only [advanceX]
  simp only [hw, hcu, if_pos]
  rw [StepRes.bind_assoc]
  congr 1
  funext u
  rw [StepRes.bind_pure]

end Zed

namespace Zed

/-! ## Behaviour after the decoration runs are exhausted (claims C7, C10) -/

/-- Active-color predicate on calls: every `paint_glyph` call carries this
color (other calls are unconstrained). -/
def glyphColorIs (col : Hsla) : SinkCall → Prop
  | .glyph _ _ _ _ c => c = col
  | _ => True

/-- Every underline call stems from the given open underline: same origin
point and same style (other calls are unconstrained). -/
def underlineFrom (cu : Option (Point × UnderlineStyle)) : SinkCall → Prop
  | .underline o _ s => ∃ p, cu = some (p, s) ∧ o = p
  | _ => True

/-- Number of underline calls in a trace. -/
def countU (t : List SinkCall) : Nat := (underlineCalls t).length

/-- One if an underline is open, zero otherwise. -/
def cuBudget : Option (Point × UnderlineStyle) → Nat
  | none => 0
  | some _ => 1

theorem countU_append (t1 t2 : List SinkCall) :
    countU (t1 ++ t2) = countU t1 + countU t2 := by
  unfold countU
  rw [underlineCalls_append, List.length_append]

theorem countU_zero_not_underline {t : List SinkCall} (h : countU t = 0) :
    ∀ c ∈ t, c.isUnderline = false := by
  unfold countU underlineCalls at h
  rw [List.length_eq_zero, List.filter_eq_nil_iff] at h
  intro c hc
  simpa using h c hc

theorem underlineFrom_of_not_underline {c : SinkCall}
    (h : c.isUnderline = false) (cu : Option (Point × UnderlineStyle)) :
    underlineFrom cu c := by
  cases c <;> simp_all [underlineFrom, SinkCall.isUnderline]

/-- Invariant of any piece of the paint pass run from a state whose
decoration runs are exhausted: glyph paints keep the active color, underline
emissions can only close the already-open underline (at most one, with its
origin and style), and the loop state keeps its color and either keeps or
closes the open underline. -/
def ExhInv (st : LoopSt) (r : StepRes SinkCall LoopSt) : Prop :=
  (∀ c ∈ r.trace, glyphColorIs st.color c ∧ underlineFrom st.current_underline c) ∧
  match r with
  | .ok t st' =>
    st'.druns = [] ∧ st'.color = st.color ∧
    (st'.current_underline = st.current_underline ∨ st'.current_underline = none) ∧
    countU t + cuBudget st'.current_underline ≤ cuBudget st.current_underline
  | .err t _ => countU t ≤ cuBudget st.current_underline

theorem exh_pure {st : LoopSt} (hd : st.druns = []) : ExhInv st (.ok [] st) := by
  refine ⟨fun c hc => absurd hc (by simp), hd, rfl, Or.inl rfl, ?_⟩
  simp [countU, underlineCalls]

theorem exh_bind {st : LoopSt} {r : StepRes SinkCall LoopSt}
    {f : LoopSt → StepRes SinkCall LoopSt} (hr : ExhInv st r)
    (hf : ∀ t st', r = .ok t st' → ExhInv st' (f st')) :
    ExhInv st (StepRes.bind r f) := by
  cases r with
  | err t e => exact hr
  | ok t st' =>
    obtain ⟨hcalls, hdr, hcol, hcu, hbud⟩ := hr
    have hf' := hf t st' rfl
    obtain ⟨hcalls2, hrest2⟩ := hf'
    have hlift : ∀ c ∈ (f st').trace,
        glyphColorIs st.color c ∧ underlineFrom st.current_underline c := by
      intro c hc
      have h2 := hcalls2 c hc
      constructor
      · rw [← hcol]; exact h2.1
      · rcases hcu with hcueq | hcunone
        · rw [← hcueq]; exact h2.2
        · cases hfa : f st' with
          | ok t2 st'' =>
            rw [hfa] at hrest2 hc
            have : countU t2 = 0 := by
              have := hrest2.2.2.2
              rw [hcunone] at this
              simp [cuBudget] at this
              omega
            exact underlineFrom_of_not_underline
              (countU_zero_not_underline this c hc) _
          | err t2 e =>
            rw [hfa] at hrest2 hc
            have : countU t2 = 0 := by
              rw [hcunone] at hrest2
              simp only [StepRes.trace_err] at hc
              simp [cuBudget] at hrest2
              omega
            exact underlineFrom_of_not_underline
              (countU_zero_not_underline this c hc) _
    cases hfa : f st' with
    | ok t2 st'' =>
      rw [hfa] at hrest2 hlift
      simp only [StepRes.bind, hfa]
      refine ⟨?_, hrest2.1, hrest2.2.1.trans hcol, ?_, ?_⟩
      · intro c hc
        simp only [StepRes.trace_ok] at hc
        rcases List.mem_append.mp hc with h | h
        · exact hcalls c h
        · exact hlift c (by simpa using h)
      · rcases hrest2.2.2.1 with h | h
        · rw [h]; exact hcu
        · exact Or.inr h
      · rw [countU_append]
        have h2 := hrest2.2.2.2
        omega
    | err t2 e =>
      rw [hfa] at hrest2 hlift
      simp only [StepRes.bind, hfa]
      refine ⟨?_, ?_⟩
      · intro c hc
        simp only [StepRes.trace_err] at hc
        rcases List.mem_append.mp hc with h | h
        · exact hcalls c h
        · exact hlift c (by simpa using h)
      · show countU (t ++ t2) ≤ cuBudget st.current_underline
        have h2 : countU t2 ≤ cuBudget st'.current_underline := hrest2
        rw [countU_append]
        omega

end Zed

namespace Zed

theorem countU_cons_underline {c : SinkCall} (h : c.isUnderline = true)
    (t : List SinkCall) : countU (c :: t) = countU t + 1 := by
  simp [countU, underlineCalls, List.filter_cons, h, Nat.add_comm]

theorem countU_cons_not_underline {c : SinkCall} (h : c.isUnderline = false)
    (t : List SinkCall) : countU (c :: t) = countU t := by
  simp [countU, underlineCalls, List.filter_cons, h]

/-- Transport of the invariant along a state with the same decoration
cursor data. -/
theorem exh_keep {st st2 : LoopSt} {r : StepRes SinkCall LoopSt}
    (h2 : ExhInv st2 r) (hcol : st2.color = st.color)
    (hcu2 : st2.current_underline = st.current_underline) : ExhInv st r := by
  unfold ExhInv at h2 ⊢
  rw [hcol, hcu2] at h2
  exact h2

theorem exh_wrapStep (sink : PaintSink) (origin : Point) (line_height : ℚ)
    (rix gix : Nat) (st : LoopSt) (hd : st.druns = []) :
    ExhInv st (wrapStep sink origin line_height rix gix st) := by
  unfold wrapStep
  dsimp only
  split
  · cases hcu : st.current_underline with
    | some p =>
      obtain ⟨uo, us⟩ := p
      dsimp only
      unfold emitPrim
      cases hpr : sink.primResult (SinkCall.underline uo (st.glyph_origin.x - uo.x) us) with
      | none =>
        simp only [StepRes.bind]
        refine ⟨?_, hd, rfl, Or.inr rfl, ?_⟩
        · intro c hc
          simp only [StepRes.trace_ok, List.append_nil] at hc
          rcases List.mem_singleton.mp hc with rfl
          exact ⟨trivial, uo, hcu, rfl⟩
        · rw [hcu]
          simp [countU, underlineCalls, SinkCall.isUnderline, cuBudget]
      | some e =>
        refine ⟨?_, ?_⟩
        · intro c hc
          rcases List.mem_singleton.mp hc with rfl
          exact ⟨trivial, uo, hcu, rfl⟩
        · show countU [SinkCall.underline uo (st.glyph_origin.x - uo.x) us] ≤
            cuBudget st.current_underline
          rw [hcu]
          simp [countU, underlineCalls, SinkCall.isUnderline, cuBudget]
    | none =>
      dsimp only
      refine ⟨fun c hc => absurd hc (by simp), hd, rfl, Or.inr rfl, ?_⟩
      rw [hcu]
      simp [countU, underlineCalls]
  · exact exh_pure hd

theorem exh_glyphPaintStep (sink : PaintSink) (b : Point) (fid : Nat) (fs : ℚ)
    (mgs : Size) (glyph : Glyph) (st : LoopSt) (hd : st.druns = []) :
    ExhInv st (glyphPaintStep sink b fid fs mgs glyph st) := by
  unfold glyphPaintStep
  dsimp only
  split
  · cases hem : glyph.is_emoji
    · unfold emitPrim
      cases hpr : sink.primResult
          (SinkCall.glyph (st.glyph_origin + b) fid glyph.id fs st.color) with
      | none =>
        simp only [StepRes.bind]
        refine ⟨?_, hd, rfl, Or.inl rfl, ?_⟩
        · intro c hc
          simp only [StepRes.trace_ok, List.append_nil] at hc
          rcases List.mem_singleton.mp hc with rfl
          exact ⟨rfl, trivial⟩
        · simp [countU, underlineCalls, SinkCall.isUnderline]
      | some e =>
        refine ⟨?_, ?_⟩
        · intro c hc
          rcases List.mem_singleton.mp hc with rfl
          exact ⟨rfl, trivial⟩
        · show countU [SinkCall.glyph (st.glyph_origin + b) fid glyph.id fs st.color] ≤
            cuBudget st.current_underline
          simp [countU, underlineCalls, SinkCall.isUnderline]
    · unfold emitPrim
      cases hpr : sink.primResult
          (SinkCall.emoji (st.glyph_origin + b) fid glyph.id fs) with
      | none =>
        simp only [StepRes.bind]
        refine ⟨?_, hd, rfl, Or.inl rfl, ?_⟩
        · intro c hc
          simp only [StepRes.trace_ok, List.append_nil] at hc
          rcases List.mem_singleton.mp hc with rfl
          exact ⟨trivial, trivial⟩
        · simp [countU, underlineCalls, SinkCall.isUnderline]
      | some e =>
        refine ⟨?_, ?_⟩
        · intro c hc
          rcases List.mem_singleton.mp hc with rfl
          exact ⟨trivial, trivial⟩
        · show countU [SinkCall.emoji (st.glyph_origin + b) fid glyph.id fs] ≤
            cuBudget st.current_underline
          simp [countU, underlineCalls, SinkCall.isUnderline]
  · exact exh_pure hd

/-- Closing the open underline and continuing with a closed-underline
computation preserves the invariant. -/
theorem exh_close_bind (sink : PaintSink) (uo : Point) (us : UnderlineStyle)
    (w : ℚ) (st st2 : LoopSt) {k : Unit → StepRes SinkCall LoopSt}
    (hcu : st.current_underline = some (uo, us))
    (hcol : st2.color = st.color)
    (hcu2 : st2.current_underline = none)
    (h2 : ExhInv st2 (k ())) :
    ExhInv st (StepRes.bind (emitPrim sink (SinkCall.underline uo w us)) k) := by
  obtain ⟨hcalls2, hrest2⟩ := h2
  have hcallsS : ∀ c ∈ (k ()).trace,
      glyphColorIs st.color c ∧ underlineFrom st.current_underline c := by
    intro c hc
    have h := hcalls2 c hc
    refine ⟨by rw [← hcol]; exact h.1, ?_⟩
    cases c with
    | underline o w2 s =>
      exfalso
      obtain ⟨p, hp, _⟩ := h.2
      rw [hcu2] at hp
      exact Option.noConfusion hp
    | boundingBox f s => trivial
    | glyph o f i s c => trivial
    | emoji o f i s => trivial
  unfold emitPrim
  cases hpr : sink.primResult (SinkCall.underline uo w us) with
  | none =>
    cases hk : k () with
    | ok t2 st2' =>
      rw [hk] at hcallsS hrest2
      simp only [StepRes.bind, hk]
      refine ⟨?_, hrest2.1, hrest2.2.1.trans hcol, ?_, ?_⟩
      · intro c hc
        simp only [StepRes.trace_ok, List.singleton_append, List.mem_cons] at hc
        rcases hc with rfl | hc
        · exact ⟨trivial, uo, hcu, rfl⟩
        · exact hcallsS c hc
      · rcases hrest2.2.2.1 with h | h
        · rw [h, hcu2]; exact Or.inr rfl
        · exact Or.inr h
      · have hb2 := hrest2.2.2.2
        rw [hcu2] at hb2
        simp only [cuBudget] at hb2
        rw [List.singleton_append, countU_cons_underline (by rfl), hcu]
        simp only [cuBudget]
        omega
    | err t2 e =>
      rw [hk] at hcallsS hrest2
      simp only [StepRes.bind, hk]
      refine ⟨?_, ?_⟩
      · intro c hc
        simp only [StepRes.trace_err, List.singleton_append, List.mem_cons] at hc
        rcases hc with rfl | hc
        · exact ⟨trivial, uo, hcu, rfl⟩
        · exact hcallsS c hc
      · show countU (SinkCall.underline uo w us :: t2) ≤ cuBudget st.current_underline
        have hb2 : countU t2 ≤ cuBudget st2.current_underline := hrest2
        rw [hcu2] at hb2
        simp only [cuBudget] at hb2
        rw [countU_cons_underline (by rfl), hcu]
        simp only [cuBudget]
        omega
  | some e =>
    refine ⟨?_, ?_⟩
    · intro c hc
      rcases List.mem_singleton.mp hc with rfl
      exact ⟨trivial, uo, hcu, rfl⟩
    · show countU [SinkCall.underline uo w us] ≤ cuBudget st.current_underline
      rw [hcu]
      simp [countU, underlineCalls, SinkCall.isUnderline, cuBudget]

theorem exh_glyphTail (sink : PaintSink) (origin : Point) (b : Point) (descent : ℚ)
    (ll fid : Nat) (fs : ℚ) (mgs : Size) (glyph : Glyph) (st : LoopSt)
    (hd : st.druns = []) :
    ExhInv st (glyphTail sink origin b descent ll fid fs mgs glyph st) := by
  unfold glyphTail decorationStep
  dsimp only
  split
  · rw [hd]
    dsimp only
    cases hcu : st.current_underline with
    | some p =>
      obtain ⟨uo, us⟩ := p
      simp only [emitFinished]
      exact exh_close_bind sink uo us _ st
        ⟨[], st.wraps, ll, st.color, none, st.glyph_origin, glyph.position⟩ hcu rfl rfl
        (exh_glyphPaintStep sink b fid fs mgs glyph
          ⟨[], st.wraps, ll, st.color, none, st.glyph_origin, glyph.position⟩ rfl)
    | none =>
      simp only [emitFinished]
      rw [StepRes.bind_pure]
      exact exh_keep
        (exh_glyphPaintStep sink b fid fs mgs glyph
          ⟨[], st.wraps, ll, st.color, none, st.glyph_origin, glyph.position⟩ rfl)
        rfl hcu.symm
  · simp only [emitFinished]
    rw [StepRes.bind_pure]
    exact exh_keep
      (exh_glyphPaintStep sink b fid fs mgs glyph
        ⟨st.druns, st.wraps, st.run_end, st.color, st.current_underline,
          st.glyph_origin, glyph.position⟩ hd)
      rfl rfl

theorem exh_processGlyph (sink : PaintSink) (origin : Point) (line_height : ℚ)
    (b : Point) (descent : ℚ) (ll fid : Nat) (fs : ℚ) (mgs : Size)
    (rix gix : Nat) (glyph : Glyph) (st : LoopSt) (hd : st.druns = []) :
    ExhInv st (processGlyph sink origin line_height b descent ll fid fs mgs
      rix gix glyph st) := by
  unfold processGlyph
  refine exh_bind
    (exh_keep
      (exh_wrapStep sink origin line_height rix gix (advanceX glyph st) hd) rfl rfl) ?_
  intro t st' heq
  have hinv : ExhInv st (wrapStep sink origin line_height rix gix (advanceX glyph st)) :=
    exh_keep (exh_wrapStep sink origin line_height rix gix (advanceX glyph st) hd) rfl rfl
  rw [heq] at hinv
  exact exh_glyphTail sink origin b descent ll fid fs mgs glyph st' hinv.2.1

theorem exh_processGlyphs (sink : PaintSink) (origin : Point) (line_height : ℚ)
    (b : Point) (descent : ℚ) (ll fid : Nat) (fs : ℚ) (mgs : Size) (rix : Nat)
    (gix : Nat) (gs : List Glyph) (st : LoopSt) (hd : st.druns = []) :
    ExhInv st (processGlyphs sink origin line_height b descent ll fid fs mgs
      rix gix gs st) := by
  induction gs generalizing gix st with
  | nil => exact exh_pure hd
  | cons g gs ih =>
    refine exh_bind (exh_processGlyph sink origin line_height b descent ll fid fs
      mgs rix gix g st hd) ?_
    intro t st' heq
    have hinv := exh_processGlyph sink origin line_height b descent ll fid fs mgs
      rix gix g st hd
    rw [heq] at hinv
    exact ih (gix + 1) st' hinv.2.1

theorem exh_bb_bind (sink : PaintSink) (fid : Nat) (fs : ℚ) {st : LoopSt}
    {k : Bounds → StepRes SinkCall LoopSt} (hk : ∀ b, ExhInv st (k b)) :
    ExhInv st (StepRes.bind (getBoundingBox sink fid fs) k) := by
  unfold getBoundingBox
  cases hbb : sink.boundingBoxResult fid fs with
  | error e =>
    refine ⟨fun c hc => ?_, ?_⟩
    · rcases List.mem_singleton.mp hc with rfl
      exact ⟨trivial, trivial⟩
    · show countU [SinkCall.boundingBox fid fs] ≤ cuBudget st.current_underline
      simp [countU, underlineCalls, SinkCall.isUnderline]
  | ok b =>
    obtain ⟨hcalls2, hrest2⟩ := hk b
    cases hkb : k b with
    | ok t2 st2' =>
      rw [hkb] at hcalls2 hrest2
      simp only [StepRes.bind, hkb]
      refine ⟨?_, hrest2.1, hrest2.2.1, hrest2.2.2.1, ?_⟩
      · intro c hc
        simp only [StepRes.trace_ok, List.singleton_append, List.mem_cons] at hc
        rcases hc with rfl | hc
        · exact ⟨trivial, trivial⟩
        · exact hcalls2 c hc
      · rw [List.singleton_append, countU_cons_not_underline (by rfl)]
        exact hrest2.2.2.2
    | err t2 e =>
      rw [hkb] at hcalls2 hrest2
      simp only [StepRes.bind, hkb]
      refine ⟨?_, ?_⟩
      · intro c hc
        simp only [StepRes.trace_err, List.singleton_append, List.mem_cons] at hc
        rcases hc with rfl | hc
        · exact ⟨trivial, trivial⟩
        · exact hcalls2 c hc
      · show countU (SinkCall.boundingBox fid fs :: t2) ≤ cuBudget st.current_underline
        rw [countU_cons_not_underline (by rfl)]
        exact hrest2

theorem exh_processRuns (sink : PaintSink) (origin : Point) (line_height : ℚ)
    (b : Point) (descent : ℚ) (ll : Nat) (fs : ℚ) (rix : Nat) (rs : List Run)
    (st : LoopSt) (hd : st.druns = []) :
    ExhInv st (processRuns sink origin line_height b descent ll fs rix rs st) := by
  induction rs generalizing rix st with
  | nil => exact exh_pure hd
  | cons r rs ih =>
    refine exh_bb_bind sink r.font_id fs fun bb => ?_
    refine exh_bind (exh_processGlyphs sink origin line_height b descent ll
      r.font_id fs bb.size rix 0 r.glyphs st hd) ?_
    intro t st' heq
    have hinv := exh_processGlyphs sink origin line_height b descent ll r.font_id fs
      bb.size rix 0 r.glyphs st hd
    rw [heq] at hinv
    exact ih (rix + 1) st' hinv.2.1

theorem finalUnderline_facts (sink : PaintSink) (origin : Point) (w : ℚ)
    (ww : Option ℚ) (st : LoopSt) :
    (∀ c ∈ (finalUnderline sink origin w ww st).trace,
      underlineFrom st.current_underline c) ∧
    countU (finalUnderline sink origin w ww st).trace ≤
      cuBudget st.current_underline := by
  unfold finalUnderline
  cases hcu : st.current_underline with
  | some p =>
    obtain ⟨uo, us⟩ := p
    dsimp only
    constructor
    · intro c hc
      rw [trace_emitPrim] at hc
      rcases List.mem_singleton.mp hc with rfl
      exact ⟨uo, rfl, rfl⟩
    · rw [trace_emitPrim]
      simp [countU, underlineCalls, SinkCall.isUnderline, cuBudget]
  | none =>
    exact ⟨fun c hc => absurd hc (by simp), by simp [countU, underlineCalls]⟩

end Zed

namespace Zed

theorem cuBudget_le_one (o : Option (Point × UnderlineStyle)) : cuBudget o ≤ 1 := by
  cases o <;> simp [cuBudget]

theorem glyphColorIs_of_isUnderline {c : SinkCall} (h : c.isUnderline = true)
    (col : Hsla) : glyphColorIs col c := by
  cases c <;> simp_all [glyphColorIs, SinkCall.isUnderline]

theorem mem_trace_finalUnderline_underline (sink : PaintSink) (origin : Point)
    (w : ℚ) (ww : Option ℚ) (st : LoopSt) :
    ∀ c ∈ (finalUnderline sink origin w ww st).trace, c.isUnderline = true := by
  unfold finalUnderline
  split
  · intro c hc
    rw [trace_emitPrim] at hc
    rcases List.mem_singleton.mp hc with rfl
    rfl
  · intro c hc
    cases hc

/-- The whole remaining paint pass (glyph loops plus the final underline
close) from a state whose decoration runs are exhausted: every glyph paint
keeps the active color, and at most one underline is emitted — the one that
was already open, at its recorded origin and style. -/
theorem exh_paint_tail (sink : PaintSink) (origin : Point) (line_height : ℚ)
    (b : Point) (descent : ℚ) (ll : Nat) (fs : ℚ) (w : ℚ) (ww : Option ℚ)
    (rix : Nat) (rs : List Run) (st : LoopSt) (hd : st.druns = []) :
    (∀ c ∈ (StepRes.bind (processRuns sink origin line_height b descent ll fs rix rs st)
        (finalUnderline sink origin w ww)).trace,
      glyphColorIs st.color c ∧ underlineFrom st.current_underline c) ∧
    countU (StepRes.bind (processRuns sink origin line_height b descent ll fs rix rs st)
        (finalUnderline sink origin w ww)).trace ≤ 1 := by
  have hrun := exh_processRuns sink origin line_height b descent ll fs rix rs st hd
  cases hpr : processRuns sink origin line_height b descent ll fs rix rs st with
  | ok t st2 =>
    rw [hpr] at hrun
    obtain ⟨hcalls, hdr2, hcol2, hcu2, hbud⟩ := hrun
    have hfin := finalUnderline_facts sink origin w ww st2
    rw [StepRes.trace_bind_okL]
    constructor
    · intro c hc
      rcases List.mem_append.mp hc with h | h
      · exact hcalls c h
      · refine ⟨glyphColorIs_of_isUnderline
          (mem_trace_finalUnderline_underline sink origin w ww st2 c h) _, ?_⟩
        rcases hcu2 with hequ | hnone
        · have := hfin.1 c h
          rw [hequ] at this
          exact this
        · have hcount := hfin.2
          rw [hnone] at hcount
          simp only [cuBudget] at hcount
          exact underlineFrom_of_not_underline
            (countU_zero_not_underline (Nat.le_zero.mp hcount) c h) _
    · rw [countU_append]
      have h2 := hfin.2
      have h3 := cuBudget_le_one st.current_underline
      omega
  | err t e =>
    rw [hpr] at hrun
    rw [StepRes.bind_err]
    obtain ⟨hcalls, hbud⟩ := hrun
    refine ⟨hcalls, ?_⟩
    have h3 := cuBudget_le_one st.current_underline
    simp only [StepRes.trace_err]
    omega

/-- Claim C7: when the decoration runs are exhausted, the first glyph whose
character index has reached the decoration cursor closes and emits the open
underline (setting the cursor to the line length), and from any
runs-exhausted state the rest of the pass emits at most one underline —
necessarily the already-open one at its recorded origin and style — so no
further underline is ever opened for the rest of the line. -/
theorem claim_C7 :
    (∀ (sink : PaintSink) (origin : Point) (b : Point) (descent : ℚ)
      (ll fid : Nat) (fs : ℚ) (mgs : Size) (glyph : Glyph) (st : LoopSt)
      (uo : Point) (us : UnderlineStyle),
      st.druns = [] → st.run_end ≤ glyph.index →
      st.current_underline = some (uo, us) →
      glyphTail sink origin b descent ll fid fs mgs glyph st =
        StepRes.bind (emitPrim sink (.underline uo (st.glyph_origin.x - uo.x) us))
          (fun _ => glyphPaintStep sink b fid fs mgs glyph
            ⟨[], st.wraps, ll, st.color, none, st.glyph_origin, glyph.position⟩)) ∧
    (∀ (sink : PaintSink) (origin : Point) (line_height : ℚ) (b : Point)
      (descent : ℚ) (ll : Nat) (fs : ℚ) (w : ℚ) (ww : Option ℚ) (rix : Nat)
      (rs : List Run) (st : LoopSt), st.druns = [] →
      (∀ c ∈ (StepRes.bind (processRuns sink origin line_height b descent ll fs rix rs st)
          (finalUnderline sink origin w ww)).trace,
        underlineFrom st.current_underline c) ∧
      countU (StepRes.bind (processRuns sink origin line_height b descent ll fs rix rs st)
          (finalUnderline sink origin w ww)).trace ≤ 1) := by
  constructor
  · intro sink origin b descent ll fid fs mgs glyph st uo us hd hidx hcu
    unfold glyphTail decorationStep
    dsimp only
    rw [if_pos hidx, hd]
    dsimp only
    rw [hcu]
    simp only [emitFinished]
  · intro sink origin line_height b descent ll fs w ww rix rs st hd
    have h := exh_paint_tail sink origin line_height b descent ll fs w ww rix rs st hd
    exact ⟨fun c hc => (h.1 c hc).2, h.2⟩

/-- Underline style used in concrete witnesses. -/
def uW : UnderlineStyle := ⟨some black, 1, false⟩

/-- Claim C7 witness: concrete runs-exhausted state with an open underline;
the glyph body closes and emits it and paints from the closed state. -/
theorem claim_C7_witness :
    glyphTail sinkTotal ⟨0, 0⟩ ⟨0, 1⟩ 1 3 7 12 ⟨5, 5⟩ ⟨100, ⟨0, 0⟩, 0, false⟩
      ⟨[], [], 0, black, some (⟨0, 1⟩, uW), ⟨3, 0⟩, ⟨0, 0⟩⟩ =
      StepRes.bind (emitPrim sinkTotal
        (.underline ⟨0, 1⟩ ((Point.mk 3 0).x - (Point.mk 0 1).x) uW))
        (fun _ => glyphPaintStep sinkTotal ⟨0, 1⟩ 7 12 ⟨5, 5⟩ ⟨100, ⟨0, 0⟩, 0, false⟩
          ⟨[], [], 3, black, none, ⟨3, 0⟩, ⟨0, 0⟩⟩) :=
  claim_C7.1 sinkTotal ⟨0, 0⟩ ⟨0, 1⟩ 1 3 7 12 ⟨5, 5⟩ ⟨100, ⟨0, 0⟩, 0, false⟩
    ⟨[], [], 0, black, some (⟨0, 1⟩, uW), ⟨3, 0⟩, ⟨0, 0⟩⟩ ⟨0, 1⟩ uW rfl
    (Nat.le_refl 0) rfl

/-- Claim C10: the active color starts as black, exhausting the decoration
runs never changes it (the exhausted transition keeps the color), and with
an empty decoration-run sequence every glyph of the whole paint pass is
painted black — the color is never reset to a default. -/
theorem claim_C10 :
    (∀ (dr : List DecorationRun) (wb : List WrapBoundary) (o : Point),
      (initialSt dr wb o).color = black) ∧
    (∀ (origin : Point) (b_y descent : ℚ) (ll : Nat) (glyph : Glyph) (st : LoopSt),
      st.druns = [] →
      (decorationStep origin b_y descent ll glyph st).2.color = st.color) ∧
    (∀ (sink : PaintSink) (origin : Point) (layout : LineLayout) (lh : ℚ)
      (ww : Option ℚ) (wb : List WrapBoundary),
      ∀ c ∈ (paint_line sink origin layout lh [] ww wb).trace,
        glyphColorIs black c) := by
  refine ⟨fun dr wb o => rfl, ?_, ?_⟩
  · intro origin b_y descent ll glyph st hd
    unfold decorationStep
    dsimp only
    split
    · rw [hd]
    · rfl
  · intro sink origin layout lh ww wb c hc
    exact ((exh_paint_tail sink origin lh
      ⟨0, (lh - layout.ascent - layout.descent) / 2 + layout.ascent⟩
      layout.descent layout.len layout.font_size layout.width ww 0 layout.runs
      (initialSt [] wb origin) rfl).1 c hc).1

/-- Claim C10 witness: the exhausted decoration transition at a concrete
state keeps the (black) active color. -/
theorem claim_C10_witness :
    (decorationStep ⟨0, 0⟩ 1 1 3 ⟨100, ⟨0, 0⟩, 0, false⟩
      ⟨[], [], 0, black, none, ⟨0, 0⟩, ⟨0, 0⟩⟩).2.color = black :=
  claim_C10.2.1 ⟨0, 0⟩ 1 1 3 ⟨100, ⟨0, 0⟩, 0, false⟩
    ⟨[], [], 0, black, none, ⟨0, 0⟩, ⟨0, 0⟩⟩ rfl

/-- Claim C2 witness: concrete glyph at a pending wrap boundary with an
open underline. -/
theorem claim_C2_witness :
    processGlyph sinkTotal ⟨0, 0⟩ 2 ⟨0, 1⟩ 1 3 7 12 ⟨5, 5⟩ 0 0
      ⟨100, ⟨2, 0⟩, 0, false⟩
      ⟨[], [⟨0, 0⟩], 0, black, some (⟨0, 1⟩, uW), ⟨0, 0⟩, ⟨0, 0⟩⟩ =
      StepRes.bind
        (emitPrim sinkTotal (.underline ⟨0, 1⟩
          ((advanceX ⟨100, ⟨2, 0⟩, 0, false⟩
            ⟨[], [⟨0, 0⟩], 0, black, some (⟨0, 1⟩, uW), ⟨0, 0⟩, ⟨0, 0⟩⟩).glyph_origin.x -
            (Point.mk 0 1).x) uW))
        (fun _ => glyphTail sinkTotal ⟨0, 0⟩ ⟨0, 1⟩ 1 3 7 12 ⟨5, 5⟩
          ⟨100, ⟨2, 0⟩, 0, false⟩
          ⟨[], [], 0, black, none, ⟨(Point.mk 0 0).x, (Point.mk 0 0).y + 2⟩, ⟨0, 0⟩⟩) :=
  claim_C2 sinkTotal ⟨0, 0⟩ 2 ⟨0, 1⟩ 1 3 7 12 ⟨5, 5⟩ 0 0 ⟨100, ⟨2, 0⟩, 0, false⟩
    ⟨[], [⟨0, 0⟩], 0, black, some (⟨0, 1⟩, uW), ⟨0, 0⟩, ⟨0, 0⟩⟩ ⟨0, 1⟩ uW rfl rfl

end Zed

namespace Zed

/-! ## Underline color resolution (claim C9) -/

/-- Every underline call carries a specified (`some`) color. -/
def underlineColored : SinkCall → Prop
  | .underline _ _ s => s.color.isSome = true
  | _ => True

/-- The open underline, if any, carries a specified color. -/
def cuColored : Option (Point × UnderlineStyle) → Prop
  | none => True
  | some p => p.2.color.isSome = true

/-- All underline emissions of a computation are colored, and so is the open
underline of its result state. -/
def colSpec (r : StepRes SinkCall LoopSt) : Prop :=
  (∀ c ∈ r.trace, underlineColored c) ∧
  ∀ t st', r = .ok t st' → cuColored st'.current_underline

theorem col_bind {r : StepRes SinkCall LoopSt} {f : LoopSt → StepRes SinkCall LoopSt}
    (hr : colSpec r) (hf : ∀ t st', r = .ok t st' → colSpec (f st')) :
    colSpec (StepRes.bind r f) := by
  cases r with
  | err t e => exact ⟨hr.1, fun t' st' h => by cases h⟩
  | ok t a =>
    have hfa := hf t a rfl
    cases hk : f a with
    | ok t2 b =>
      rw [hk] at hfa
      simp only [StepRes.bind, hk]
      refine ⟨?_, ?_⟩
      · intro c hc
        simp only [StepRes.trace_ok] at hc
        rcases List.mem_append.mp hc with h | h
        · exact hr.1 c h
        · exact hfa.1 c (by simpa using h)
      · intro t' st' heq
        cases heq
        exact hfa.2 t2 b rfl
    | err t2 e =>
      rw [hk] at hfa
      simp only [StepRes.bind, hk]
      refine ⟨?_, fun t' st' h => by cases h⟩
      intro c hc
      simp only [StepRes.trace_err] at hc
      rcases List.mem_append.mp hc with h | h
      · exact hr.1 c h
      · exact hfa.1 c (by simpa using h)

theorem col_pure {st : LoopSt} (h : cuColored st.current_underline) :
    colSpec (.ok [] st) := by
  refine ⟨fun c hc => absurd hc (by simp), ?_⟩
  intro t st' heq
  cases heq
  exact h

theorem col_wrapStep (sink : PaintSink) (origin : Point) (line_height : ℚ)
    (rix gix : Nat) (st : LoopSt) (h : cuColored st.current_underline) :
    colSpec (wrapStep sink origin line_height rix gix st) := by
  unfold wrapStep
  dsimp only
  split
  · cases hcu : st.current_underline with
    | some p =>
      obtain ⟨uo, us⟩ := p
      dsimp only
      have hus : us.color.isSome = true := by
        rw [hcu] at h
        exact h
      unfold emitPrim
      cases hpr : sink.primResult (SinkCall.underline uo (st.glyph_origin.x - uo.x) us) with
      | none =>
        simp only [StepRes.bind]
        refine ⟨?_, ?_⟩
        · intro c hc
          simp only [StepRes.trace_ok, List.append_nil] at hc
          rcases List.mem_singleton.mp hc with rfl
          exact hus
        · intro t st' heq
          cases heq
          trivial
      | some e =>
        refine ⟨?_, fun t st' heq => by cases heq⟩
        intro c hc
        rcases List.mem_singleton.mp hc with rfl
        exact hus
    | none =>
      dsimp only
      refine ⟨fun c hc => absurd hc (by simp), ?_⟩
      intro t st' heq
      cases heq
      trivial
  · exact col_pure h

theorem decorationStep_colored (origin : Point) (b_y descent : ℚ) (ll : Nat)
    (glyph : Glyph) (st : LoopSt) (h : cuColored st.current_underline) :
    cuColored (decorationStep origin b_y descent ll glyph st).2.current_underline ∧
    cuColored (decorationStep origin b_y descent ll glyph st).1 := by
  unfold decorationStep
  dsimp only
  split
  · cases hdr : st.druns with
    | nil => exact ⟨trivial, h⟩
    | cons style_run rest =>
      dsimp only
      cases hcu : st.current_underline with
      | some p =>
        obtain ⟨uo, us⟩ := p
        have hus : us.color.isSome = true := by rw [hcu] at h; exact h
        dsimp only
        cases hru : style_run.underline with
        | some ru =>
          dsimp only
          by_cases hne : some ru ≠ some us
          · rw [if_pos hne]
            dsimp only
            exact ⟨by simp [cuColored, resolveUnderline], hus⟩
          · rw [if_neg hne]
            dsimp only
            exact ⟨hus, trivial⟩
        | none =>
          dsimp only
          rw [if_pos (by simp)]
          dsimp only
          exact ⟨trivial, hus⟩
      | none =>
        dsimp only
        cases hru : style_run.underline with
        | some ru =>
          dsimp only
          exact ⟨by simp [cuColored, resolveUnderline], trivial⟩
        | none => exact ⟨trivial, trivial⟩
  · exact ⟨h, trivial⟩

theorem col_glyphPaintStep (sink : PaintSink) (b : Point) (fid : Nat) (fs : ℚ)
    (mgs : Size) (glyph : Glyph) (st : LoopSt) (h : cuColored st.current_underline) :
    colSpec (glyphPaintStep sink b fid fs mgs glyph st) := by
  unfold glyphPaintStep
  dsimp only
  split
  · cases hem : glyph.is_emoji
    · unfold emitPrim
      cases hpr : sink.primResult
          (SinkCall.glyph (st.glyph_origin + b) fid glyph.id fs st.color) with
      | none =>
        simp only [StepRes.bind]
        refine ⟨?_, ?_⟩
        · intro c hc
          simp only [StepRes.trace_ok, List.append_nil] at hc
          rcases List.mem_singleton.mp hc with rfl
          trivial
        · intro t st' heq; cases heq; exact h
      | some e =>
        refine ⟨?_, fun t st' heq => by cases heq⟩
        intro c hc
        rcases List.mem_singleton.mp hc with rfl
        trivial
    · unfold emitPrim
      cases hpr : sink.primResult
          (SinkCall.emoji (st.glyph_origin + b) fid glyph.id fs) with
      | none =>
        simp only [StepRes.bind]
        refine ⟨?_, ?_⟩
        · intro c hc
          simp only [StepRes.trace_ok, List.append_nil] at hc
          rcases List.mem_singleton.mp hc with rfl
          trivial
        · intro t st' heq; cases heq; exact h
      | some e =>
        refine ⟨?_, fun t st' heq => by cases heq⟩
        intro c hc
        rcases List.mem_singleton.mp hc with rfl
        trivial
  · exact col_pure h

theorem col_emitFinished_bind (sink : PaintSink) (x : ℚ)
    {fu : Option (Point × UnderlineStyle)} {k : Unit → StepRes SinkCall LoopSt}
    (hfu : cuColored fu) (hk : colSpec (k ())) :
    colSpec (StepRes.bind (emitFinished sink x fu) k) := by
  cases fu with
  | none =>
    rw [show emitFinished sink x none = .ok [] () from rfl, StepRes.bind_pure]
    exact hk
  | some p =>
    obtain ⟨uo, us⟩ := p
    have hus : us.color.isSome = true := hfu
    rw [show emitFinished sink x (some (uo, us)) =
      emitPrim sink (.underline uo (x - uo.x) us) from rfl]
    unfold emitPrim
    cases hpr : sink.primResult (SinkCall.underline uo (x - uo.x) us) with
    | none =>
      cases hkk : k () with
      | ok t2 b =>
        rw [hkk] at hk
        simp only [StepRes.bind, hkk]
        refine ⟨?_, ?_⟩
        · intro c hc
          simp only [StepRes.trace_ok, List.singleton_append, List.mem_cons] at hc
          rcases hc with rfl | hc
          · exact hus
          · exact hk.1 c hc
        · intro t' st' heq
          cases heq
          exact hk.2 t2 b rfl
      | err t2 e =>
        rw [hkk] at hk
        simp only [StepRes.bind, hkk]
        refine ⟨?_, fun t' st' heq => by cases heq⟩
        intro c hc
        simp only [StepRes.trace_err, List.singleton_append, List.mem_cons] at hc
        rcases hc with rfl | hc
        · exact hus
        · exact hk.1 c hc
    | some e =>
      refine ⟨?_, fun t' st' heq => by cases heq⟩
      intro c hc
      rcases List.mem_singleton.mp hc with rfl
      exact hus

theorem col_glyphTail (sink : PaintSink) (origin : Point) (b : Point) (descent : ℚ)
    (ll fid : Nat) (fs : ℚ) (mgs : Size) (glyph : Glyph) (st : LoopSt)
    (h : cuColored st.current_underline) :
    colSpec (glyphTail sink origin b descent ll fid fs mgs glyph st) := by
  unfold glyphTail
  dsimp only
  have hds := decorationStep_colored origin b.y descent ll glyph
    ⟨st.druns, st.wraps, st.run_end, st.color, st.current_underline,
      st.glyph_origin, glyph.position⟩ h
  exact col_emitFinished_bind sink _ hds.2
    (col_glyphPaintStep sink b fid fs mgs glyph _ hds.1)

theorem col_processGlyph (sink : PaintSink) (origin : Point) (line_height : ℚ)
    (b : Point) (descent : ℚ) (ll fid : Nat) (fs : ℚ) (mgs : Size)
    (rix gix : Nat) (glyph : Glyph) (st : LoopSt)
    (h : cuColored st.current_underline) :
    colSpec (processGlyph sink origin line_height b descent ll fid fs mgs
      rix gix glyph st) := by
  unfold processGlyph
  refine col_bind (col_wrapStep sink origin line_height rix gix (advanceX glyph st) h) ?_
  intro t st' heq
  have hw := col_wrapStep sink origin line_height rix gix (advanceX glyph st) h
  rw [heq] at hw
  exact col_glyphTail sink origin b descent ll fid fs mgs glyph st' (hw.2 t st' rfl)

theorem col_processGlyphs (sink : PaintSink) (origin : Point) (line_height : ℚ)
    (b : Point) (descent : ℚ) (ll fid : Nat) (fs : ℚ) (mgs : Size) (rix : Nat)
    (gix : Nat) (gs : List Glyph) (st : LoopSt)
    (h : cuColored st.current_underline) :
    colSpec (processGlyphs sink origin line_height b descent ll fid fs mgs
      rix gix gs st) := by
  induction gs generalizing gix st with
  | nil => exact col_pure h
  | cons g gs ih =>
    refine col_bind (col_processGlyph sink origin line_height b descent ll fid fs
      mgs rix gix g st h) ?_
    intro t st' heq
    have hg := col_processGlyph sink origin line_height b descent ll fid fs mgs
      rix gix g st h
    rw [heq] at hg
    exact ih (gix + 1) st' (hg.2 t st' rfl)

theorem col_bb_bind (sink : PaintSink) (fid : Nat) (fs : ℚ)
    {k : Bounds → StepRes SinkCall LoopSt} (hk : ∀ bbv, colSpec (k bbv)) :
    colSpec (StepRes.bind (getBoundingBox sink fid fs) k) := by
  unfold getBoundingBox
  cases hbb : sink.boundingBoxResult fid fs with
  | error e =>
    refine ⟨?_, fun t st' heq => by cases heq⟩
    intro c hc
    rcases List.mem_singleton.mp hc with rfl
    trivial
  | ok bb =>
    have h2 := hk bb
    cases hkb : k bb with
    | ok t2 b2 =>
      rw [hkb] at h2
      simp only [StepRes.bind, hkb]
      refine ⟨?_, ?_⟩
      · intro c hc
        simp only [StepRes.trace_ok, List.singleton_append, List.mem_cons] at hc
        rcases hc with rfl | hc
        · trivial
        · exact h2.1 c hc
      · intro t' st' heq
        cases heq
        exact h2.2 t2 b2 rfl
    | err t2 e =>
      rw [hkb] at h2
      simp only [StepRes.bind, hkb]
      refine ⟨?_, fun t' st' heq => by cases heq⟩
      intro c hc
      simp only [StepRes.trace_err, List.singleton_append, List.mem_cons] at hc
      rcases hc with rfl | hc
      · trivial
      · exact h2.1 c hc

theorem col_processRuns (sink : PaintSink) (origin : Point) (line_height : ℚ)
    (b : Point) (descent : ℚ) (ll : Nat) (fs : ℚ) (rix : Nat) (rs : List Run)
    (st : LoopSt) (h : cuColored st.current_underline) :
    colSpec (processRuns sink origin line_height b descent ll fs rix rs st) := by
  induction rs generalizing rix st with
  | nil => exact col_pure h
  | cons r rs ih =>
    refine col_bb_bind sink r.font_id fs fun bb => ?_
    refine col_bind (col_processGlyphs sink origin line_height b descent ll
      r.font_id fs bb.size rix 0 r.glyphs st h) ?_
    intro t st' heq
    have hg := col_processGlyphs sink origin line_height b descent ll r.font_id fs
      bb.size rix 0 r.glyphs st h
    rw [heq] at hg
    exact ih (rix + 1) st' (hg.2 t st' rfl)

theorem col_finalUnderline (sink : PaintSink) (origin : Point) (w : ℚ)
    (ww : Option ℚ) (st : LoopSt) (h : cuColored st.current_underline) :
    ∀ c ∈ (finalUnderline sink origin w ww st).trace, underlineColored c := by
  unfold finalUnderline
  cases hcu : st.current_underline with
  | some p =>
    obtain ⟨uo, us⟩ := p
    dsimp only
    intro c hc
    rw [trace_emitPrim] at hc
    rcases List.mem_singleton.mp hc with rfl
    rw [hcu] at h
    exact h
  | none => intro c hc; cases hc

/-- Claim C9: opening an underline for a decoration run records the style
with color `some` (the run underline color when specified, else the run's
text color) and the thickness and wavy flag copied unchanged; consequently
every underline primitive emitted by `paint_line` carries a specified
(`some`) color. -/
theorem claim_C9 :
    (∀ (origin : Point) (b_y descent : ℚ) (ll : Nat) (glyph : Glyph)
      (st : LoopSt) (style_run : DecorationRun) (rest : List DecorationRun)
      (ru : UnderlineStyle),
      st.current_underline = none → st.run_end ≤ glyph.index →
      st.druns = style_run :: rest → style_run.underline = some ru →
      decorationStep origin b_y descent ll glyph st =
        (none,
          { st with
            druns := rest,
            current_underline := some
              (⟨st.glyph_origin.x, origin.y + b_y + descent * (618 / 1000)⟩,
                ⟨some (ru.color.getD style_run.color), ru.thickness, ru.wavy⟩),
            run_end := st.run_end + style_run.len,
            color := style_run.color })) ∧
    (∀ (sink : PaintSink) (origin : Point) (layout : LineLayout) (lh : ℚ)
      (dr : List DecorationRun) (ww : Option ℚ) (wb : List WrapBoundary),
      ∀ c ∈ (paint_line sink origin layout lh dr ww wb).trace,
        underlineColored c) := by
  constructor
  · intro origin b_y descent ll glyph st style_run rest ru hcu hidx hdr hru
    unfold decorationStep
    dsimp only
    rw [if_pos hidx, hdr]
    dsimp only
    rw [hcu, hru]
    rfl
  · intro sink origin layout lh dr ww wb c hc
    have hrun := col_processRuns sink origin lh
      ⟨0, (lh - layout.ascent - layout.descent) / 2 + layout.ascent⟩
      layout.descent layout.len layout.font_size 0 layout.runs
      (initialSt dr wb origin) trivial
    simp only [paint_line] at hc
    rw [StepRes.trace_bind] at hc
    revert hc
    cases hpr : processRuns sink origin lh
        ⟨0, (lh - layout.ascent - layout.descent) / 2 + layout.ascent⟩
        layout.descent layout.len layout.font_size 0 layout.runs
        (initialSt dr wb origin) with
    | ok t st2 =>
      rw [hpr] at hrun
      intro hc
      rcases List.mem_append.mp hc with h | h
      · exact hrun.1 c h
      · exact col_finalUnderline sink origin layout.width ww st2
          (hrun.2 t st2 rfl) c h
    | err t e =>
      rw [hpr] at hrun
      intro hc
      exact hrun.1 c hc

/-- Claim C9 witness: opening an underline at a concrete decoration run
whose underline color is unspecified records the run's text color. -/
theorem claim_C9_witness :
    decorationStep ⟨0, 0⟩ 1 1 3 ⟨100, ⟨0, 0⟩, 0, false⟩
      ⟨[⟨2, black, some ⟨none, 1, true⟩⟩], [], 0, black, none, ⟨0, 0⟩, ⟨0, 0⟩⟩ =
      (none,
        { druns := ([] : List DecorationRun),
          wraps := ([] : List WrapBoundary),
          run_end := 0 + 2,
          color := black,
          current_underline := some
            (⟨(Point.mk 0 0).x, (Point.mk 0 0).y + 1 + 1 * (618 / 1000)⟩,
              ⟨some ((none : Option Hsla).getD black), (1 : ℚ), true⟩),
          glyph_origin := ⟨0, 0⟩,
          prev_glyph_position := ⟨0, 0⟩ }) :=
  claim_C9.1 ⟨0, 0⟩ 1 1 3 ⟨100, ⟨0, 0⟩, 0, false⟩
    ⟨[⟨2, black, some ⟨none, 1, true⟩⟩], [], 0, black, none, ⟨0, 0⟩, ⟨0, 0⟩⟩
    ⟨2, black, some ⟨none, 1, true⟩⟩ [] ⟨none, 1, true⟩ rfl (Nat.le_refl 0) rfl rfl

end Zed

namespace Zed

/-! ## Underline segmentation for fully covered, unwrapped lines (claims C1, C6) -/

/-- The glyphs are one per character from character index `i` on, with
x-positions given by `posx`. -/
def glyphsMatch (posx : Nat → ℚ) : Nat → List Glyph → Prop
  | _, [] => True
  | i, g :: gs => g.index = i ∧ g.position.x = posx i ∧ glyphsMatch posx (i + 1) gs

/-- Total character length of a decoration-run sequence. -/
def sumLens : List DecorationRun → Nat
  | [] => 0
  | r :: rs => r.len + sumLens rs

/-- Every decoration run covers at least one character. -/
def lensPos : List DecorationRun → Prop
  | [] => True
  | r :: rs => 1 ≤ r.len ∧ lensPos rs

/-- Every underline spec of the sequence has a specified color. -/
def specColors : List DecorationRun → Prop
  | [] => True
  | r :: rs => (∀ u, r.underline = some u → u.color.isSome = true) ∧ specColors rs

/-- Reference segmentation (from the spec, with the comparison the code
actually performs): scanning the decoration runs left to right with the
currently open underline segment (start x and stored, color-resolved
style), a segment closes — producing one underline primitive spanning up to
the next segment's start x — exactly when the run's raw underline spec
differs from the stored style or becomes null; the second component is the
segment still open at the end of the runs.  When every underline spec's
color is specified, the stored style equals the raw spec and the grouping
is exactly by identical non-null underline style. -/
def segScan (ox uy : ℚ) (posx : Nat → ℚ) :
    List DecorationRun → Nat → Option (ℚ × UnderlineStyle) →
    List SinkCall × Option (ℚ × UnderlineStyle)
  | [], _, acc => ([], acc)
  | r :: rest, i, acc =>
    let x := ox + posx i
    match acc, r.underline with
    | some (sx, stl), some u =>
      if u = stl then segScan ox uy posx rest (i + r.len) acc
      else
        let s := segScan ox uy posx rest (i + r.len) (some (x, resolveUnderline r u))
        (.underline ⟨sx, uy⟩ (x - sx) stl :: s.1, s.2)
    | some (sx, stl), none =>
      let s := segScan ox uy posx rest (i + r.len) none
      (.underline ⟨sx, uy⟩ (x - sx) stl :: s.1, s.2)
    | none, some u => segScan ox uy posx rest (i + r.len) (some (x, resolveUnderline r u))
    | none, none => segScan ox uy posx rest (i + r.len) none

/-- Reference underline list (from the spec): one primitive per maximal
contiguous group of identical non-null underline style, spanning from the
group's first character x to the next group's first character x, the last
open group closing at the line's effective end x. -/
def segUnderlines (ox uy line_end_x : ℚ) (posx : Nat → ℚ)
    (dr : List DecorationRun) (i : Nat) (acc : Option (ℚ × UnderlineStyle)) :
    List SinkCall :=
  let s := segScan ox uy posx dr i acc
  s.1 ++ (match s.2 with
    | none => []
    | some (sx, stl) => [.underline ⟨sx, uy⟩ (line_end_x - sx) stl])

/-- The loop-state face of a segmentation accumulator: the open underline
point carries the fixed underline y. -/
def accState (uy : ℚ) : Option (ℚ × UnderlineStyle) → Option (Point × UnderlineStyle)
  | none => none
  | some (sx, stl) => some (⟨sx, uy⟩, stl)

theorem emitPrim_ok {sink : PaintSink} {c : SinkCall}
    (hp : sink.primResult c = none) : emitPrim sink c = .ok [c] () := by
  unfold emitPrim
  rw [hp]

theorem getBoundingBox_ok {sink : PaintSink} {fid : Nat} {fs : ℚ} {bb : Bounds}
    (hbb : sink.boundingBoxResult fid fs = .ok bb) :
    getBoundingBox sink fid fs = .ok [.boundingBox fid fs] bb := by
  unfold getBoundingBox
  rw [hbb]

theorem StepRes.bind_eq_ok {κ α β : Type} {r : StepRes κ α} {f : α → StepRes κ β}
    {t1 : List κ} {a : α} {t2 : List κ} {b : β}
    (hr : r = .ok t1 a) (hf : f a = .ok t2 b) :
    StepRes.bind r f = .ok (t1 ++ t2) b := by
  subst hr
  simp [StepRes.bind, hf]

theorem glyphsMatch_cons {posx : Nat → ℚ} {i : Nat} {g : Glyph} {gs : List Glyph}
    (h : glyphsMatch posx i (g :: gs)) :
    g.index = i ∧ g.position.x = posx i ∧ glyphsMatch posx (i + 1) gs := h

theorem glyphsMatch_take (posx : Nat → ℚ) (m : Nat) :
    ∀ (i : Nat) (gs : List Glyph), glyphsMatch posx i gs →
      glyphsMatch posx i (gs.take m) := by
  induction m with
  | zero => intro i gs h; exact trivial
  | succ m ih =>
    intro i gs h
    cases gs with
    | nil => exact trivial
    | cons g gs =>
      obtain ⟨h1, h2, h3⟩ := h
      exact ⟨h1, h2, ih (i + 1) gs h3⟩

theorem glyphsMatch_drop (posx : Nat → ℚ) (m : Nat) :
    ∀ (i : Nat) (gs : List Glyph), glyphsMatch posx i gs →
      glyphsMatch posx (i + m) (gs.drop m) := by
  induction m with
  | zero => intro i gs h; exact h
  | succ m ih =>
    intro i gs h
    cases gs with
    | nil => exact trivial
    | cons g gs =>
      obtain ⟨h1, h2, h3⟩ := h
      have := ih (i + 1) gs h3
      rw [show i + 1 + m = i + (m + 1) by omega] at this
      exact this

theorem processGlyphs_append (sink : PaintSink) (origin : Point) (line_height : ℚ)
    (b : Point) (descent : ℚ) (ll fid : Nat) (fs : ℚ) (mgs : Size) (rix : Nat) :
    ∀ (l1 l2 : List Glyph) (gix : Nat) (st : LoopSt),
      processGlyphs sink origin line_height b descent ll fid fs mgs rix gix
        (l1 ++ l2) st =
      StepRes.bind
        (processGlyphs sink origin line_height b descent ll fid fs mgs rix gix l1 st)
        (processGlyphs sink origin line_height b descent ll fid fs mgs rix
          (gix + l1.length) l2) := by
  intro l1
  induction l1 with
  | nil =>
    intro l2 gix st
    simp only [List.nil_append, List.length_nil, Nat.add_zero]
    rw [show processGlyphs sink origin line_height b descent ll fid fs mgs rix gix
      ([] : List Glyph) st = .ok [] st from rfl, StepRes.bind_pure]
  | cons g l1 ih =>
    intro l2 gix st
    simp only [List.cons_append]
    show StepRes.bind _ _ = _
    rw [show (g :: l1).length = l1.length + 1 from rfl,
      show gix + (l1.length + 1) = gix + 1 + l1.length by omega]
    rw [show processGlyphs sink origin line_height b descent ll fid fs mgs rix gix
      (g :: l1) st =
      StepRes.bind (processGlyph sink origin line_height b descent ll fid fs mgs
        rix gix g st)
        (processGlyphs sink origin line_height b descent ll fid fs mgs rix (gix + 1)
          l1) from rfl]
    rw [StepRes.bind_assoc]
    congr 1
    funext st1
    exact ih l2 (gix + 1) st1

/-- The underline call emitted when a finished underline is closed at x. -/
def finCall (x : ℚ) : Option (Point × UnderlineStyle) → List SinkCall
  | none => []
  | some (uo, us) => [.underline uo (x - uo.x) us]

theorem emitFinished_ok {sink : PaintSink} (hp : ∀ c, sink.primResult c = none)
    (x : ℚ) (fu : Option (Point × UnderlineStyle)) :
    emitFinished sink x fu = .ok (finCall x fu) () := by
  cases fu with
  | none => rfl
  | some p =>
    obtain ⟨uo, us⟩ := p
    show emitPrim sink _ = _
    rw [emitPrim_ok (hp _)]
    rfl

theorem resolveUnderline_spec {style_run : DecorationRun} {u : UnderlineStyle}
    (h : u.color.isSome = true) : resolveUnderline style_run u = u := by
  obtain ⟨c, hc⟩ := Option.isSome_iff_exists.mp h
  unfold resolveUnderline
  rw [hc]
  rw [show (some c).getD style_run.color = c from rfl, ← hc]

theorem decorationStep_skip (origin : Point) (b_y descent : ℚ) (ll : Nat)
    (glyph : Glyph) (st : LoopSt) (hidx : ¬ st.run_end ≤ glyph.index) :
    decorationStep origin b_y descent ll glyph st = (none, st) := by
  unfold decorationStep
  rw [if_neg hidx]

theorem decorationStep_t1 (origin : Point) (b_y descent : ℚ) (ll : Nat)
    (glyph : Glyph) (st : LoopSt) (style_run : DecorationRun)
    (rest : List DecorationRun) (u : UnderlineStyle)
    (hidx : st.run_end ≤ glyph.index) (hdr : st.druns = style_run :: rest)
    (hcu : st.current_underline = none) (hru : style_run.underline = some u) :
    decorationStep origin b_y descent ll glyph st =
      (none, { st with
        druns := rest,
        current_underline := some
          (⟨st.glyph_origin.x, origin.y + b_y + descent * (618 / 1000)⟩,
            resolveUnderline style_run u),
        run_end := st.run_end + style_run.len,
        color := style_run.color }) := by
  unfold decorationStep
  rw [if_pos hidx, hdr]
  dsimp only
  rw [hcu, hru]
  rfl

theorem decorationStep_t2 (origin : Point) (b_y descent : ℚ) (ll : Nat)
    (glyph : Glyph) (st : LoopSt) (style_run : DecorationRun)
    (rest : List DecorationRun)
    (hidx : st.run_end ≤ glyph.index) (hdr : st.druns = style_run :: rest)
    (hcu : st.current_underline = none) (hru : style_run.underline = none) :
    decorationStep origin b_y descent ll glyph st =
      (none, { st with
        druns := rest,
        current_underline := none,
        run_end := st.run_end + style_run.len,
        color := style_run.color }) := by
  unfold decorationStep
  rw [if_pos hidx, hdr]
  dsimp only
  rw [hcu, hru]

theorem decorationStep_t3 (origin : Point) (b_y descent : ℚ) (ll : Nat)
    (glyph : Glyph) (st : LoopSt) (style_run : DecorationRun)
    (rest : List DecorationRun) (uo : Point) (us : UnderlineStyle)
    (hidx : st.run_end ≤ glyph.index) (hdr : st.druns = style_run :: rest)
    (hcu : st.current_underline = some (uo, us))
    (hru : style_run.underline = some us) :
    decorationStep origin b_y descent ll glyph st =
      (none, { st with
        druns := rest,
        current_underline := some (uo, us),
        run_end := st.run_end + style_run.len,
        color := style_run.color }) := by
  unfold decorationStep
  rw [if_pos hidx, hdr]
  dsimp only
  rw [hcu, hru]
  dsimp only
  rw [if_neg (by simp)]
  rfl

theorem decorationStep_t4 (origin : Point) (b_y descent : ℚ) (ll : Nat)
    (glyph : Glyph) (st : LoopSt) (style_run : DecorationRun)
    (rest : List DecorationRun) (uo : Point) (us u : UnderlineStyle)
    (hidx : st.run_end ≤ glyph.index) (hdr : st.druns = style_run :: rest)
    (hcu : st.current_underline = some (uo, us))
    (hru : style_run.underline = some u) (hne : u ≠ us) :
    decorationStep origin b_y descent ll glyph st =
      (some (uo, us), { st with
        druns := rest,
        current_underline := some
          (⟨st.glyph_origin.x, origin.y + b_y + descent * (618 / 1000)⟩,
            resolveUnderline style_run u),
        run_end := st.run_end + style_run.len,
        color := style_run.color }) := by
  unfold decorationStep
  rw [if_pos hidx, hdr]
  dsimp only
  rw [hcu, hru]
  dsimp only
  rw [if_pos (by simpa using hne)]
  rfl

theorem decorationStep_t5 (origin : Point) (b_y descent : ℚ) (ll : Nat)
    (glyph : Glyph) (st : LoopSt) (style_run : DecorationRun)
    (rest : List DecorationRun) (uo : Point) (us : UnderlineStyle)
    (hidx : st.run_end ≤ glyph.index) (hdr : st.druns = style_run :: rest)
    (hcu : st.current_underline = some (uo, us))
    (hru : style_run.underline = none) :
    decorationStep origin b_y descent ll glyph st =
      (some (uo, us), { st with
        druns := rest,
        current_underline := none,
        run_end := st.run_end + style_run.len,
        color := style_run.color }) := by
  unfold decorationStep
  rw [if_pos hidx, hdr]
  dsimp only
  rw [hcu, hru]
  dsimp only
  rw [if_pos (by simp)]

/-- With no pending wrap boundary, the glyph body is: advance, decoration
transition, close call (if any), and glyph paint — succeeding whenever the
sink accepts all primitives. -/
theorem processGlyph_nowrap (sink : PaintSink) (origin : Point) (line_height : ℚ)
    (b : Point) (descent : ℚ) (ll fid : Nat) (fs : ℚ) (mgs : Size)
    (rix gix : Nat) (g : Glyph) (st : LoopSt)
    (hp : ∀ c, sink.primResult c = none) (hw : st.wraps = [])
    (fin : Option (Point × UnderlineStyle)) (st2 : LoopSt)
    (hds : decorationStep origin b.y descent ll g
      { advanceX g st with prev_glyph_position := g.position } = (fin, st2)) :
    ∃ t3,
      processGlyph sink origin line_height b descent ll fid fs mgs rix gix g st =
        .ok (finCall st2.glyph_origin.x fin ++ t3) st2 ∧
      underlineCalls t3 = [] ∧ (∀ c ∈ t3, glyphColorIs st2.color c) := by
  unfold processGlyph wrapStep
  dsimp only
  rw [if_neg (by rw [show (advanceX g st).wraps = st.wraps from rfl, hw]; simp)]
  rw [StepRes.bind_pure]
  unfold glyphTail
  dsimp only
  rw [hds]
  dsimp only
  rw [emitFinished_ok hp]
  unfold glyphPaintStep
  dsimp only
  split
  · cases hem : g.is_emoji
    · rw [if_neg (by simp), emitPrim_ok (hp _)]
      refine ⟨[SinkCall.glyph (st2.glyph_origin + b) fid g.id fs st2.color], ?_, rfl, ?_⟩
      · simp [StepRes.bind]
      · intro c hc
        rcases List.mem_singleton.mp hc with rfl
        exact rfl
    · rw [if_pos rfl, emitPrim_ok (hp _)]
      refine ⟨[SinkCall.emoji (st2.glyph_origin + b) fid g.id fs], ?_, rfl, ?_⟩
      · simp [StepRes.bind]
      · intro c hc
        rcases List.mem_singleton.mp hc with rfl
        exact trivial
  · refine ⟨[], ?_, rfl, fun c hc => absurd hc (by simp)⟩
    simp [StepRes.bind]

end Zed

namespace Zed

theorem glyphsMatch_index_lt {posx : Nat → ℚ} :
    ∀ (gs : List Glyph) (i bound : Nat), glyphsMatch posx i gs →
      i + gs.length ≤ bound → ∀ g ∈ gs, g.index < bound := by
  intro gs
  induction gs with
  | nil => intro i bound hm hb g hg; cases hg
  | cons g0 gs ih =>
    intro i bound hm hb g hg
    obtain ⟨h1, h2, h3⟩ := hm
    rcases List.mem_cons.mp hg with rfl | hg
    · rw [h1]
      simp only [List.length_cons] at hb
      omega
    · exact ih (i + 1) bound h3 (by simp only [List.length_cons] at hb; omega) g hg

/-- A block of glyphs strictly inside the current decoration run: no
decoration transition fires, no underline call is emitted, every glyph
paints with the current color, and the decoration cursor data is unchanged. -/
theorem processGlyphs_inside (sink : PaintSink) (origin : Point) (line_height : ℚ)
    (b : Point) (descent : ℚ) (ll fid : Nat) (fs : ℚ) (mgs : Size) (rix : Nat)
    (hp : ∀ c, sink.primResult c = none) :
    ∀ (gs : List Glyph) (gix : Nat) (st : LoopSt),
      st.wraps = [] → (∀ g ∈ gs, g.index < st.run_end) →
      st.glyph_origin.x = origin.x + st.prev_glyph_position.x →
      ∃ t st',
        processGlyphs sink origin line_height b descent ll fid fs mgs rix gix gs st =
          .ok t st' ∧
        underlineCalls t = [] ∧ (∀ c ∈ t, glyphColorIs st.color c) ∧
        st'.druns = st.druns ∧ st'.wraps = [] ∧ st'.run_end = st.run_end ∧
        st'.color = st.color ∧ st'.current_underline = st.current_underline ∧
        st'.glyph_origin.x = origin.x + st'.prev_glyph_position.x := by
  intro gs
  induction gs with
  | nil =>
    intro gix st hw hlt hx
    exact ⟨[], st, rfl, rfl, fun c hc => absurd hc (by simp), rfl, hw, rfl, rfl,
      rfl, hx⟩
  | cons g gs ih =>
    intro gix st hw hlt hx
    have hnle : ¬ st.run_end ≤ g.index := by
      have := hlt g (List.mem_cons_self g gs)
      omega
    have hskip : decorationStep origin b.y descent ll g
        { advanceX g st with prev_glyph_position := g.position } =
        (none, { advanceX g st with prev_glyph_position := g.position }) :=
      decorationStep_skip origin b.y descent ll g _ hnle
    obtain ⟨t3, heq, hu3, hc3⟩ := processGlyph_nowrap sink origin line_height b
      descent ll fid fs mgs rix gix g st hp hw none _ hskip
    obtain ⟨t2, st', heq2, hu2, hc2, hdr2, hw2, hre2, hcol2, hcu2, hx2⟩ :=
      ih (gix + 1) { advanceX g st with prev_glyph_position := g.position }
        hw (fun g' h' => hlt g' (List.mem_cons_of_mem _ h'))
        (by
          show st.glyph_origin.x + g.position.x - st.prev_glyph_position.x =
            origin.x + g.position.x
          rw [hx]
          ring)
    refine ⟨_, st', StepRes.bind_eq_ok heq heq2, ?_, ?_, hdr2, hw2, hre2, hcol2,
      hcu2, hx2⟩
    · rw [underlineCalls_append, underlineCalls_append, hu3, hu2]
      rfl
    · intro c hc
      rcases List.mem_append.mp hc with hc | hc
      · rcases List.mem_append.mp hc with hc | hc
        · cases hc
        · exact hc3 c hc
      · exact hc2 c hc

end Zed

namespace Zed

theorem underlineCalls_finCall (x : ℚ) (fu : Option (Point × UnderlineStyle)) :
    underlineCalls (finCall x fu) = finCall x fu := by
  cases fu with
  | none => rfl
  | some p =>
    obtain ⟨uo, us⟩ := p
    simp [finCall, underlineCalls, SinkCall.isUnderline]

theorem segScan_cons_none_some {r : DecorationRun} {u : UnderlineStyle}
    (ox uy : ℚ) (posx : Nat → ℚ) (rest : List DecorationRun) (i : Nat)
    (h : r.underline = some u) :
    segScan ox uy posx (r :: rest) i none =
      segScan ox uy posx rest (i + r.len) (some (ox + posx i, resolveUnderline r u)) := by
  conv_lhs => rw [segScan.eq_def]
  dsimp only
  rw [h]

theorem segScan_cons_none_none {r : DecorationRun}
    (ox uy : ℚ) (posx : Nat → ℚ) (rest : List DecorationRun) (i : Nat)
    (h : r.underline = none) :
    segScan ox uy posx (r :: rest) i none =
      segScan ox uy posx rest (i + r.len) none := by
  conv_lhs => rw [segScan.eq_def]
  dsimp only
  rw [h]

theorem segScan_cons_some_eq {r : DecorationRun} {stl : UnderlineStyle}
    (ox uy : ℚ) (posx : Nat → ℚ) (rest : List DecorationRun) (i : Nat) (sx : ℚ)
    (h : r.underline = some stl) :
    segScan ox uy posx (r :: rest) i (some (sx, stl)) =
      segScan ox uy posx rest (i + r.len) (some (sx, stl)) := by
  conv_lhs => rw [segScan.eq_def]
  dsimp only
  rw [h]
  dsimp only
  rw [if_pos rfl]

theorem segScan_cons_some_ne {r : DecorationRun} {u stl : UnderlineStyle}
    (ox uy : ℚ) (posx : Nat → ℚ) (rest : List DecorationRun) (i : Nat) (sx : ℚ)
    (h : r.underline = some u) (hne : u ≠ stl) :
    segScan ox uy posx (r :: rest) i (some (sx, stl)) =
      (.underline ⟨sx, uy⟩ (ox + posx i - sx) stl ::
          (segScan ox uy posx rest (i + r.len)
            (some (ox + posx i, resolveUnderline r u))).1,
        (segScan ox uy posx rest (i + r.len)
          (some (ox + posx i, resolveUnderline r u))).2) := by
  conv_lhs => rw [segScan.eq_def]
  dsimp only
  rw [h]
  dsimp only
  rw [if_neg hne]

theorem segScan_cons_some_none {r : DecorationRun} {stl : UnderlineStyle}
    (ox uy : ℚ) (posx : Nat → ℚ) (rest : List DecorationRun) (i : Nat) (sx : ℚ)
    (h : r.underline = none) :
    segScan ox uy posx (r :: rest) i (some (sx, stl)) =
      (.underline ⟨sx, uy⟩ (ox + posx i - sx) stl ::
          (segScan ox uy posx rest (i + r.len) none).1,
        (segScan ox uy posx rest (i + r.len) none).2) := by
  conv_lhs => rw [segScan.eq_def]
  dsimp only
  rw [h]

/-- Main segmentation invariant: over a fully covered, unwrapped suffix of
the line shaped one glyph per character, the glyph loop emits exactly the
underline closes of the reference scan, and leaves the scan's open segment
as its open underline. -/
theorem seg_loop (sink : PaintSink) (origin : Point) (line_height : ℚ)
    (b : Point) (descent : ℚ) (ll fid : Nat) (fs : ℚ) (mgs : Size) (rix : Nat)
    (posx : Nat → ℚ) (uy : ℚ)
    (hp : ∀ c, sink.primResult c = none)
    (huy : uy = origin.y + b.y + descent * (618 / 1000)) :
    ∀ (dr : List DecorationRun) (gs : List Glyph) (i gix : Nat) (st : LoopSt)
      (acc : Option (ℚ × UnderlineStyle)),
      lensPos dr → glyphsMatch posx i gs →
      gs.length = sumLens dr →
      st.druns = dr → st.wraps = [] → st.run_end = i →
      st.glyph_origin.x = origin.x + st.prev_glyph_position.x →
      st.current_underline = accState uy acc →
      ∃ t st',
        processGlyphs sink origin line_height b descent ll fid fs mgs rix gix gs st =
          .ok t st' ∧
        underlineCalls t = (segScan origin.x uy posx dr i acc).1 ∧
        st'.current_underline = accState uy (segScan origin.x uy posx dr i acc).2 ∧
        st'.druns = [] ∧ st'.wraps = [] := by
  intro dr
  induction dr with
  | nil =>
    intro gs i gix st acc hlp hgm hlen hdr hw hre hx hacc
    have hgs : gs = [] := List.length_eq_zero.mp (by rw [hlen]; rfl)
    subst hgs
    exact ⟨[], st, rfl, rfl, hacc, hdr, hw⟩
  | cons r rest ih =>
    intro gs i gix st acc hlp hgm hlen hdr hw hre hx hacc
    obtain ⟨hlp1, hlp2⟩ := hlp
    cases gs with
    | nil =>
      exfalso
      rw [show sumLens (r :: rest) = r.len + sumLens rest from rfl] at hlen
      simp at hlen
      omega
    | cons g gs1 =>
      obtain ⟨hgi, hgx, hgm1⟩ := hgm
      have hidx : st.run_end ≤ g.index := by rw [hre, hgi]
      have hax : st.glyph_origin.x + g.position.x - st.prev_glyph_position.x =
          origin.x + posx i := by rw [hx, hgx]; ring
      have hlen1 : gs1.length = r.len - 1 + sumLens rest := by
        rw [show sumLens (r :: rest) = r.len + sumLens rest from rfl] at hlen
        simp only [List.length_cons] at hlen
        omega
      -- shared tail: given the transition's result, run the block and recurse
      have main : ∀ (fin : Option (Point × UnderlineStyle)) (st1 : LoopSt)
          (acc' : Option (ℚ × UnderlineStyle)),
          decorationStep origin b.y descent ll g
            { advanceX g st with prev_glyph_position := g.position } = (fin, st1) →
          st1.druns = rest → st1.wraps = [] → st1.run_end = st.run_end + r.len →
          st1.current_underline = accState uy acc' →
          st1.glyph_origin.x = origin.x + st1.prev_glyph_position.x →
          ∃ t st',
            processGlyphs sink origin line_height b descent ll fid fs mgs rix gix
              (g :: gs1) st = .ok t st' ∧
            underlineCalls t = finCall st1.glyph_origin.x fin ++
              (segScan origin.x uy posx rest (i + r.len) acc').1 ∧
            st'.current_underline =
              accState uy (segScan origin.x uy posx rest (i + r.len) acc').2 ∧
            st'.druns = [] ∧ st'.wraps = [] := by
        intro fin st1 acc' hds hdr1 hw1 hre1 hcu1 hx1
        obtain ⟨t3, heq1, hu3, hc3⟩ := processGlyph_nowrap sink origin line_height b
          descent ll fid fs mgs rix gix g st hp hw fin st1 hds
        have htake : (gs1.take (r.len - 1)).length = r.len - 1 := by
          rw [List.length_take]
          omega
        obtain ⟨t4, st4, heq2, hu4, hc4, hdr4, hw4, hre4, hcol4, hcu4, hx4⟩ :=
          processGlyphs_inside sink origin line_height b descent ll fid fs mgs rix hp
            (gs1.take (r.len - 1)) (gix + 1) st1 hw1
            (by
              refine glyphsMatch_index_lt (gs1.take (r.len - 1)) (i + 1) st1.run_end
                (glyphsMatch_take posx (r.len - 1) (i + 1) gs1 hgm1) ?_
              rw [htake, hre1, hre]
              omega)
            hx1
        have hdrop : glyphsMatch posx (i + r.len) (gs1.drop (r.len - 1)) := by
          have := glyphsMatch_drop posx (r.len - 1) (i + 1) gs1 hgm1
          rw [show i + 1 + (r.len - 1) = i + r.len by omega] at this
          exact this
        obtain ⟨t5, st5, heq3, hu5, hcu5, hdr5, hw5⟩ :=
          ih (gs1.drop (r.len - 1)) (i + r.len)
            (gix + 1 + (gs1.take (r.len - 1)).length) st4 acc' hlp2 hdrop
            (by rw [List.length_drop]; omega)
            (hdr4.trans hdr1) hw4 (by rw [hre4, hre1, hre])
            hx4 (hcu4.trans hcu1)
        have hgs1 : gs1.take (r.len - 1) ++ gs1.drop (r.len - 1) = gs1 :=
          List.take_append_drop _ _
        have h2 : processGlyphs sink origin line_height b descent ll fid fs mgs rix
            (gix + 1) gs1 st1 = .ok (t4 ++ t5) st5 := by
          rw [← hgs1, processGlyphs_append]
          exact StepRes.bind_eq_ok heq2 heq3
        refine ⟨_, st5, StepRes.bind_eq_ok heq1 h2, ?_, hcu5, hdr5, hw5⟩
        rw [underlineCalls_append, underlineCalls_append, underlineCalls_append,
          hu3, hu4, hu5, underlineCalls_finCall]
        simp
      -- case analysis on the open segment and the new run's underline
      cases acc with
      | none =>
        have hcu : st.current_underline = none := hacc
        cases hru : r.underline with
        | some u =>
          have hds := decorationStep_t1 origin b.y descent ll g
            { advanceX g st with prev_glyph_position := g.position } r rest u
            hidx hdr hcu hru
          obtain ⟨t, st', heq, hu, hcu', hdr', hw'⟩ := main _ _
            (some (origin.x + posx i, resolveUnderline r u)) hds rfl hw rfl
            (by
              show some (⟨st.glyph_origin.x + g.position.x -
                st.prev_glyph_position.x, origin.y + b.y + descent * (618 / 1000)⟩,
                resolveUnderline r u) =
                accState uy (some (origin.x + posx i, resolveUnderline r u))
              rw [hax, ← huy]
              rfl)
            (by
              show st.glyph_origin.x + g.position.x - st.prev_glyph_position.x =
                origin.x + g.position.x
              rw [hx]; ring)
          refine ⟨t, st', heq, ?_, ?_, hdr', hw'⟩
          · rw [hu, segScan_cons_none_some origin.x uy posx rest i hru]
            rfl
          · rw [hcu', segScan_cons_none_some origin.x uy posx rest i hru]
        | none =>
          have hds := decorationStep_t2 origin b.y descent ll g
            { advanceX g st with prev_glyph_position := g.position } r rest
            hidx hdr hcu hru
          obtain ⟨t, st', heq, hu, hcu', hdr', hw'⟩ := main _ _ none hds rfl hw rfl rfl
            (by
              show st.glyph_origin.x + g.position.x - st.prev_glyph_position.x =
                origin.x + g.position.x
              rw [hx]; ring)
          refine ⟨t, st', heq, ?_, ?_, hdr', hw'⟩
          · rw [hu, segScan_cons_none_none origin.x uy posx rest i hru]
            rfl
          · rw [hcu', segScan_cons_none_none origin.x uy posx rest i hru]
      | some p =>
        obtain ⟨sx, stl⟩ := p
        have hcu : st.current_underline = some (⟨sx, uy⟩, stl) := hacc
        cases hru : r.underline with
        | some u =>
          by_cases hue : u = stl
          · subst hue
            have hds := decorationStep_t3 origin b.y descent ll g
              { advanceX g st with prev_glyph_position := g.position } r rest
              ⟨sx, uy⟩ u hidx hdr hcu hru
            obtain ⟨t, st', heq, hu, hcu', hdr', hw'⟩ := main _ _ (some (sx, u))
              hds rfl hw rfl rfl
              (by
                show st.glyph_origin.x + g.position.x - st.prev_glyph_position.x =
                  origin.x + g.position.x
                rw [hx]; ring)
            refine ⟨t, st', heq, ?_, ?_, hdr', hw'⟩
            · rw [hu, segScan_cons_some_eq origin.x uy posx rest i sx hru]
              rfl
            · rw [hcu', segScan_cons_some_eq origin.x uy posx rest i sx hru]
          · have hds := decorationStep_t4 origin b.y descent ll g
              { advanceX g st with prev_glyph_position := g.position } r rest
              ⟨sx, uy⟩ stl u hidx hdr hcu hru hue
            obtain ⟨t, st', heq, hu, hcu', hdr', hw'⟩ := main _ _
              (some (origin.x + posx i, resolveUnderline r u)) hds rfl hw rfl
              (by
                show some (⟨st.glyph_origin.x + g.position.x -
                  st.prev_glyph_position.x, origin.y + b.y + descent * (618 / 1000)⟩,
                  resolveUnderline r u) =
                  accState uy (some (origin.x + posx i, resolveUnderline r u))
                rw [hax, ← huy]
                rfl)
              (by
                show st.glyph_origin.x + g.position.x - st.prev_glyph_position.x =
                  origin.x + g.position.x
                rw [hx]; ring)
            refine ⟨t, st', heq, ?_, ?_, hdr', hw'⟩
            · rw [hu, segScan_cons_some_ne origin.x uy posx rest i sx hru hue]
              show finCall (st.glyph_origin.x + g.position.x -
                st.prev_glyph_position.x) (some (⟨sx, uy⟩, stl)) ++ _ = _
              rw [show finCall (st.glyph_origin.x + g.position.x -
                st.prev_glyph_position.x) (some (⟨sx, uy⟩, stl)) =
                [.underline ⟨sx, uy⟩ (st.glyph_origin.x + g.position.x -
                  st.prev_glyph_position.x - sx) stl] from rfl, hax]
              rfl
            · rw [hcu', segScan_cons_some_ne origin.x uy posx rest i sx hru hue]
        | none =>
          have hds := decorationStep_t5 origin b.y descent ll g
            { advanceX g st with prev_glyph_position := g.position } r rest
            ⟨sx, uy⟩ stl hidx hdr hcu hru
          obtain ⟨t, st', heq, hu, hcu', hdr', hw'⟩ := main _ _ none hds rfl hw rfl rfl
            (by
              show st.glyph_origin.x + g.position.x - st.prev_glyph_position.x =
                origin.x + g.position.x
              rw [hx]; ring)
          refine ⟨t, st', heq, ?_, ?_, hdr', hw'⟩
          · rw [hu, segScan_cons_some_none origin.x uy posx rest i sx hru]
            show finCall (st.glyph_origin.x + g.position.x -
              st.prev_glyph_position.x) (some (⟨sx, uy⟩, stl)) ++ _ = _
            rw [show finCall (st.glyph_origin.x + g.position.x -
              st.prev_glyph_position.x) (some (⟨sx, uy⟩, stl)) =
              [.underline ⟨sx, uy⟩ (st.glyph_origin.x + g.position.x -
                st.prev_glyph_position.x - sx) stl] from rfl, hax]
            rfl
          · rw [hcu', segScan_cons_some_none origin.x uy posx rest i sx hru]

end Zed

namespace Zed

/-- Top-level segmentation: for an unwrapped line shaped one glyph per
character in a single font run, fully covered by decoration runs whose
underline colors are all specified, and a sink that accepts every
primitive, the underline calls of `paint_line` are exactly the reference
segmentation: one per maximal contiguous group of identical non-null
underline specs, spanning from the group's first character x to the next
group's first character x (the last group closing at the line's effective
end x). -/
theorem paintLine_underlines_seg (sink : PaintSink) (origin : Point)
    (lh fs w asc desc : ℚ) (fid n : Nat) (gs : List Glyph)
    (dr : List DecorationRun) (ww : Option ℚ) (posx : Nat → ℚ) (bb : Bounds)
    (hp : ∀ c, sink.primResult c = none)
    (hbb : sink.boundingBoxResult fid fs = .ok bb)
    (hgm : glyphsMatch posx 0 gs) (hlen : gs.length = n)
    (hsum : sumLens dr = n) (hlp : lensPos dr) :
    underlineCalls
      (paint_line sink origin ⟨fs, w, asc, desc, [⟨fid, gs⟩], n⟩ lh dr ww []).trace =
      segUnderlines origin.x
        (origin.y + ((lh - asc - desc) / 2 + asc) + desc * (618 / 1000))
        (origin.x + min (ww.getD Pixels.MAX) w) posx dr 0 none := by
  obtain ⟨t, st', heqG, huG, hcuG, hdrG, hwG⟩ :=
    seg_loop sink origin lh ⟨0, (lh - asc - desc) / 2 + asc⟩ desc n fid fs bb.size 0
      posx (origin.y + ((lh - asc - desc) / 2 + asc) + desc * (618 / 1000)) hp rfl
      dr gs 0 0 (initialSt dr [] origin) none hlp hgm (by rw [hlen, hsum])
      rfl rfl rfl (by show origin.x = origin.x + (0 : ℚ); ring) rfl
  have hrun : processRuns sink origin lh ⟨0, (lh - asc - desc) / 2 + asc⟩ desc n fs 0
      [⟨fid, gs⟩] (initialSt dr [] origin) =
      .ok ([SinkCall.boundingBox fid fs] ++ (t ++ [])) st' :=
    StepRes.bind_eq_ok (getBoundingBox_ok hbb) (StepRes.bind_eq_ok heqG rfl)
  cases hs2 : (segScan origin.x
      (origin.y + ((lh - asc - desc) / 2 + asc) + desc * (618 / 1000)) posx dr 0
      none).2 with
  | none =>
    have hcu' : st'.current_underline = none := by rw [hcuG, hs2]; rfl
    have hfin : finalUnderline sink origin w ww st' = .ok [] () := by
      unfold finalUnderline
      rw [hcu']
    have htot : paint_line sink origin ⟨fs, w, asc, desc, [⟨fid, gs⟩], n⟩ lh dr ww [] =
        .ok (([SinkCall.boundingBox fid fs] ++ (t ++ [])) ++ []) () :=
      StepRes.bind_eq_ok hrun hfin
    rw [htot]
    rw [StepRes.trace_ok, underlineCalls_append, underlineCalls_append,
      underlineCalls_append, huG]
    unfold segUnderlines
    dsimp only
    rw [hs2]
    simp [underlineCalls, SinkCall.isUnderline]
  | some p =>
    obtain ⟨sx, stl⟩ := p
    have hcu' : st'.current_underline = some
        (⟨sx, origin.y + ((lh - asc - desc) / 2 + asc) + desc * (618 / 1000)⟩, stl) := by
      rw [hcuG, hs2]
      rfl
    have hfin : finalUnderline sink origin w ww st' = .ok
        [SinkCall.underline
          ⟨sx, origin.y + ((lh - asc - desc) / 2 + asc) + desc * (618 / 1000)⟩
          (origin.x + min (ww.getD Pixels.MAX) w - sx) stl] () := by
      unfold finalUnderline
      rw [hcu']
      dsimp only
      rw [emitPrim_ok (hp _)]
    have htot : paint_line sink origin ⟨fs, w, asc, desc, [⟨fid, gs⟩], n⟩ lh dr ww [] =
        .ok (([SinkCall.boundingBox fid fs] ++ (t ++ [])) ++
          [SinkCall.underline
            ⟨sx, origin.y + ((lh - asc - desc) / 2 + asc) + desc * (618 / 1000)⟩
            (origin.x + min (ww.getD Pixels.MAX) w - sx) stl]) () :=
      StepRes.bind_eq_ok hrun hfin
    rw [htot]
    rw [StepRes.trace_ok, underlineCalls_append, underlineCalls_append,
      underlineCalls_append, huG]
    unfold segUnderlines
    dsimp only
    rw [hs2]
    simp [underlineCalls, SinkCall.isUnderline]

end Zed

namespace Zed

theorem wrapStep_miss (sink : PaintSink) (origin : Point) (line_height : ℚ)
    (rix gix : Nat) (st : LoopSt)
    (hw : ¬ st.wraps.head? = some ⟨rix, gix⟩) :
    wrapStep sink origin line_height rix gix st = .ok [] st := by
  unfold wrapStep
  rw [if_neg hw]

theorem wrapStep_hit (sink : PaintSink) (origin : Point) (line_height : ℚ)
    (rix gix : Nat) (st : LoopSt) (uo : Point) (us : UnderlineStyle)
    (hp : ∀ c, sink.primResult c = none)
    (hw : st.wraps.head? = some ⟨rix, gix⟩)
    (hcu : st.current_underline = some (uo, us)) :
    wrapStep sink origin line_height rix gix st =
      .ok [.underline uo (st.glyph_origin.x - uo.x) us]
        { st with
          wraps := st.wraps.tail,
          current_underline := none,
          glyph_origin := ⟨origin.x, st.glyph_origin.y + line_height⟩ } := by
  unfold wrapStep
  dsimp only
  rw [if_pos hw, hcu]
  dsimp only
  rw [emitPrim_ok (hp _)]
  simp [StepRes.bind]

/-- Evaluation of the glyph-body tail, given the decoration transition's
result. -/
theorem glyphTail_eval (sink : PaintSink) (origin : Point) (b : Point)
    (descent : ℚ) (ll fid : Nat) (fs : ℚ) (mgs : Size) (g : Glyph) (st : LoopSt)
    (hp : ∀ c, sink.primResult c = none)
    (fin : Option (Point × UnderlineStyle)) (st2 : LoopSt)
    (hds : decorationStep origin b.y descent ll g
      { st with prev_glyph_position := g.position } = (fin, st2)) :
    ∃ t3,
      glyphTail sink origin b descent ll fid fs mgs g st =
        .ok (finCall st2.glyph_origin.x fin ++ t3) st2 ∧
      underlineCalls t3 = [] ∧ (∀ c ∈ t3, glyphColorIs st2.color c) := by
  unfold glyphTail
  dsimp only
  rw [hds]
  dsimp only
  rw [emitFinished_ok hp]
  unfold glyphPaintStep
  dsimp only
  split
  · cases hem : g.is_emoji
    · rw [if_neg (by simp), emitPrim_ok (hp _)]
      refine ⟨[SinkCall.glyph (st2.glyph_origin + b) fid g.id fs st2.color], ?_, rfl, ?_⟩
      · simp [StepRes.bind]
      · intro c hc
        rcases List.mem_singleton.mp hc with rfl
        exact rfl
    · rw [if_pos rfl, emitPrim_ok (hp _)]
      refine ⟨[SinkCall.emoji (st2.glyph_origin + b) fid g.id fs], ?_, rfl, ?_⟩
      · simp [StepRes.bind]
      · intro c hc
        rcases List.mem_singleton.mp hc with rfl
        exact trivial
  · refine ⟨[], ?_, rfl, fun c hc => absurd hc (by simp)⟩
    simp [StepRes.bind]

end Zed

namespace Zed

/-- Fixture color used by the concrete paint scenarios. -/
def redC : Hsla := ⟨1, 1, 1, 1⟩

/-- An underline spec whose color is left unspecified. -/
def uNone : UnderlineStyle := ⟨none, 1, false⟩

/-- An underline spec with a specified color. -/
def uSome : UnderlineStyle := ⟨some redC, 1, false⟩

/-- First fixture glyph: character index 0 at shaped x = 0. -/
def gA : Glyph := ⟨100, ⟨0, 0⟩, 0, false⟩

/-- Second fixture glyph: character index 1 at shaped x = 10. -/
def gB : Glyph := ⟨101, ⟨10, 0⟩, 1, false⟩

/-- Shaped x-position of character k in the two-glyph fixture. -/
def posC : Nat → ℚ := fun k => if k = 0 then 0 else 10

/-- One decoration run of length 2 carrying a color-specified underline. -/
def rW2 : DecorationRun := ⟨2, redC, some uSome⟩

/-- Two adjacent decoration runs carrying the SAME color-unspecified
underline spec yield TWO underline primitives, not one: at the run boundary
the code compares the incoming raw spec (color = none) against the stored,
color-resolved style of the open segment (color = some _), which never
match, so the open segment is closed and a new one opened. -/
theorem c1_splits_equal_specs :
    (underlineCalls (paint_line sinkTotal ⟨0, 0⟩ ⟨12, 20, 1, 1, [⟨7, [gA, gB]⟩], 2⟩ 2
      [⟨1, redC, some uNone⟩, ⟨1, redC, some uNone⟩] none []).trace).length = 2 := by
  have h := paintLine_underlines_seg sinkTotal ⟨0, 0⟩ 2 12 20 1 1 7 2 [gA, gB]
    [⟨1, redC, some uNone⟩, ⟨1, redC, some uNone⟩] none posC ⟨⟨0, 0⟩, ⟨5, 5⟩⟩
    (fun c => rfl) rfl ⟨rfl, rfl, rfl, rfl, trivial⟩ rfl rfl
    ⟨Nat.le_refl 1, Nat.le_refl 1, trivial⟩
  rw [h]
  simp [segUnderlines, segScan, resolveUnderline, uNone, redC]


/-- A single underlined decoration run crossing a wrap boundary yields only
ONE underline primitive: the wrap branch takes (closes) the open underline,
and since the decoration cursor never revisits the run, no underline is
reopened for the post-wrap remainder. -/
theorem c1_wrap_drops_underline :
    (underlineCalls (paint_line sinkTotal ⟨0, 0⟩ ⟨12, 20, 1, 1, [⟨7, [gA, gB]⟩], 2⟩ 2
      [rW2] (some 15) [⟨0, 1⟩]).trace).length = 1 := by
  have hds0 : decorationStep ⟨0, 0⟩ ((2 - 1 - 1) / 2 + 1) 1 2 gA
      ⟨[rW2], [⟨0, 1⟩], 0, black, none, ⟨0 + 0 - 0, 0⟩, ⟨0, 0⟩⟩ =
      (none, ⟨[], [⟨0, 1⟩], 0 + 2, redC,
        some (⟨0 + 0 - 0, 0 + ((2 - 1 - 1) / 2 + 1) + 1 * (618 / 1000)⟩,
          resolveUnderline rW2 uSome),
        ⟨0 + 0 - 0, 0⟩, ⟨0, 0⟩⟩) :=
    decorationStep_t1 _ _ _ _ _ _ _ _ _ (Nat.le_refl 0) rfl rfl rfl
  obtain ⟨t3, hT0, hu3, hcol3⟩ := glyphTail_eval sinkTotal ⟨0, 0⟩
    ⟨0, (2 - 1 - 1) / 2 + 1⟩ 1 2 7 12 ⟨5, 5⟩ gA
    ⟨[rW2], [⟨0, 1⟩], 0, black, none, ⟨0 + 0 - 0, 0⟩, ⟨0, 0⟩⟩
    (fun c => rfl) none _ hds0
  have hmiss : wrapStep sinkTotal ⟨0, 0⟩ 2 0 0
      (advanceX gA ⟨[rW2], [⟨0, 1⟩], 0, black, none, ⟨0, 0⟩, ⟨0, 0⟩⟩) =
      .ok [] (advanceX gA ⟨[rW2], [⟨0, 1⟩], 0, black, none, ⟨0, 0⟩, ⟨0, 0⟩⟩) :=
    wrapStep_miss _ _ _ _ _ _ (by decide)
  have heqA : processGlyph sinkTotal ⟨0, 0⟩ 2 ⟨0, (2 - 1 - 1) / 2 + 1⟩ 1 2 7 12
      ⟨5, 5⟩ 0 0 gA ⟨[rW2], [⟨0, 1⟩], 0, black, none, ⟨0, 0⟩, ⟨0, 0⟩⟩ =
      .ok ([] ++ (finCall (0 + 0 - 0) none ++ t3))
        ⟨[], [⟨0, 1⟩], 0 + 2, redC,
          some (⟨0 + 0 - 0, 0 + ((2 - 1 - 1) / 2 + 1) + 1 * (618 / 1000)⟩,
            resolveUnderline rW2 uSome),
          ⟨0 + 0 - 0, 0⟩, ⟨0, 0⟩⟩ :=
    StepRes.bind_eq_ok hmiss hT0
  -- second glyph: at the wrap boundary, closes the underline, then skips
  have hhit : wrapStep sinkTotal ⟨0, 0⟩ 2 0 1
      (advanceX gB ⟨[], [⟨0, 1⟩], 0 + 2, redC,
        some (⟨0 + 0 - 0, 0 + ((2 - 1 - 1) / 2 + 1) + 1 * (618 / 1000)⟩,
          resolveUnderline rW2 uSome),
        ⟨0 + 0 - 0, 0⟩, ⟨0, 0⟩⟩) =
      .ok [.underline ⟨0 + 0 - 0, 0 + ((2 - 1 - 1) / 2 + 1) + 1 * (618 / 1000)⟩
          ((0 + 0 - 0 + 10 - 0) -
            (Point.mk (0 + 0 - 0) (0 + ((2 - 1 - 1) / 2 + 1) + 1 * (618 / 1000))).x)
          (resolveUnderline rW2 uSome)]
        ⟨[], [], 0 + 2, redC, none, ⟨(Point.mk 0 0).x, 0 + 2⟩, ⟨0, 0⟩⟩ :=
    wrapStep_hit _ _ _ _ _ _ _ _ (fun c => rfl) rfl rfl
  have hds1 : decorationStep ⟨0, 0⟩ ((2 - 1 - 1) / 2 + 1) 1 2 gB
      ⟨[], [], 0 + 2, redC, none, ⟨(Point.mk 0 0).x, 0 + 2⟩, ⟨10, 0⟩⟩ =
      (none, ⟨[], [], 0 + 2, redC, none, ⟨(Point.mk 0 0).x, 0 + 2⟩, ⟨10, 0⟩⟩) :=
    decorationStep_skip _ _ _ _ _ _ (by decide)
  obtain ⟨t4, hT1, hu4, hcol4⟩ := glyphTail_eval sinkTotal ⟨0, 0⟩
    ⟨0, (2 - 1 - 1) / 2 + 1⟩ 1 2 7 12 ⟨5, 5⟩ gB
    ⟨[], [], 0 + 2, redC, none, ⟨(Point.mk 0 0).x, 0 + 2⟩, ⟨0, 0⟩⟩
    (fun c => rfl) none _ hds1
  have heqB : processGlyph sinkTotal ⟨0, 0⟩ 2 ⟨0, (2 - 1 - 1) / 2 + 1⟩ 1 2 7 12
      ⟨5, 5⟩ 0 1 gB
      ⟨[], [⟨0, 1⟩], 0 + 2, redC,
        some (⟨0 + 0 - 0, 0 + ((2 - 1 - 1) / 2 + 1) + 1 * (618 / 1000)⟩,
          resolveUnderline rW2 uSome),
        ⟨0 + 0 - 0, 0⟩, ⟨0, 0⟩⟩ =
      .ok ([.underline ⟨0 + 0 - 0, 0 + ((2 - 1 - 1) / 2 + 1) + 1 * (618 / 1000)⟩
          ((0 + 0 - 0 + 10 - 0) -
            (Point.mk (0 + 0 - 0) (0 + ((2 - 1 - 1) / 2 + 1) + 1 * (618 / 1000))).x)
          (resolveUnderline rW2 uSome)] ++
          (finCall (Point.mk 0 0).x none ++ t4))
        ⟨[], [], 0 + 2, redC, none, ⟨(Point.mk 0 0).x, 0 + 2⟩, ⟨10, 0⟩⟩ :=
    StepRes.bind_eq_ok hhit hT1
  have hGs : processGlyphs sinkTotal ⟨0, 0⟩ 2 ⟨0, (2 - 1 - 1) / 2 + 1⟩ 1 2 7 12
      ⟨5, 5⟩ 0 0 [gA, gB] ⟨[rW2], [⟨0, 1⟩], 0, black, none, ⟨0, 0⟩, ⟨0, 0⟩⟩ =
      .ok (([] ++ (finCall (0 + 0 - 0) none ++ t3)) ++
        (([.underline ⟨0 + 0 - 0, 0 + ((2 - 1 - 1) / 2 + 1) + 1 * (618 / 1000)⟩
            ((0 + 0 - 0 + 10 - 0) -
              (Point.mk (0 + 0 - 0) (0 + ((2 - 1 - 1) / 2 + 1) + 1 * (618 / 1000))).x)
            (resolveUnderline rW2 uSome)] ++
          (finCall (Point.mk 0 0).x none ++ t4)) ++ []))
        ⟨[], [], 0 + 2, redC, none, ⟨(Point.mk 0 0).x, 0 + 2⟩, ⟨10, 0⟩⟩ :=
    StepRes.bind_eq_ok heqA (StepRes.bind_eq_ok heqB rfl)
  have hRun : processRuns sinkTotal ⟨0, 0⟩ 2 ⟨0, (2 - 1 - 1) / 2 + 1⟩ 1 2 12 0
      [⟨7, [gA, gB]⟩] ⟨[rW2], [⟨0, 1⟩], 0, black, none, ⟨0, 0⟩, ⟨0, 0⟩⟩ =
      .ok ([SinkCall.boundingBox 7 12] ++
        ((([] ++ (finCall (0 + 0 - 0) none ++ t3)) ++
          (([.underline ⟨0 + 0 - 0, 0 + ((2 - 1 - 1) / 2 + 1) + 1 * (618 / 1000)⟩
              ((0 + 0 - 0 + 10 - 0) -
                (Point.mk (0 + 0 - 0) (0 + ((2 - 1 - 1) / 2 + 1) + 1 * (618 / 1000))).x)
              (resolveUnderline rW2 uSome)] ++
            (finCall (Point.mk 0 0).x none ++ t4)) ++ [])) ++ []))
        ⟨[], [], 0 + 2, redC, none, ⟨(Point.mk 0 0).x, 0 + 2⟩, ⟨10, 0⟩⟩ :=
    StepRes.bind_eq_ok (getBoundingBox_ok rfl) (StepRes.bind_eq_ok hGs rfl)
  have htot := StepRes.bind_eq_ok hRun
    (rfl : finalUnderline sinkTotal ⟨0, 0⟩ 20 (some 15)
      ⟨[], [], 0 + 2, redC, none, ⟨(Point.mk 0 0).x, 0 + 2⟩, ⟨10, 0⟩⟩ = .ok [] ())
  rw [show paint_line sinkTotal ⟨0, 0⟩ ⟨12, 20, 1, 1, [⟨7, [gA, gB]⟩], 2⟩ 2
      [rW2] (some 15) [⟨0, 1⟩] = _ from htot]
  simp only [underlineCalls] at hu3 hu4
  simp [underlineCalls_append, hu3, hu4, finCall, underlineCalls,
    SinkCall.isUnderline]


/-- Claim C1 (amended): for a line whose decoration runs cover its full
character length (single font run, no wraps, per-character glyphs, a sink
that accepts every primitive), the emitted underline primitives are exactly
those of the reference segmentation segUnderlines: a segment closes at a run
boundary whenever the incoming run's raw underline spec differs from the
stored color-resolved style of the open segment — so a boundary between two
runs with equal color-unspecified specs splits the underline — and a segment
still open after the last run closes at x = origin.x + min(wrap_width or
Pixels.MAX, layout.width). -/
theorem claim_C1 (sink : PaintSink) (origin : Point)
    (lh fs w asc desc : ℚ) (fid n : Nat) (gs : List Glyph)
    (dr : List DecorationRun) (ww : Option ℚ) (posx : Nat → ℚ) (bb : Bounds)
    (hp : ∀ c, sink.primResult c = none)
    (hbb : sink.boundingBoxResult fid fs = .ok bb)
    (hgm : glyphsMatch posx 0 gs) (hlen : gs.length = n)
    (hsum : sumLens dr = n) (hlp : lensPos dr) :
    underlineCalls
      (paint_line sink origin ⟨fs, w, asc, desc, [⟨fid, gs⟩], n⟩ lh dr ww []).trace =
      segUnderlines origin.x
        (origin.y + ((lh - asc - desc) / 2 + asc) + desc * (618 / 1000))
        (origin.x + min (ww.getD Pixels.MAX) w) posx dr 0 none :=
  paintLine_underlines_seg sink origin lh fs w asc desc fid n gs dr ww posx bb
    hp hbb hgm hlen hsum hlp

/-- Witness for claim C1: the two-glyph fixture with two equal
color-unspecified underline runs, evaluated concretely. -/
theorem claim_C1_witness :
    underlineCalls
      (paint_line sinkTotal ⟨0, 0⟩ ⟨12, 20, 1, 1, [⟨7, [gA, gB]⟩], 2⟩ 2
        [⟨1, redC, some uNone⟩, ⟨1, redC, some uNone⟩] none []).trace =
      segUnderlines (Point.mk 0 0).x
        ((Point.mk 0 0).y + ((2 - 1 - 1) / 2 + 1) + 1 * (618 / 1000))
        ((Point.mk 0 0).x + min ((none : Option ℚ).getD Pixels.MAX) 20) posC
        [⟨1, redC, some uNone⟩, ⟨1, redC, some uNone⟩] 0 none :=
  claim_C1 sinkTotal ⟨0, 0⟩ 2 12 20 1 1 7 2 [gA, gB]
    [⟨1, redC, some uNone⟩, ⟨1, redC, some uNone⟩] none posC ⟨⟨0, 0⟩, ⟨5, 5⟩⟩
    (fun c => rfl) rfl ⟨rfl, rfl, rfl, rfl, trivial⟩ rfl rfl
    ⟨Nat.le_refl 1, Nat.le_refl 1, trivial⟩

/-- Counterexample to claim C1 as stated: (1) two adjacent runs with the
same non-null color-unspecified underline style form ONE maximal group but
produce TWO underline primitives; (2) one underlined run crossing a wrap
boundary forms TWO wrap-bounded groups but produces ONE underline primitive
(the post-wrap remainder is dropped). -/
theorem claim_C1_counterexample :
    (underlineCalls (paint_line sinkTotal ⟨0, 0⟩ ⟨12, 20, 1, 1, [⟨7, [gA, gB]⟩], 2⟩ 2
      [⟨1, redC, some uNone⟩, ⟨1, redC, some uNone⟩] none []).trace).length = 2 ∧
    (underlineCalls (paint_line sinkTotal ⟨0, 0⟩ ⟨12, 20, 1, 1, [⟨7, [gA, gB]⟩], 2⟩ 2
      [rW2] (some 15) [⟨0, 1⟩]).trace).length = 1 :=
  ⟨c1_splits_equal_specs, c1_wrap_drops_underline⟩

end Zed

namespace Zed

/-- Claim C6: if an underline is still open after the loop over the shaped
runs, `paint_line` emits exactly one final underline primitive whose right
edge is origin.x + min(wrap_width, layout.width) — an absent wrap_width
reads as `Pixels.MAX`, the f32 stand-in for +infinity; and (second
conjunct) for one whole-line underlined decoration run and no wraps, the
single emitted underline spans from the first glyph's x to
origin.x + layout.width. -/
theorem claim_C6 (sink : PaintSink) (origin : Point) (layout : LineLayout)
    (lh : ℚ) (dr : List DecorationRun) (ww : Option ℚ) (wb : List WrapBoundary)
    (t : List SinkCall) (st : LoopSt) (uo : Point) (us : UnderlineStyle)
    (hrun : processRuns sink origin lh
      ⟨0, (lh - layout.ascent - layout.descent) / 2 + layout.ascent⟩
      layout.descent layout.len layout.font_size 0 layout.runs
      (initialSt dr wb origin) = .ok t st)
    (hcu : st.current_underline = some (uo, us))
    (hp : sink.primResult
      (.underline uo (origin.x + min (ww.getD Pixels.MAX) layout.width - uo.x) us) =
        none) :
    paint_line sink origin layout lh dr ww wb =
      .ok (t ++ [.underline uo
        (origin.x + min (ww.getD Pixels.MAX) layout.width - uo.x) us]) () ∧
    (∀ (fs w asc desc : ℚ) (fid n : Nat) (gs : List Glyph) (col : Hsla)
      (u : UnderlineStyle) (posx : Nat → ℚ) (bb : Bounds),
      (∀ c, sink.primResult c = none) →
      sink.boundingBoxResult fid fs = .ok bb →
      glyphsMatch posx 0 gs → gs.length = n → 1 ≤ n → w ≤ Pixels.MAX →
      underlineCalls
        (paint_line sink origin ⟨fs, w, asc, desc, [⟨fid, gs⟩], n⟩ lh
          [⟨n, col, some u⟩] none []).trace =
        [.underline ⟨origin.x + posx 0,
            origin.y + ((lh - asc - desc) / 2 + asc) + desc * (618 / 1000)⟩
          (origin.x + w - (origin.x + posx 0))
          (resolveUnderline ⟨n, col, some u⟩ u)]) := by
  constructor
  · have hfin : finalUnderline sink origin layout.width ww st =
        .ok [.underline uo
          (origin.x + min (ww.getD Pixels.MAX) layout.width - uo.x) us] () := by
      unfold finalUnderline
      rw [hcu]
      exact emitPrim_ok hp
    exact StepRes.bind_eq_ok hrun hfin
  · intro fs w asc desc fid n gs col u posx bb hp2 hbb hgm hlen hle hw
    have h := paintLine_underlines_seg sink origin lh fs w asc desc fid n gs
      [⟨n, col, some u⟩] none posx bb hp2 hbb hgm hlen rfl ⟨hle, trivial⟩
    rw [h]
    simp [segUnderlines, segScan, min_eq_right hw]

/-- Witness for claim C6: a one-glyph layout whose single decoration run
opens an underline that is still open after the loop, evaluated concretely
against the always-accepting sink. -/
theorem claim_C6_witness :
    (paint_line sinkTotal ⟨0, 0⟩ ⟨12, 20, 1, 1, [⟨7, [gA]⟩], 1⟩ 2
        [⟨1, redC, some uSome⟩] none [] =
      .ok ([SinkCall.boundingBox 7 12, .glyph ⟨0, 1⟩ 7 100 12 redC] ++
        [.underline ⟨0, 809 / 500⟩ (0 + min Pixels.MAX 20 - 0) uSome]) ()) ∧
    (∀ (fs w asc desc : ℚ) (fid n : Nat) (gs : List Glyph) (col : Hsla)
      (u : UnderlineStyle) (posx : Nat → ℚ) (bb : Bounds),
      (∀ c, sinkTotal.primResult c = none) →
      sinkTotal.boundingBoxResult fid fs = .ok bb →
      glyphsMatch posx 0 gs → gs.length = n → 1 ≤ n → w ≤ Pixels.MAX →
      underlineCalls
        (paint_line sinkTotal ⟨0, 0⟩ ⟨fs, w, asc, desc, [⟨fid, gs⟩], n⟩ 2
          [⟨n, col, some u⟩] none []).trace =
        [.underline ⟨0 + posx 0,
            0 + ((2 - asc - desc) / 2 + asc) + desc * (618 / 1000)⟩
          (0 + w - (0 + posx 0))
          (resolveUnderline ⟨n, col, some u⟩ u)]) :=
  claim_C6 sinkTotal ⟨0, 0⟩ ⟨12, 20, 1, 1, [⟨7, [gA]⟩], 1⟩ 2
    [⟨1, redC, some uSome⟩] none []
    [SinkCall.boundingBox 7 12, .glyph ⟨0, 1⟩ 7 100 12 redC]
    ⟨[], [], 1, redC, some (⟨0, 809 / 500⟩, uSome), ⟨0, 0⟩, ⟨0, 0⟩⟩
    ⟨0, 809 / 500⟩ uSome
    (by
      simp [processRuns, processGlyphs, processGlyph, wrapStep, glyphTail,
        decorationStep, glyphPaintStep, emitFinished, emitPrim, getBoundingBox,
        advanceX, initialSt, sinkTotal, gA, resolveUnderline,
        uSome, redC, black, Bounds.intersects, Point.add_def]
      norm_num)
    rfl rfl

end Zed

namespace Zed

/-- Fixture glyph with character index 2 at shaped x = 10 (it skips index 1:
one character produced no glyph of its own). -/
def gC2 : Glyph := ⟨102, ⟨10, 0⟩, 2, false⟩

/-- Fixture color of the first decoration run. -/
def colA : Hsla := ⟨1, 0, 0, 1⟩

/-- Fixture color of the second decoration run. -/
def colB : Hsla := ⟨2, 0, 0, 1⟩

/-- Fixture color of the third decoration run. -/
def colC : Hsla := ⟨3, 0, 0, 1⟩

/-- Stale-color evaluation: three length-1 decoration runs (colors colA,
colB, colC) cover characters 0, 1, 2, and the glyphs have character indices
0 and 2.  The second glyph — covered by the THIRD run — is painted with
colB: the decoration cursor advances at most one run per glyph. -/
theorem c8_glyph0 :
    processGlyph sinkTotal ⟨0, 0⟩ 2 ⟨0, (2 - 1 - 1) / 2 + 1⟩ 1 3 7 12 ⟨5, 5⟩ 0 0 gA
      (initialSt [⟨1, colA, none⟩, ⟨1, colB, none⟩, ⟨1, colC, none⟩] [] ⟨0, 0⟩) =
    .ok [.glyph ⟨0, 1⟩ 7 100 12 colA]
      ⟨[⟨1, colB, none⟩, ⟨1, colC, none⟩], [], 1, colA, none, ⟨0, 0⟩, ⟨0, 0⟩⟩ := by
  simp [processGlyph, wrapStep, glyphTail, decorationStep, glyphPaintStep,
    emitFinished, emitPrim, advanceX, initialSt, sinkTotal, gA, colA, black,
    Bounds.intersects, Point.add_def]
  norm_num

/-- Second step of the stale-color evaluation: the glyph with character
index 2 consumes only the SECOND run and is painted with its color. -/
theorem c8_glyph2 :
    processGlyph sinkTotal ⟨0, 0⟩ 2 ⟨0, (2 - 1 - 1) / 2 + 1⟩ 1 3 7 12 ⟨5, 5⟩ 0 1 gC2
      ⟨[⟨1, colB, none⟩, ⟨1, colC, none⟩], [], 1, colA, none, ⟨0, 0⟩, ⟨0, 0⟩⟩ =
    .ok [.glyph ⟨10, 1⟩ 7 102 12 colB]
      ⟨[⟨1, colC, none⟩], [], 2, colB, none, ⟨10, 0⟩, ⟨10, 0⟩⟩ := by
  simp [processGlyph, wrapStep, glyphTail, decorationStep, glyphPaintStep,
    emitFinished, emitPrim, advanceX, sinkTotal, gC2, colA, colB, black,
    Bounds.intersects, Point.add_def]
  norm_num

theorem c8_stale_color :
    paint_line sinkTotal ⟨0, 0⟩ ⟨12, 20, 1, 1, [⟨7, [gA, gC2]⟩], 3⟩ 2
      [⟨1, colA, none⟩, ⟨1, colB, none⟩, ⟨1, colC, none⟩] none [] =
      .ok [.boundingBox 7 12, .glyph ⟨0, 1⟩ 7 100 12 colA,
        .glyph ⟨10, 1⟩ 7 102 12 colB] () := by
  have hg : processGlyphs sinkTotal ⟨0, 0⟩ 2 ⟨0, (2 - 1 - 1) / 2 + 1⟩ 1 3 7 12
      ⟨5, 5⟩ 0 0 [gA, gC2]
      (initialSt [⟨1, colA, none⟩, ⟨1, colB, none⟩, ⟨1, colC, none⟩] [] ⟨0, 0⟩) =
      .ok ([.glyph ⟨0, 1⟩ 7 100 12 colA] ++ ([.glyph ⟨10, 1⟩ 7 102 12 colB] ++ []))
        ⟨[⟨1, colC, none⟩], [], 2, colB, none, ⟨10, 0⟩, ⟨10, 0⟩⟩ :=
    StepRes.bind_eq_ok c8_glyph0 (StepRes.bind_eq_ok c8_glyph2 rfl)
  have hr : processRuns sinkTotal ⟨0, 0⟩ 2 ⟨0, (2 - 1 - 1) / 2 + 1⟩ 1 3 12 0
      [⟨7, [gA, gC2]⟩]
      (initialSt [⟨1, colA, none⟩, ⟨1, colB, none⟩, ⟨1, colC, none⟩] [] ⟨0, 0⟩) =
      .ok ([SinkCall.boundingBox 7 12] ++
        (([.glyph ⟨0, 1⟩ 7 100 12 colA] ++
          ([.glyph ⟨10, 1⟩ 7 102 12 colB] ++ [])) ++ []))
        ⟨[⟨1, colC, none⟩], [], 2, colB, none, ⟨10, 0⟩, ⟨10, 0⟩⟩ :=
    StepRes.bind_eq_ok (getBoundingBox_ok rfl) (StepRes.bind_eq_ok hg rfl)
  have htot := StepRes.bind_eq_ok hr
    (rfl : finalUnderline sinkTotal ⟨0, 0⟩ 20 none
      ⟨[⟨1, colC, none⟩], [], 2, colB, none, ⟨10, 0⟩, ⟨10, 0⟩⟩ = .ok [] ())
  rw [show paint_line sinkTotal ⟨0, 0⟩ ⟨12, 20, 1, 1, [⟨7, [gA, gC2]⟩], 3⟩ 2
      [⟨1, colA, none⟩, ⟨1, colB, none⟩, ⟨1, colC, none⟩] none [] = _ from htot]
  simp

/-- Claim C8 (amended): the decoration cursor consumes AT MOST ONE
decoration run per glyph.  When the glyph's character index is below
`run_end` the step is the identity; when it has reached `run_end` and runs
remain, exactly the next run is consumed — `run_end` grows by that one
run's length and the active color becomes that run's color — even if the
glyph's character index also reaches past the end of the consumed run, so
the color in effect for such a glyph is NOT that of the run covering its
character index. -/
theorem claim_C8 (origin : Point) (bo descent : ℚ) (ll : Nat) (g : Glyph)
    (st : LoopSt) :
    (g.index < st.run_end → decorationStep origin bo descent ll g st = (none, st)) ∧
    (∀ r rest, st.run_end ≤ g.index → st.druns = r :: rest →
      (decorationStep origin bo descent ll g st).2.druns = rest ∧
      (decorationStep origin bo descent ll g st).2.run_end = st.run_end + r.len ∧
      (decorationStep origin bo descent ll g st).2.color = r.color) := by
  constructor
  · intro h
    unfold decorationStep
    rw [if_neg (not_le.mpr h)]
  · intro r rest h hdr
    unfold decorationStep
    rw [if_pos h, hdr]
    exact ⟨rfl, rfl, rfl⟩

/-- Counterexample to claim C8 as stated: in the stale-color fixture the
glyph of character index 2 is painted with the second run's color even
though the decoration run covering character 2 is the third one — the
cursor advanced only one run for that glyph. -/
theorem claim_C8_counterexample :
    (paint_line sinkTotal ⟨0, 0⟩ ⟨12, 20, 1, 1, [⟨7, [gA, gC2]⟩], 3⟩ 2
      [⟨1, colA, none⟩, ⟨1, colB, none⟩, ⟨1, colC, none⟩] none [] =
      .ok [.boundingBox 7 12, .glyph ⟨0, 1⟩ 7 100 12 colA,
        .glyph ⟨10, 1⟩ 7 102 12 colB] ()) ∧ colB ≠ colC :=
  ⟨c8_stale_color, by norm_num [colB, colC]⟩

end Zed

namespace Zed

/-- Ghost-instrumented sink call, for stating row properties of underline
emissions: an instrumented underline records the open point and style as
the real call does, plus (ghost data) the row y at which the segment was
opened, the x at which it was closed, and the row y at which it was
closed.  The real call's width is close x minus open x by erasure. -/
inductive GCall : Type where
  | call : SinkCall → GCall
  | underline : Point → UnderlineStyle → ℚ → ℚ → ℚ → GCall
deriving DecidableEq, Repr

/-- Erase the ghost annotations, recovering the real sink call: the
underline's emitted width is its close x minus its open x. -/
def GCall.erase : GCall → SinkCall
  | .call c => c
  | .underline uo us _ cx _ => .underline uo (cx - uo.x) us

/-- The ghost underline was opened and closed on the same visual row (an
ordinary call puts no constraint). -/
def GCall.sameRow : GCall → Prop
  | .call _ => True
  | .underline _ _ oy _ cy => oy = cy

/-- The loop state with the ghost open-row annotation carried next to the
open underline. -/
structure GLoopSt where
  druns : List DecorationRun
  wraps : List WrapBoundary
  run_end : Nat
  color : Hsla
  current_underline : Option (Point × UnderlineStyle × ℚ)
  glyph_origin : Point
  prev_glyph_position : Point
deriving DecidableEq, Repr

/-- Drop the ghost annotation from the loop state. -/
def GLoopSt.proj (gst : GLoopSt) : LoopSt :=
  ⟨gst.druns, gst.wraps, gst.run_end, gst.color,
    gst.current_underline.map (fun u => (u.1, u.2.1)), gst.glyph_origin,
    gst.prev_glyph_position⟩

/-- Map both the trace and the value of a step result. -/
def StepRes.emap {κ κ' α β : Type} (f : κ → κ') (g : α → β) :
    StepRes κ α → StepRes κ' β
  | .ok t a => .ok (t.map f) (g a)
  | .err t e => .err (t.map f) e

/-- Instrumented underline emission: the sink decides on the erased call;
the ghost trace records the annotations. -/
def gemitUnderline (sink : PaintSink) (uo : Point) (us : UnderlineStyle)
    (oy cx cy : ℚ) : StepRes GCall Unit :=
  match sink.primResult (.underline uo (cx - uo.x) us) with
  | none => .ok [.underline uo us oy cx cy] ()
  | some e => .err [.underline uo us oy cx cy] e

/-- Instrumented emission of a non-underline primitive. -/
def gemitPrim (sink : PaintSink) (c : SinkCall) : StepRes GCall Unit :=
  match sink.primResult c with
  | none => .ok [.call c] ()
  | some e => .err [.call c] e

/-- Instrumented bounding-box lookup. -/
def ggetBoundingBox (sink : PaintSink) (font_id : Nat) (font_size : ℚ) :
    StepRes GCall Bounds :=
  match sink.boundingBoxResult font_id font_size with
  | .ok b => .ok [.call (.boundingBox font_id font_size)] b
  | .error e => .err [.call (.boundingBox font_id font_size)] e

/-- Instrumented cursor advance (line 109). -/
def gadvanceX (glyph : Glyph) (st : GLoopSt) : GLoopSt :=
  { st with
    glyph_origin :=
      ⟨st.glyph_origin.x + glyph.position.x - st.prev_glyph_position.x,
        st.glyph_origin.y⟩ }

/-- Instrumented wrap step (lines 111–123): a wrap closes the open
underline at the pre-reset x and the pre-advance row y. -/
def gwrapStep (sink : PaintSink) (origin : Point) (line_height : ℚ)
    (run_ix glyph_ix : Nat) (st : GLoopSt) : StepRes GCall GLoopSt :=
  if st.wraps.head? = some ⟨run_ix, glyph_ix⟩ then
    let st1 := { st with wraps := st.wraps.tail }
    match st1.current_underline with
    | some (uo, us, oy) =>
      StepRes.bind
        (gemitUnderline sink uo us oy st1.glyph_origin.x st1.glyph_origin.y)
        fun _ =>
          .ok [] { st1 with
            current_underline := none,
            glyph_origin := ⟨origin.x, st1.glyph_origin.y + line_height⟩ }
    | none =>
      .ok [] { st1 with glyph_origin := ⟨origin.x, st1.glyph_origin.y + line_height⟩ }
  else .ok [] st

/-- Instrumented decoration-run transition (lines 126–154): an underline
opened here records the current row y as its ghost open row. -/
def gdecorationStep (origin : Point) (baseline_offset_y descent : ℚ)
    (layout_len : Nat) (glyph : Glyph) (st : GLoopSt) :
    Option (Point × UnderlineStyle × ℚ) × GLoopSt :=
  if st.run_end ≤ glyph.index then
    match st.druns with
    | style_run :: rest =>
      let fc :
          Option (Point × UnderlineStyle × ℚ) ×
            Option (Point × UnderlineStyle × ℚ) :=
        match st.current_underline with
        | some (uo, us, oy) =>
          if style_run.underline ≠ some us then (some (uo, us, oy), none)
          else (none, some (uo, us, oy))
        | none => (none, none)
      let cu : Option (Point × UnderlineStyle × ℚ) :=
        match style_run.underline with
        | some ru =>
          some (fc.2.getD
            (⟨st.glyph_origin.x,
                origin.y + baseline_offset_y + descent * (618 / 1000)⟩,
              resolveUnderline style_run ru, st.glyph_origin.y))
        | none => fc.2
      (fc.1,
        { st with
          druns := rest,
          current_underline := cu,
          run_end := st.run_end + style_run.len,
          color := style_run.color })
    | [] =>
      (st.current_underline,
        { st with run_end := layout_len, current_underline := none })
  else (none, st)

/-- Instrumented emission of a finished underline (lines 156–162): closed
at the given x on the given row. -/
def gemitFinished (sink : PaintSink) (x y : ℚ) :
    Option (Point × UnderlineStyle × ℚ) → StepRes GCall Unit
  | some (uo, us, oy) => gemitUnderline sink uo us oy x y
  | none => .ok [] ()

/-- Instrumented glyph paint step (lines 164–187). -/
def gglyphPaintStep (sink : PaintSink) (baseline_offset : Point) (font_id : Nat)
    (font_size : ℚ) (max_glyph_size : Size) (glyph : Glyph) (st : GLoopSt) :
    StepRes GCall GLoopSt :=
  let max_glyph_bounds : Bounds := ⟨st.glyph_origin, max_glyph_size⟩
  if max_glyph_bounds.intersects sink.contentMask then
    if glyph.is_emoji then
      StepRes.bind
        (gemitPrim sink (.emoji (st.glyph_origin + baseline_offset) font_id glyph.id font_size))
        fun _ => .ok [] st
    else
      StepRes.bind
        (gemitPrim sink
          (.glyph (st.glyph_origin + baseline_offset) font_id glyph.id font_size st.color))
        fun _ => .ok [] st
  else .ok [] st

/-- Instrumented tail of the glyph loop body (lines 124–187). -/
def gglyphTail (sink : PaintSink) (origin : Point) (baseline_offset : Point)
    (descent : ℚ) (layout_len : Nat) (font_id : Nat) (font_size : ℚ)
    (max_glyph_size : Size) (glyph : Glyph) (st : GLoopSt) : StepRes GCall GLoopSt :=
  let st := { st with prev_glyph_position := glyph.position }
  let fs := gdecorationStep origin baseline_offset.y descent layout_len glyph st
  StepRes.bind
    (gemitFinished sink fs.2.glyph_origin.x fs.2.glyph_origin.y fs.1) fun _ =>
    gglyphPaintStep sink baseline_offset font_id font_size max_glyph_size glyph fs.2

/-- Instrumented glyph loop body (lines 108–188). -/
def gprocessGlyph (sink : PaintSink) (origin : Point) (line_height : ℚ)
    (baseline_offset : Point) (descent : ℚ) (layout_len : Nat) (font_id : Nat)
    (font_size : ℚ) (max_glyph_size : Size) (run_ix glyph_ix : Nat)
    (glyph : Glyph) (st : GLoopSt) : StepRes GCall GLoopSt :=
  StepRes.bind (gwrapStep sink origin line_height run_ix glyph_ix (gadvanceX glyph st))
    (gglyphTail sink origin baseline_offset descent layout_len font_id font_size
      max_glyph_size glyph)

/-- Instrumented inner glyph loop. -/
def gprocessGlyphs (sink : PaintSink) (origin : Point) (line_height : ℚ)
    (baseline_offset : Point) (descent : ℚ) (layout_len : Nat) (font_id : Nat)
    (font_size : ℚ) (max_glyph_size : Size) (run_ix : Nat) :
    Nat → List Glyph → GLoopSt → StepRes GCall GLoopSt
  | _, [], st => .ok [] st
  | glyph_ix, g :: gs, st =>
    StepRes.bind
      (gprocessGlyph sink origin line_height baseline_offset descent layout_len
        font_id font_size max_glyph_size run_ix glyph_ix g st)
      (gprocessGlyphs sink origin line_height baseline_offset descent layout_len
        font_id font_size max_glyph_size run_ix (glyph_ix + 1) gs)

/-- Instrumented outer run loop. -/
def gprocessRuns (sink : PaintSink) (origin : Point) (line_height : ℚ)
    (baseline_offset : Point) (descent : ℚ) (layout_len : Nat) (font_size : ℚ) :
    Nat → List Run → GLoopSt → StepRes GCall GLoopSt
  | _, [], st => .ok [] st
  | run_ix, r :: rs, st =>
    StepRes.bind (ggetBoundingBox sink r.font_id font_size) fun bb =>
      StepRes.bind
        (gprocessGlyphs sink origin line_height baseline_offset descent layout_len
          r.font_id font_size bb.size run_ix 0 r.glyphs st)
        (gprocessRuns sink origin line_height baseline_offset descent layout_len
          font_size (run_ix + 1) rs)

/-- Instrumented initial loop state. -/
def ginitialSt (decoration_runs : List DecorationRun)
    (wrap_boundaries : List WrapBoundary) (origin : Point) : GLoopSt :=
  ⟨decoration_runs, wrap_boundaries, 0, black, none, origin, ⟨0, 0⟩⟩

/-- Instrumented final close (lines 191–198): the still-open underline is
closed at the line's effective end x on the current (final) row. -/
def gfinalUnderline (sink : PaintSink) (origin : Point) (layout_width : ℚ)
    (wrap_width : Option ℚ) (st : GLoopSt) : StepRes GCall Unit :=
  match st.current_underline with
  | some (uo, us, oy) =>
    let line_end_x := origin.x + min (wrap_width.getD Pixels.MAX) layout_width
    gemitUnderline sink uo us oy line_end_x st.glyph_origin.y
  | none => .ok [] ()

/-- Instrumented `paint_line`. -/
def gpaint_line (sink : PaintSink) (origin : Point) (layout : LineLayout)
    (line_height : ℚ) (decoration_runs : List DecorationRun)
    (wrap_width : Option ℚ) (wrap_boundaries : List WrapBoundary) :
    StepRes GCall Unit :=
  let padding_top := (line_height - layout.ascent - layout.descent) / 2
  let baseline_offset : Point := ⟨0, padding_top + layout.ascent⟩
  StepRes.bind
    (gprocessRuns sink origin line_height baseline_offset layout.descent layout.len
      layout.font_size 0 layout.runs (ginitialSt decoration_runs wrap_boundaries origin))
    (gfinalUnderline sink origin layout.width wrap_width)

end Zed

namespace Zed

/-- Mapping trace and value commutes with sequencing, given a simulation of
the continuation. -/
theorem StepRes.emap_bind {κ κ' α α' β β' : Type} (f : κ → κ') (p : α → α')
    (g : β → β') (gr : StepRes κ α) (gf : α → StepRes κ β)
    (rf : α' → StepRes κ' β')
    (h : ∀ a, (gf a).emap f g = rf (p a)) :
    (StepRes.bind gr gf).emap f g = StepRes.bind (gr.emap f p) rf := by
  cases gr with
  | err t e => rfl
  | ok t a =>
    rw [StepRes.bind_ok]
    show _ = StepRes.bind (.ok (t.map f) (p a)) rf
    rw [StepRes.bind_ok, ← h a]
    cases gf a <;> simp [StepRes.emap]

/-- Erasing an instrumented underline emission yields the real emission of
the erased call. -/
theorem gemitUnderline_emap (sink : PaintSink) (uo : Point)
    (us : UnderlineStyle) (oy cx cy : ℚ) :
    (gemitUnderline sink uo us oy cx cy).emap GCall.erase id =
      emitPrim sink (.underline uo (cx - uo.x) us) := by
  unfold gemitUnderline emitPrim
  cases sink.primResult (.underline uo (cx - uo.x) us) <;> rfl

/-- Erasing an instrumented primitive emission yields the real one. -/
theorem gemitPrim_emap (sink : PaintSink) (c : SinkCall) :
    (gemitPrim sink c).emap GCall.erase id = emitPrim sink c := by
  unfold gemitPrim emitPrim
  cases sink.primResult c <;> rfl

/-- Erasing the instrumented bounding-box lookup yields the real one. -/
theorem ggetBoundingBox_emap (sink : PaintSink) (fid : Nat) (fs : ℚ) :
    (ggetBoundingBox sink fid fs).emap GCall.erase id =
      getBoundingBox sink fid fs := by
  unfold ggetBoundingBox getBoundingBox
  cases sink.boundingBoxResult fid fs <;> rfl

/-- The cursor advance commutes with dropping the ghost annotation. -/
theorem gadvanceX_proj (glyph : Glyph) (gst : GLoopSt) :
    (gadvanceX glyph gst).proj = advanceX glyph gst.proj := rfl

/-- Erasing the instrumented wrap step yields the real wrap step. -/
theorem gwrapStep_emap (sink : PaintSink) (origin : Point) (lh : ℚ)
    (rix gix : Nat) (gst : GLoopSt) :
    (gwrapStep sink origin lh rix gix gst).emap GCall.erase GLoopSt.proj =
      wrapStep sink origin lh rix gix gst.proj := by
  unfold gwrapStep wrapStep
  by_cases h : gst.wraps.head? = some ⟨rix, gix⟩
  · rw [if_pos h, if_pos (show gst.proj.wraps.head? = some ⟨rix, gix⟩ from h)]
    dsimp only [GLoopSt.proj]
    cases hcu : gst.current_underline with
    | none => rfl
    | some u =>
      obtain ⟨uo, us, oy⟩ := u
      dsimp only [Option.map]
      unfold gemitUnderline emitPrim
      cases sink.primResult (SinkCall.underline uo (gst.glyph_origin.x - uo.x) us) <;>
        rfl
  · rw [if_neg h, if_neg (show ¬ gst.proj.wraps.head? = some ⟨rix, gix⟩ from h)]
    rfl

end Zed

namespace Zed

/-- The instrumented decoration-run transition projects onto the real one. -/
theorem gdecorationStep_proj (origin : Point) (bo descent : ℚ) (ll : Nat)
    (glyph : Glyph) (gst : GLoopSt) :
    decorationStep origin bo descent ll glyph gst.proj =
      ((gdecorationStep origin bo descent ll glyph gst).1.map
          (fun u => (u.1, u.2.1)),
        (gdecorationStep origin bo descent ll glyph gst).2.proj) := by
  unfold decorationStep gdecorationStep
  dsimp only [GLoopSt.proj]
  by_cases hidx : gst.run_end ≤ glyph.index
  · rw [if_pos hidx, if_pos hidx]
    cases hdr : gst.druns with
    | nil => rfl
    | cons r rest =>
      cases hcu : gst.current_underline with
      | none =>
        dsimp only [Option.map]
        cases hru : r.underline with
        | none => rfl
        | some ru => rfl
      | some u =>
        obtain ⟨uo, us, oy⟩ := u
        dsimp only [Option.map]
        by_cases hs : r.underline ≠ some us
        · rw [if_pos hs, if_pos hs]
          cases hru : r.underline with
          | none => rfl
          | some ru => rfl
        · rw [if_neg hs, if_neg hs]
          cases hru : r.underline with
          | none => rfl
          | some ru => rfl
  · rw [if_neg hidx, if_neg hidx]
    rfl

/-- Erasing the instrumented finished-underline emission yields the real
one. -/
theorem gemitFinished_emap (sink : PaintSink) (x y : ℚ)
    (fu : Option (Point × UnderlineStyle × ℚ)) :
    (gemitFinished sink x y fu).emap GCall.erase id =
      emitFinished sink x (fu.map (fun u => (u.1, u.2.1))) := by
  cases fu with
  | none => rfl
  | some u =>
    obtain ⟨uo, us, oy⟩ := u
    exact gemitUnderline_emap sink uo us oy x y

/-- Erasing the instrumented glyph paint step yields the real one. -/
theorem gglyphPaintStep_emap (sink : PaintSink) (b : Point) (fid : Nat)
    (fs : ℚ) (mgs : Size) (glyph : Glyph) (gst : GLoopSt) :
    (gglyphPaintStep sink b fid fs mgs glyph gst).emap GCall.erase GLoopSt.proj =
      glyphPaintStep sink b fid fs mgs glyph gst.proj := by
  unfold gglyphPaintStep glyphPaintStep
  dsimp only [GLoopSt.proj]
  by_cases hi : Bounds.intersects ⟨gst.glyph_origin, mgs⟩ sink.contentMask
  · rw [if_pos hi, if_pos hi]
    by_cases he : glyph.is_emoji = true
    · rw [if_pos he, if_pos he]
      unfold gemitPrim emitPrim
      cases sink.primResult (SinkCall.emoji (gst.glyph_origin + b) fid glyph.id fs) <;>
        rfl
    · rw [if_neg he, if_neg he]
      unfold gemitPrim emitPrim
      cases sink.primResult
          (SinkCall.glyph (gst.glyph_origin + b) fid glyph.id fs gst.color) <;>
        rfl
  · rw [if_neg hi, if_neg hi]
    rfl

/-- Erasing the instrumented glyph-loop tail yields the real one. -/
theorem gglyphTail_emap (sink : PaintSink) (origin : Point) (b : Point)
    (descent : ℚ) (ll fid : Nat) (fs : ℚ) (mgs : Size) (glyph : Glyph)
    (gst : GLoopSt) :
    (gglyphTail sink origin b descent ll fid fs mgs glyph gst).emap
        GCall.erase GLoopSt.proj =
      glyphTail sink origin b descent ll fid fs mgs glyph gst.proj := by
  unfold gglyphTail glyphTail
  dsimp only
  rw [show ({ gst.proj with prev_glyph_position := glyph.position } : LoopSt) =
      GLoopSt.proj { gst with prev_glyph_position := glyph.position } from rfl]
  rw [gdecorationStep_proj]
  dsimp only
  refine (StepRes.emap_bind GCall.erase id GLoopSt.proj _ _
      (fun a => glyphPaintStep sink b fid fs mgs glyph
        (gdecorationStep origin b.y descent ll glyph
          { gst with prev_glyph_position := glyph.position }).2.proj)
      (fun a => gglyphPaintStep_emap sink b fid fs mgs glyph _)).trans ?_
  rw [gemitFinished_emap]
  rfl

end Zed

namespace Zed

/-- Erasing the instrumented glyph-loop body yields the real one. -/
theorem gprocessGlyph_emap (sink : PaintSink) (origin : Point) (lh : ℚ)
    (b : Point) (descent : ℚ) (ll fid : Nat) (fs : ℚ) (mgs : Size)
    (rix gix : Nat) (glyph : Glyph) (gst : GLoopSt) :
    (gprocessGlyph sink origin lh b descent ll fid fs mgs rix gix glyph gst).emap
        GCall.erase GLoopSt.proj =
      processGlyph sink origin lh b descent ll fid fs mgs rix gix glyph gst.proj := by
  unfold gprocessGlyph processGlyph
  refine (StepRes.emap_bind GCall.erase GLoopSt.proj GLoopSt.proj _ _
      (glyphTail sink origin b descent ll fid fs mgs glyph)
      (fun a => gglyphTail_emap sink origin b descent ll fid fs mgs glyph a)).trans ?_
  rw [gwrapStep_emap, gadvanceX_proj]

/-- Erasing the instrumented inner glyph loop yields the real one. -/
theorem gprocessGlyphs_emap (sink : PaintSink) (origin : Point) (lh : ℚ)
    (b : Point) (descent : ℚ) (ll fid : Nat) (fs : ℚ) (mgs : Size)
    (rix : Nat) (gs : List Glyph) : ∀ (gix : Nat) (gst : GLoopSt),
    (gprocessGlyphs sink origin lh b descent ll fid fs mgs rix gix gs gst).emap
        GCall.erase GLoopSt.proj =
      processGlyphs sink origin lh b descent ll fid fs mgs rix gix gs gst.proj := by
  induction gs with
  | nil =>
    intro gix gst
    rfl
  | cons g gs ih =>
    intro gix gst
    show (StepRes.bind
        (gprocessGlyph sink origin lh b descent ll fid fs mgs rix gix g gst)
        (gprocessGlyphs sink origin lh b descent ll fid fs mgs rix (gix + 1) gs)).emap
        GCall.erase GLoopSt.proj =
      StepRes.bind
        (processGlyph sink origin lh b descent ll fid fs mgs rix gix g gst.proj)
        (processGlyphs sink origin lh b descent ll fid fs mgs rix (gix + 1) gs)
    refine (StepRes.emap_bind GCall.erase GLoopSt.proj GLoopSt.proj _ _
        (processGlyphs sink origin lh b descent ll fid fs mgs rix (gix + 1) gs)
        (fun a => ih (gix + 1) a)).trans ?_
    rw [gprocessGlyph_emap]

/-- Erasing the instrumented outer run loop yields the real one. -/
theorem gprocessRuns_emap (sink : PaintSink) (origin : Point) (lh : ℚ)
    (b : Point) (descent : ℚ) (ll : Nat) (fs : ℚ) (rs : List Run) :
    ∀ (rix : Nat) (gst : GLoopSt),
    (gprocessRuns sink origin lh b descent ll fs rix rs gst).emap
        GCall.erase GLoopSt.proj =
      processRuns sink origin lh b descent ll fs rix rs gst.proj := by
  induction rs with
  | nil =>
    intro rix gst
    rfl
  | cons r rs ih =>
    intro rix gst
    show (StepRes.bind (ggetBoundingBox sink r.font_id fs) fun bb =>
        StepRes.bind
          (gprocessGlyphs sink origin lh b descent ll r.font_id fs bb.size rix 0
            r.glyphs gst)
          (gprocessRuns sink origin lh b descent ll fs (rix + 1) rs)).emap
        GCall.erase GLoopSt.proj =
      StepRes.bind (getBoundingBox sink r.font_id fs) fun bb =>
        StepRes.bind
          (processGlyphs sink origin lh b descent ll r.font_id fs bb.size rix 0
            r.glyphs gst.proj)
          (processRuns sink origin lh b descent ll fs (rix + 1) rs)
    refine (StepRes.emap_bind GCall.erase id GLoopSt.proj _ _
        (fun bb => StepRes.bind
          (processGlyphs sink origin lh b descent ll r.font_id fs bb.size rix 0
            r.glyphs gst.proj)
          (processRuns sink origin lh b descent ll fs (rix + 1) rs))
        (fun bb => ?_)).trans (by rw [ggetBoundingBox_emap])
    refine (StepRes.emap_bind GCall.erase GLoopSt.proj GLoopSt.proj _ _
        (processRuns sink origin lh b descent ll fs (rix + 1) rs)
        (fun a => ih (rix + 1) a)).trans ?_
    rw [gprocessGlyphs_emap]
    rfl

/-- Erasing the instrumented final close yields the real one. -/
theorem gfinalUnderline_emap (sink : PaintSink) (origin : Point) (w : ℚ)
    (ww : Option ℚ) (gst : GLoopSt) :
    (gfinalUnderline sink origin w ww gst).emap GCall.erase id =
      finalUnderline sink origin w ww gst.proj := by
  unfold gfinalUnderline finalUnderline
  dsimp only [GLoopSt.proj]
  cases gst.current_underline with
  | none => rfl
  | some u =>
    obtain ⟨uo, us, oy⟩ := u
    dsimp only [Option.map]
    exact gemitUnderline_emap sink uo us oy _ _

/-- Erasure: the real `paint_line` is the instrumented `gpaint_line` with
all ghost annotations dropped from its trace. -/
theorem gpaint_line_emap (sink : PaintSink) (origin : Point)
    (layout : LineLayout) (lh : ℚ) (dr : List DecorationRun) (ww : Option ℚ)
    (wb : List WrapBoundary) :
    (gpaint_line sink origin layout lh dr ww wb).emap GCall.erase id =
      paint_line sink origin layout lh dr ww wb := by
  unfold gpaint_line paint_line
  dsimp only
  refine (StepRes.emap_bind GCall.erase GLoopSt.proj id _ _
      (finalUnderline sink origin layout.width ww)
      (fun a => gfinalUnderline_emap sink origin layout.width ww a)).trans ?_
  rw [gprocessRuns_emap]
  rfl

end Zed

namespace Zed

/-- The open-underline invariant: the ghost open-row annotation of the open
underline is the current row y. -/
def GInv (gst : GLoopSt) : Prop :=
  ∀ uo us oy, gst.current_underline = some (uo, us, oy) → oy = gst.glyph_origin.y

/-- Membership in the trace of a sequenced computation comes from the first
part or, after its success, from the continuation. -/
theorem mem_of_trace_bind {κ α β : Type} {r : StepRes κ α}
    {f : α → StepRes κ β} {c : κ} (hc : c ∈ (StepRes.bind r f).trace) :
    c ∈ r.trace ∨ ∃ t a, r = .ok t a ∧ c ∈ (f a).trace := by
  cases r with
  | err t e => exact Or.inl hc
  | ok t a =>
    rw [StepRes.trace_bind] at hc
    rcases List.mem_append.mp hc with h | h
    · exact Or.inl h
    · exact Or.inr ⟨t, a, rfl, h⟩

/-- A successful sequenced computation decomposes into successes of the two
parts. -/
theorem StepRes.bind_eq_ok_inv {κ α β : Type} {r : StepRes κ α}
    {f : α → StepRes κ β} {t : List κ} {b : β}
    (h : StepRes.bind r f = .ok t b) :
    ∃ t1 a t2, r = .ok t1 a ∧ f a = .ok t2 b ∧ t = t1 ++ t2 := by
  cases r with
  | err t1 e => simp [StepRes.bind] at h
  | ok t1 a =>
    cases hf : f a with
    | ok t2 b2 =>
      simp only [StepRes.bind_ok, hf, StepRes.ok.injEq] at h
      exact ⟨t1, a, t2, rfl, by rw [hf, h.2], h.1.symm⟩
    | err t2 e =>
      simp [StepRes.bind, hf] at h

/-- The instrumented underline emission records equal open and close rows
when told so. -/
theorem row_gemitUnderline (sink : PaintSink) (uo : Point)
    (us : UnderlineStyle) (oy cx cy : ℚ) (h : oy = cy) :
    ∀ c ∈ (gemitUnderline sink uo us oy cx cy).trace, c.sameRow := by
  unfold gemitUnderline
  cases sink.primResult (SinkCall.underline uo (cx - uo.x) us) with
  | none =>
    intro c hc
    simp only [StepRes.trace_ok, List.mem_singleton] at hc
    rw [hc]
    exact h
  | some e =>
    intro c hc
    simp only [StepRes.trace_err, List.mem_singleton] at hc
    rw [hc]
    exact h

/-- Row soundness of the instrumented wrap step: emitted underlines stay on
one row, and the invariant is preserved. -/
theorem row_gwrapStep (sink : PaintSink) (origin : Point) (lh : ℚ)
    (rix gix : Nat) (gst : GLoopSt) (hinv : GInv gst) :
    (∀ c ∈ (gwrapStep sink origin lh rix gix gst).trace, c.sameRow) ∧
    (∀ t st', gwrapStep sink origin lh rix gix gst = .ok t st' → GInv st') := by
  unfold gwrapStep
  by_cases h : gst.wraps.head? = some ⟨rix, gix⟩
  · rw [if_pos h]
    cases hcu : gst.current_underline with
    | none =>
      dsimp only
      constructor
      · intro c hc
        exact absurd hc (by simp)
      · intro t st' he
        cases he
        intro uo us oy hcu2
        exact absurd hcu2 (by simp)
    | some u =>
      obtain ⟨uo, us, oy⟩ := u
      dsimp only
      constructor
      · intro c hc
        rcases mem_of_trace_bind hc with h1 | ⟨t1, a, heq, h2⟩
        · exact row_gemitUnderline sink uo us oy gst.glyph_origin.x
            gst.glyph_origin.y (hinv uo us oy hcu) c h1
        · exact absurd h2 (by simp)
      · intro t st' he
        obtain ⟨t1, a, t2, h1, h2, rfl⟩ := StepRes.bind_eq_ok_inv he
        cases h2
        intro uo2 us2 oy2 hcu2
        exact absurd hcu2 (by simp)
  · rw [if_neg h]
    constructor
    · intro c hc
      exact absurd hc (by simp)
    · intro t st' he
      cases he
      exact hinv

end Zed

namespace Zed

/-- Row soundness of the instrumented decoration transition: a finished
underline it returns was opened on the current row, the invariant is
preserved, and the cursor does not move. -/
theorem row_gdecorationStep (origin : Point) (bo descent : ℚ) (ll : Nat)
    (glyph : Glyph) (gst : GLoopSt) (hinv : GInv gst) :
    (∀ uo us oy,
      (gdecorationStep origin bo descent ll glyph gst).1 = some (uo, us, oy) →
      oy = (gdecorationStep origin bo descent ll glyph gst).2.glyph_origin.y) ∧
    GInv (gdecorationStep origin bo descent ll glyph gst).2 ∧
    (gdecorationStep origin bo descent ll glyph gst).2.glyph_origin =
      gst.glyph_origin := by
  unfold gdecorationStep
  by_cases hidx : gst.run_end ≤ glyph.index
  · rw [if_pos hidx]
    cases hdr : gst.druns with
    | nil =>
      dsimp only
      refine ⟨?_, ?_, rfl⟩
      · intro uo us oy hfu
        exact hinv uo us oy hfu
      · intro uo us oy hcu2
        exact absurd hcu2 (by simp)
    | cons r rest =>
      cases hcu : gst.current_underline with
      | none =>
        dsimp only
        cases hru : r.underline with
        | none =>
          exact ⟨fun uo us oy hh => absurd hh (by simp),
            fun uo us oy hh => absurd hh (by simp), rfl⟩
        | some ru =>
          refine ⟨fun uo us oy hh => absurd hh (by simp), ?_, rfl⟩
          intro uo us oy hcu2
          simp only [Option.getD, Option.some.injEq, Prod.mk.injEq] at hcu2
          exact hcu2.2.2.symm
      | some u =>
        obtain ⟨uo0, us0, oy0⟩ := u
        dsimp only
        by_cases hs : r.underline ≠ some us0
        · rw [if_pos hs]
          dsimp only
          refine ⟨?_, ?_, rfl⟩
          · intro uo us oy hfu
            simp only [Option.some.injEq, Prod.mk.injEq] at hfu
            rw [← hfu.2.2]
            exact hinv uo0 us0 oy0 hcu
          · intro uo us oy hcu2
            cases hru : r.underline with
            | none =>
              rw [hru] at hcu2
              exact absurd hcu2 (by simp)
            | some ru =>
              rw [hru] at hcu2
              simp only [Option.getD, Option.some.injEq, Prod.mk.injEq] at hcu2
              exact hcu2.2.2.symm
        · rw [if_neg hs]
          dsimp only
          refine ⟨fun uo us oy hh => absurd hh (by simp), ?_, rfl⟩
          intro uo us oy hcu2
          cases hru : r.underline with
          | none =>
            rw [hru] at hcu2
            simp only [Option.some.injEq, Prod.mk.injEq] at hcu2
            rw [← hcu2.2.2]
            exact hinv uo0 us0 oy0 hcu
          | some ru =>
            rw [hru] at hcu2
            simp only [Option.getD, Option.some.injEq, Prod.mk.injEq] at hcu2
            rw [← hcu2.2.2]
            exact hinv uo0 us0 oy0 hcu
  · rw [if_neg hidx]
    exact ⟨fun uo us oy hh => absurd hh (by simp), hinv, rfl⟩

/-- Row soundness of the instrumented finished-underline emission. -/
theorem row_gemitFinished (sink : PaintSink) (x y : ℚ)
    (fu : Option (Point × UnderlineStyle × ℚ))
    (h : ∀ uo us oy, fu = some (uo, us, oy) → oy = y) :
    ∀ c ∈ (gemitFinished sink x y fu).trace, c.sameRow := by
  cases fu with
  | none =>
    intro c hc
    exact absurd hc (by simp [gemitFinished])
  | some u =>
    obtain ⟨uo, us, oy⟩ := u
    exact row_gemitUnderline sink uo us oy x y (h uo us oy rfl)

/-- Row soundness of the instrumented glyph paint step: no underline is
emitted and the state is unchanged. -/
theorem row_gglyphPaintStep (sink : PaintSink) (b : Point) (fid : Nat)
    (fs : ℚ) (mgs : Size) (glyph : Glyph) (gst : GLoopSt) :
    (∀ c ∈ (gglyphPaintStep sink b fid fs mgs glyph gst).trace, c.sameRow) ∧
    (∀ t st', gglyphPaintStep sink b fid fs mgs glyph gst = .ok t st' →
      st' = gst) := by
  unfold gglyphPaintStep
  dsimp only
  by_cases hi : Bounds.intersects ⟨gst.glyph_origin, mgs⟩ sink.contentMask
  · rw [if_pos hi]
    by_cases he : glyph.is_emoji = true
    · rw [if_pos he]
      unfold gemitPrim
      cases sink.primResult (SinkCall.emoji (gst.glyph_origin + b) fid glyph.id fs) with
      | none =>
        constructor
        · intro c hc
          simp only [StepRes.bind_ok, StepRes.trace_ok] at hc
          simp only [List.mem_append, List.mem_singleton] at hc
          rcases hc with hc | hc
          · rw [hc]; trivial
          · exact absurd hc (by simp)
        · intro t st' hok
          obtain ⟨t1, a, t2, h1, h2, rfl⟩ := StepRes.bind_eq_ok_inv hok
          cases h2
          rfl
      | some e =>
        constructor
        · intro c hc
          simp only [StepRes.bind_err, StepRes.trace_err] at hc
          simp only [List.mem_singleton] at hc
          rw [hc]; trivial
        · intro t st' hok
          simp [StepRes.bind] at hok
    · rw [if_neg he]
      unfold gemitPrim
      cases sink.primResult
          (SinkCall.glyph (gst.glyph_origin + b) fid glyph.id fs gst.color) with
      | none =>
        constructor
        · intro c hc
          simp only [StepRes.bind_ok, StepRes.trace_ok] at hc
          simp only [List.mem_append, List.mem_singleton] at hc
          rcases hc with hc | hc
          · rw [hc]; trivial
          · exact absurd hc (by simp)
        · intro t st' hok
          obtain ⟨t1, a, t2, h1, h2, rfl⟩ := StepRes.bind_eq_ok_inv hok
          cases h2
          rfl
      | some e =>
        constructor
        · intro c hc
          simp only [StepRes.bind_err, StepRes.trace_err] at hc
          simp only [List.mem_singleton] at hc
          rw [hc]; trivial
        · intro t st' hok
          simp [StepRes.bind] at hok
  · rw [if_neg hi]
    constructor
    · intro c hc
      exact absurd hc (by simp)
    · intro t st' hok
      cases hok
      rfl

end Zed

namespace Zed

/-- Row soundness of the instrumented glyph-loop tail. -/
theorem row_gglyphTail (sink : PaintSink) (origin : Point) (b : Point)
    (descent : ℚ) (ll fid : Nat) (fs : ℚ) (mgs : Size) (glyph : Glyph)
    (gst : GLoopSt) (hinv : GInv gst) :
    (∀ c ∈ (gglyphTail sink origin b descent ll fid fs mgs glyph gst).trace,
      c.sameRow) ∧
    (∀ t st', gglyphTail sink origin b descent ll fid fs mgs glyph gst = .ok t st' →
      GInv st') := by
  have hinv2 : GInv { gst with prev_glyph_position := glyph.position } :=
    fun uo us oy hh => hinv uo us oy hh
  obtain ⟨hfu, hinvd, hgo⟩ := row_gdecorationStep origin b.y descent ll glyph
    { gst with prev_glyph_position := glyph.position } hinv2
  constructor
  · intro c hc
    rcases mem_of_trace_bind hc with h1 | ⟨t1, a, heq, h2⟩
    · exact row_gemitFinished sink _ _ _ hfu c h1
    · exact (row_gglyphPaintStep sink b fid fs mgs glyph _).1 c h2
  · intro t st' hok
    obtain ⟨t1, a, t2, h1, h2, rfl⟩ := StepRes.bind_eq_ok_inv hok
    have hst := (row_gglyphPaintStep sink b fid fs mgs glyph _).2 t2 st' h2
    rw [hst]
    exact hinvd

/-- Row soundness of the instrumented glyph-loop body. -/
theorem row_gprocessGlyph (sink : PaintSink) (origin : Point) (lh : ℚ)
    (b : Point) (descent : ℚ) (ll fid : Nat) (fs : ℚ) (mgs : Size)
    (rix gix : Nat) (glyph : Glyph) (gst : GLoopSt) (hinv : GInv gst) :
    (∀ c ∈ (gprocessGlyph sink origin lh b descent ll fid fs mgs rix gix glyph
      gst).trace, c.sameRow) ∧
    (∀ t st', gprocessGlyph sink origin lh b descent ll fid fs mgs rix gix glyph
      gst = .ok t st' → GInv st') := by
  have hinvA : GInv (gadvanceX glyph gst) := fun uo us oy hh => hinv uo us oy hh
  obtain ⟨hw1, hw2⟩ := row_gwrapStep sink origin lh rix gix (gadvanceX glyph gst)
    hinvA
  constructor
  · intro c hc
    rcases mem_of_trace_bind hc with h1 | ⟨t1, a, heq, h2⟩
    · exact hw1 c h1
    · exact (row_gglyphTail sink origin b descent ll fid fs mgs glyph a
        (hw2 t1 a heq)).1 c h2
  · intro t st' hok
    obtain ⟨t1, a, t2, h1, h2, rfl⟩ := StepRes.bind_eq_ok_inv hok
    exact (row_gglyphTail sink origin b descent ll fid fs mgs glyph a
      (hw2 t1 a h1)).2 t2 st' h2

/-- Row soundness of the instrumented inner glyph loop. -/
theorem row_gprocessGlyphs (sink : PaintSink) (origin : Point) (lh : ℚ)
    (b : Point) (descent : ℚ) (ll fid : Nat) (fs : ℚ) (mgs : Size)
    (rix : Nat) (gs : List Glyph) : ∀ (gix : Nat) (gst : GLoopSt), GInv gst →
    (∀ c ∈ (gprocessGlyphs sink origin lh b descent ll fid fs mgs rix gix gs
      gst).trace, c.sameRow) ∧
    (∀ t st', gprocessGlyphs sink origin lh b descent ll fid fs mgs rix gix gs
      gst = .ok t st' → GInv st') := by
  induction gs with
  | nil =>
    intro gix gst hinv
    constructor
    · intro c hc
      exact absurd hc (by simp [gprocessGlyphs])
    · intro t st' hok
      cases hok
      exact hinv
  | cons g gs ih =>
    intro gix gst hinv
    obtain ⟨hp1, hp2⟩ := row_gprocessGlyph sink origin lh b descent ll fid fs mgs
      rix gix g gst hinv
    constructor
    · intro c hc
      rcases mem_of_trace_bind hc with h1 | ⟨t1, a, heq, h2⟩
      · exact hp1 c h1
      · exact (ih (gix + 1) a (hp2 t1 a heq)).1 c h2
    · intro t st' hok
      obtain ⟨t1, a, t2, h1, h2, rfl⟩ := StepRes.bind_eq_ok_inv hok
      exact (ih (gix + 1) a (hp2 t1 a h1)).2 t2 st' h2

/-- The instrumented bounding-box lookup emits no underline. -/
theorem row_ggetBoundingBox (sink : PaintSink) (fid : Nat) (fs : ℚ) :
    ∀ c ∈ (ggetBoundingBox sink fid fs).trace, c.sameRow := by
  unfold ggetBoundingBox
  cases sink.boundingBoxResult fid fs with
  | ok b =>
    intro c hc
    simp only [StepRes.trace_ok, List.mem_singleton] at hc
    rw [hc]
    trivial
  | error e =>
    intro c hc
    simp only [StepRes.trace_err, List.mem_singleton] at hc
    rw [hc]
    trivial

/-- Row soundness of the instrumented outer run loop. -/
theorem row_gprocessRuns (sink : PaintSink) (origin : Point) (lh : ℚ)
    (b : Point) (descent : ℚ) (ll : Nat) (fs : ℚ) (rs : List Run) :
    ∀ (rix : Nat) (gst : GLoopSt), GInv gst →
    (∀ c ∈ (gprocessRuns sink origin lh b descent ll fs rix rs gst).trace,
      c.sameRow) ∧
    (∀ t st', gprocessRuns sink origin lh b descent ll fs rix rs gst =
      .ok t st' → GInv st') := by
  induction rs with
  | nil =>
    intro rix gst hinv
    constructor
    · intro c hc
      exact absurd hc (by simp [gprocessRuns])
    · intro t st' hok
      cases hok
      exact hinv
  | cons r rs ih =>
    intro rix gst hinv
    constructor
    · intro c hc
      rcases mem_of_trace_bind hc with h1 | ⟨t1, bb, heq, h2⟩
      · exact row_ggetBoundingBox sink r.font_id fs c h1
      · rcases mem_of_trace_bind h2 with h3 | ⟨t3, a, heq3, h4⟩
        · exact (row_gprocessGlyphs sink origin lh b descent ll r.font_id fs
            bb.size rix r.glyphs 0 gst hinv).1 c h3
        · exact (ih (rix + 1) a ((row_gprocessGlyphs sink origin lh b descent ll
            r.font_id fs bb.size rix r.glyphs 0 gst hinv).2 t3 a heq3)).1 c h4
    · intro t st' hok
      obtain ⟨t1, bb, t2, h1, h2, rfl⟩ := StepRes.bind_eq_ok_inv hok
      obtain ⟨t3, a, t4, h3, h4, rfl⟩ := StepRes.bind_eq_ok_inv h2
      exact (ih (rix + 1) a ((row_gprocessGlyphs sink origin lh b descent ll
        r.font_id fs bb.size rix r.glyphs 0 gst hinv).2 t3 a h3)).2 t4 st' h4

/-- Row soundness of the instrumented final close. -/
theorem row_gfinalUnderline (sink : PaintSink) (origin : Point) (w : ℚ)
    (ww : Option ℚ) (gst : GLoopSt) (hinv : GInv gst) :
    ∀ c ∈ (gfinalUnderline sink origin w ww gst).trace, c.sameRow := by
  unfold gfinalUnderline
  cases hcu : gst.current_underline with
  | none =>
    intro c hc
    exact absurd hc (by simp)
  | some u =>
    obtain ⟨uo, us, oy⟩ := u
    dsimp only
    exact row_gemitUnderline sink uo us oy _ _ (hinv uo us oy hcu)

/-- Every underline of the instrumented paint pass is opened and closed on
the same visual row. -/
theorem row_gpaint_line (sink : PaintSink) (origin : Point)
    (layout : LineLayout) (lh : ℚ) (dr : List DecorationRun) (ww : Option ℚ)
    (wb : List WrapBoundary) :
    ∀ c ∈ (gpaint_line sink origin layout lh dr ww wb).trace, c.sameRow := by
  have hinv0 : GInv (ginitialSt dr wb origin) := by
    intro uo us oy hh
    exact absurd hh (by simp [ginitialSt])
  intro c hc
  rcases mem_of_trace_bind hc with h1 | ⟨t1, a, heq, h2⟩
  · exact (row_gprocessRuns sink origin lh
      ⟨0, (lh - layout.ascent - layout.descent) / 2 + layout.ascent⟩
      layout.descent layout.len layout.font_size layout.runs 0
      (ginitialSt dr wb origin) hinv0).1 c h1
  · exact row_gfinalUnderline sink origin layout.width ww a
      ((row_gprocessRuns sink origin lh
        ⟨0, (lh - layout.ascent - layout.descent) / 2 + layout.ascent⟩
        layout.descent layout.len layout.font_size layout.runs 0
        (ginitialSt dr wb origin) hinv0).2 t1 a heq) c h2

/-- Claim C3: no emitted underline's horizontal span crosses a visual row
change.  The instrumented painter `gpaint_line` — which records, for every
underline emission, the row y at open, the close x, and the row y at close —
erases to the real `paint_line` (first conjunct), an erased underline's
width is exactly close x minus open x (second conjunct), and every
instrumented underline of any paint pass was opened and closed on the same
row (third conjunct): so each underline primitive spans end x minus start x
within a single visual row. -/
theorem claim_C3 (sink : PaintSink) (origin : Point) (layout : LineLayout)
    (lh : ℚ) (dr : List DecorationRun) (ww : Option ℚ)
    (wb : List WrapBoundary) :
    paint_line sink origin layout lh dr ww wb =
      (gpaint_line sink origin layout lh dr ww wb).emap GCall.erase id ∧
    (∀ (uo : Point) (us : UnderlineStyle) (oy cx cy : ℚ),
      GCall.erase (.underline uo us oy cx cy) = .underline uo (cx - uo.x) us) ∧
    (∀ c ∈ (gpaint_line sink origin layout lh dr ww wb).trace, c.sameRow) :=
  ⟨(gpaint_line_emap sink origin layout lh dr ww wb).symm,
    fun uo us oy cx cy => rfl,
    row_gpaint_line sink origin layout lh dr ww wb⟩

end Zed
